import Mathlib

/-!
# Othello search/undo engine (`othello.c`)

A shallow embedding of the core of `othello.c`: the board, the move log, the
flip log, the validator `valid_move`, the generator `get_all` / `undo_get_all`,
the executor `make_move` / `undo_move` and the search `weigh_move` /
`suggest_move`.

Conventions of the embedding.

* A C `int` is a mathematical integer (`Int`).  The program's arithmetic is
  on coordinates, log indices, sums of table weights over at most 60 plies and
  `max_depth - 1`; none of it leaves the range of `int`, except `max_depth - 1`
  at the least `int`.
* A C array is a total map from indices to values; `a[k] = v` is `store a k v`.
  The embedding does not bound the index: the declared capacities
  (`moves_x[1830]`, `flips_x[1520]`, 60 blocks each) are the constants
  `MOVES_CAP`, `FLIPS_CAP`, `BLOCKS_CAP`, and which indices an operation writes
  is part of its characterisation (`get_all_eq`, `make_move_eq`).  The forms
  `make_move_chk`, `get_all_chk`, `undo_move_chk`, `undo_get_all_chk` and the
  search built on them (`weigh_move_chk`, `suggest_move_chk`) return `none`
  when an index leaves its array; `log_capacity` shows that they agree with
  the unchecked forms in every state of a game.
* The global variables are the fields of `State`; a C function that mutates
  globals is a function `State → State`.  `valid_move` and
  `number_of_empties` only read the board and are functions of the board.
* A `for` loop over a fixed range is a fold over the list of its index values
  (`dirs`, `cells`); a `for` loop `for (i = a; i < top; i++)` is a recursion on
  the number `(top - a).toNat` of its iterations.
* The two `while` loops walk along a ray of the board.  They are recursions on
  a step budget; `valid_move` and `make_move` give them the budget 8, which
  the loops never use up (`walk_end`, `flip_back_run`, `capture_len_lt`).
* `weigh_move` is recursive in C; here it is a recursion on a call budget and
  returns `none` when the budget is used up; a caller passes `none` on
  (`Option.map`, `Option.bind`).  A budget of one call per empty cell is enough
  (`weigh_move_spec`).
* `rand()` is an oracle `rnd : Nat → Int`: the value of the `k`-th call.  The
  test `rand() % 2` is `rnd k % 2 ≠ 0`.
-/

namespace Othello

/-! ## Constants and macros -/

/-- The macro `#define EMPTY 0`. -/
def EMPTY : Int := 0
/-- The macro `#define BLACK 1`. -/
def BLACK : Int := 1
/-- The macro `#define WHITE 2`. -/
def WHITE : Int := 2

/-- The macro `#define OPPOSITE(x) ((~x)&3)`.  In twos-complement arithmetic
`~x = -x - 1`, and `& 3` keeps the residue modulo 4 (see `OPPOSITE_eq_land`). -/
def OPPOSITE (x : Int) : Int := (-x - 1) % 4

/-- The macro `#define VALID_CELL(x,y) ((x > -1) && (x < 8) && (y > -1) && (y < 8))`. -/
def VALID_CELL (x y : Int) : Prop := x > -1 ∧ x < 8 ∧ y > -1 ∧ y < 8

instance (x y : Int) : Decidable (VALID_CELL x y) := by
  unfold VALID_CELL; infer_instance

/-- Rows of `int weight[8][8]`. -/
def weight_rows : List (List Int) :=
  [ [512,   4, 128, 256, 256, 128,   4, 512],
    [  4,   2,   8,  16,  16,   8,   2,   4],
    [128,   8,  64,  32,  32,  64,   8, 128],
    [256,  16,  32,   2,   2,  32,  16, 256],
    [256,  16,  32,   2,   2,  32,  16, 256],
    [128,   8,  64,  32,  32,  64,   8, 128],
    [  4,   2,   8,  16,  16,   8,   2,   4],
    [512,   4, 128, 256, 256, 128,   4, 512] ]

/-- The entry `weight[i][j]` (read only at cells of the board). -/
def weight (i j : Int) : Int := (weight_rows.getD i.toNat []).getD j.toNat 0

/-- Capacity of `moves_x` and `moves_y`. -/
def MOVES_CAP : Int := 1830
/-- Capacity of `flips_x` and `flips_y`. -/
def FLIPS_CAP : Int := 1520
/-- Capacity of `moves_stack_block`, `flips_stack_block` and `flips_stack_who`. -/
def BLOCKS_CAP : Int := 60

/-! ## Program state -/

/-- The array `int board[8][8]`. -/
abbrev Board := Int → Int → Int

/-- A one-dimensional `int` array. -/
abbrev Arr := Int → Int

/-- The assignment `a[k] = v`. -/
def store (a : Arr) (k v : Int) : Arr := fun n => if n = k then v else a n

/-- The assignment `board[x][y] = v`. -/
def store2 (b : Board) (x y v : Int) : Board :=
  fun i j => if i = x ∧ j = y then v else b i j

/-- The global variables of `othello.c`. -/
structure State where
  board : Board
  moves_x : Arr
  moves_y : Arr
  moves_next : Int
  moves_stack_block : Arr
  moves_stack_next : Int
  flips_x : Arr
  flips_y : Arr
  flips_next : Int
  flips_stack_block : Arr
  flips_stack_who : Arr
  flips_stack_next : Int
  suggested_move_x : Int
  suggested_move_y : Int

/-- The values of `(dx, dy)` in the order of
`for(dx = -1; dx < 2; dx++) for(dy = -1; dy < 2; dy++)`. -/
def dirs : List (Int × Int) :=
  [(-1, -1), (-1, 0), (-1, 1), (0, -1), (0, 0), (0, 1), (1, -1), (1, 0), (1, 1)]

/-- The values of `(i, j)` in the order of
`for(i = 0; i < 8; i++) for(j = 0; j < 8; j++)`. -/
def cells : List (Int × Int) :=
  (List.range 8).flatMap fun i => (List.range 8).map fun j => (Int.ofNat i, Int.ofNat j)

/-! ## `clear_board`, `number_of_empties` -/

/-- The function `clear_board()`. -/
def clear_board (s : State) : State :=
  let b0 : Board := cells.foldl (fun b c => store2 b c.1 c.2 EMPTY) s.board
  let b1 := store2 b0 4 4 WHITE
  let b2 := store2 b1 3 3 WHITE
  let b3 := store2 b2 4 3 BLACK
  let b4 := store2 b3 3 4 BLACK
  { s with board := b4, moves_next := 0, moves_stack_next := 0,
           flips_next := 0, flips_stack_next := 0 }

/-- The function `number_of_empties()`. -/
def number_of_empties (b : Board) : Int :=
  cells.foldl (fun count c => if b c.1 c.2 ≠ 0 then count - 1 else count) 64

/-! ## `valid_move` -/

/-- The loop `do { i += dx; j += dy; } while(VALID_CELL(i, j) && (board[i][j] == opp));`
run from `(i, j)` with a budget of `n` iterations; the result is `(i, j)` after
the loop. -/
def walk (b : Board) (opp dx dy : Int) : Nat → Int → Int → Int × Int
  | 0, i, j => (i, j)
  | n + 1, i, j =>
    if VALID_CELL (i + dx) (j + dy) ∧ b (i + dx) (j + dy) = opp then
      walk b opp dx dy n (i + dx) (j + dy)
    else (i + dx, j + dy)

/-- The body of the direction loops of `valid_move` from the direction `d` on:
`1` as soon as a direction ends on a disc of `who`, `0` when none does. -/
def valid_move_dirs (b : Board) (x y who : Int) : List (Int × Int) → Int
  | [] => 0
  | d :: ds =>
    let opp := OPPOSITE who
    let i := x + d.1
    let j := y + d.2
    if (d.1 ≠ 0 ∨ d.2 ≠ 0) ∧ VALID_CELL i j ∧ b i j = opp then
      let e := walk b opp d.1 d.2 8 i j
      if VALID_CELL e.1 e.2 ∧ b e.1 e.2 = who then 1
      else valid_move_dirs b x y who ds
    else valid_move_dirs b x y who ds

/-- The function `valid_move(x, y, who)`; it reads the board only. -/
def valid_move (b : Board) (x y who : Int) : Int :=
  if VALID_CELL x y ∧ b x y ≠ 0 then 0
  else valid_move_dirs b x y who dirs

/-! ## `get_all`, `undo_get_all` -/

/-- The body of the cell loops of `get_all` at the cell `c`. -/
def get_all_step (who : Int) (s : State) (c : Int × Int) : State :=
  if valid_move s.board c.1 c.2 who ≠ 0 then
    { s with
      moves_x := store s.moves_x s.moves_next c.1
      moves_y := store s.moves_y s.moves_next c.2
      moves_next := s.moves_next + 1
      moves_stack_block :=
        store s.moves_stack_block s.moves_stack_next
          (s.moves_stack_block s.moves_stack_next + 1) }
  else s

/-- The function `get_all(who)`. -/
def get_all (who : Int) (s : State) : State :=
  let s0 := { s with moves_stack_block := store s.moves_stack_block s.moves_stack_next 0 }
  let s1 := cells.foldl (get_all_step who) s0
  { s1 with moves_stack_next := s1.moves_stack_next + 1 }

/-- The function `undo_get_all()`. -/
def undo_get_all (s : State) : State :=
  { s with
    moves_stack_next := s.moves_stack_next - 1
    moves_next := s.moves_next - s.moves_stack_block (s.moves_stack_next - 1) }

/-! ## `make_move`, `undo_move` -/

/-- The loop `while(board[i][j] == opp) { board[i][j] = who; flips_x[flips_next] = i;
flips_y[flips_next] = j; flips_next++; flips_stack_block[flips_stack_next]++;
i -= dx; j -= dy; }` run from `(i, j)` with a budget of `n` iterations. -/
def flip_back (who opp dx dy : Int) : Nat → Int → Int → State → State
  | 0, _, _, s => s
  | n + 1, i, j, s =>
    if s.board i j = opp then
      flip_back who opp dx dy n (i - dx) (j - dy)
        { s with
          board := store2 s.board i j who
          flips_x := store s.flips_x s.flips_next i
          flips_y := store s.flips_y s.flips_next j
          flips_next := s.flips_next + 1
          flips_stack_block :=
            store s.flips_stack_block s.flips_stack_next
              (s.flips_stack_block s.flips_stack_next + 1) }
    else s

/-- The body of the direction loops of `make_move` for the direction `d`. -/
def make_move_dir (x y who : Int) (s : State) (d : Int × Int) : State :=
  let opp := OPPOSITE who
  let i := x + d.1
  let j := y + d.2
  if (d.1 ≠ 0 ∨ d.2 ≠ 0) ∧ VALID_CELL i j ∧ s.board i j = opp then
    let e := walk s.board opp d.1 d.2 8 i j
    if VALID_CELL e.1 e.2 ∧ s.board e.1 e.2 = who then
      flip_back who opp d.1 d.2 8 (e.1 - d.1) (e.2 - d.2) s
    else s
  else s

/-- The function `make_move(x, y, who)`. -/
def make_move (x y who : Int) (s : State) : State :=
  let s0 : State :=
    { s with
      board := store2 s.board x y who
      flips_x := store s.flips_x s.flips_next x
      flips_y := store s.flips_y s.flips_next y
      flips_next := s.flips_next + 1
      flips_stack_block := store s.flips_stack_block s.flips_stack_next 1
      flips_stack_who := store s.flips_stack_who s.flips_stack_next who }
  let s1 := dirs.foldl (make_move_dir x y who) s0
  { s1 with flips_stack_next := s1.flips_stack_next + 1 }

/-- The loop `for(i = ...; i < top; i++) board[flips_x[i]][flips_y[i]] = who;`
with `n` iterations left, at index `i`. -/
def undo_loop (who : Int) : Nat → Int → State → State
  | 0, _, s => s
  | n + 1, i, s =>
    undo_loop who n (i + 1)
      { s with board := store2 s.board (s.flips_x i) (s.flips_y i) who }

/-- The function `undo_move()`. -/
def undo_move (s : State) : State :=
  let top := s.flips_next
  let s1 : State :=
    { s with
      flips_stack_next := s.flips_stack_next - 1
      flips_next := s.flips_next - s.flips_stack_block (s.flips_stack_next - 1) }
  let s2 : State :=
    { s1 with board := store2 s1.board (s1.flips_x s1.flips_next) (s1.flips_y s1.flips_next) EMPTY }
  let who := OPPOSITE (s2.flips_stack_who s2.flips_stack_next)
  undo_loop who (top - (s2.flips_next + 1)).toNat (s2.flips_next + 1) s2

/-! ## `weigh_move`, `suggest_move` -/

/-- The loop `for(i = bottom; i < top; i++) acc ± = weight[flips_x[i]][flips_y[i]];`
as the sum of the weights of the `n` log entries from index `i` on. -/
def sum_weights (s : State) : Nat → Int → Int
  | 0, _ => 0
  | n + 1, i => weight (s.flips_x i) (s.flips_y i) + sum_weights s n (i + 1)

/-- The loop `for(i = ...; i < top; i++) { temp = weigh_move(moves_x[i], moves_y[i], ...);
if(temp < depth_weight) depth_weight = temp; }` with `n` iterations left, at index
`i`; `call` is the recursive call. -/
def weigh_loop (call : Int → Int → State → Option (Int × State)) :
    Nat → Int → Int → State → Option (Int × State)
  | 0, _, depth_weight, s => some (depth_weight, s)
  | n + 1, i, depth_weight, s =>
    match call (s.moves_x i) (s.moves_y i) s with
    | none => none
    | some (temp, s1) =>
      weigh_loop call n (i + 1) (if temp < depth_weight then temp else depth_weight) s1

/-- The body of `weigh_move(x, y, who, max_depth, add)`; `call` is `weigh_move`
itself, for the recursive calls. -/
def weigh_move_body (call : Int → Int → Int → Int → Int → State → Option (Int × State))
    (x y who max_depth add : Int) (s : State) : Option (Int × State) :=
  let bottom := s.flips_next
  let s1 := make_move x y who s
  let top := s1.flips_next
  let move_weight : Int :=
    if add ≠ 0 then sum_weights s1 (top - bottom).toNat bottom
    else 0 - sum_weights s1 (top - bottom).toNat bottom
  if max_depth ≠ 0 ∧ number_of_empties s1.board ≠ 0 then
    let who1 := OPPOSITE who
    let max_depth1 := max_depth - 1
    let add1 : Int := if add = 0 then 1 else 0
    let bottom1 := s1.moves_next
    let s2 := get_all who1 s1
    let top1 := s2.moves_next
    (weigh_loop (fun mx my t => call mx my who1 max_depth1 add1 t)
        (top1 - bottom1).toNat bottom1 0 s2).map
      fun r => (move_weight + r.1, undo_move (undo_get_all r.2))
  else some (move_weight + 0, undo_move s1)

/-- The function `weigh_move(x, y, who, max_depth, add)` with a budget of nested calls; the
result is the returned weight and the state at return. -/
def weigh_move : Nat → Int → Int → Int → Int → Int → State → Option (Int × State)
  | 0 => fun _ _ _ _ _ _ => none
  | fuel + 1 => weigh_move_body (weigh_move fuel)

/-- The `int` returned by `weigh_move`. -/
def weigh_value (fuel : Nat) (x y who max_depth add : Int) (s : State) : Option Int :=
  (weigh_move fuel x y who max_depth add s).map Prod.fst

/-- The loop `for(i = bottom + 1; i < top; i++)` of `suggest_move` with `n`
iterations left, at index `i`; `k` counts the calls of `rand()` made so far.
The result is `best_weight`, the state and the count of `rand()` calls. -/
def suggest_loop (fuel : Nat) (rnd : Nat → Int) (who max_depth : Int) :
    Nat → Int → Int → Nat → State → Option (Int × Nat × State)
  | 0, _, best_weight, k, s => some (best_weight, k, s)
  | n + 1, i, best_weight, k, s =>
    match weigh_move fuel (s.moves_x i) (s.moves_y i) who max_depth 1 s with
    | none => none
    | some (move_weight, s1) =>
      if move_weight > best_weight then
        suggest_loop fuel rnd who max_depth n (i + 1) move_weight k
          { s1 with suggested_move_x := s1.moves_x i, suggested_move_y := s1.moves_y i }
      else if move_weight = best_weight then
        if rnd k % 2 ≠ 0 then
          suggest_loop fuel rnd who max_depth n (i + 1) move_weight (k + 1)
            { s1 with suggested_move_x := s1.moves_x i, suggested_move_y := s1.moves_y i }
        else suggest_loop fuel rnd who max_depth n (i + 1) best_weight (k + 1) s1
      else suggest_loop fuel rnd who max_depth n (i + 1) best_weight k s1

/-- The function `suggest_move(who, max_depth)`, with the call budget of `weigh_move` and the
`rand()` oracle; the result is the returned `int` and the state at return. -/
def suggest_move (fuel : Nat) (rnd : Nat → Int) (who max_depth : Int) (s : State) :
    Option (Int × State) :=
  if number_of_empties s.board = 0 then some (0, s)
  else
    let max_depth1 : Int :=
      if number_of_empties s.board < 11 ∧ max_depth ≠ 0 then 10 else max_depth
    let bottom := s.moves_next
    let s1 := get_all who s
    let top := s1.moves_next
    if top = bottom then some (0, undo_get_all s1)
    else
      let s2 : State :=
        { s1 with suggested_move_x := s1.moves_x bottom, suggested_move_y := s1.moves_y bottom }
      (weigh_move fuel s2.suggested_move_x s2.suggested_move_y who max_depth1 1 s2).bind
        fun r =>
          (suggest_loop fuel rnd who max_depth1 (top - (bottom + 1)).toNat (bottom + 1)
              r.1 0 r.2).map
            fun q => (1, undo_get_all q.2.2)

/-! ## Specification-level notions -/

/-- The number of consecutive in-bounds cells holding `opp` on the ray
`(i, j), (i + dx, j + dy), ...`, looking at no more than `n` cells. -/
def run_len (b : Board) (opp dx dy : Int) : Nat → Int → Int → Nat
  | 0, _, _ => 0
  | n + 1, i, j =>
    if VALID_CELL i j ∧ b i j = opp then 1 + run_len b opp dx dy n (i + dx) (j + dy) else 0

/-- The cells `1..k` of the ray from `(x, y)` in direction `(dx, dy)` are
in-bounds and hold `opp`. -/
def Run (b : Board) (opp x y dx dy : Int) (k : Nat) : Prop :=
  ∀ m : Nat, 1 ≤ m → m ≤ k →
    VALID_CELL (x + m * dx) (y + m * dy) ∧ b (x + m * dx) (y + m * dy) = opp

/-- A run of `k ≥ 1` opponent discs from `(x, y)` in direction `(dx, dy)`
ended by an in-bounds disc of `who`. -/
def Bracket (b : Board) (who x y dx dy : Int) (k : Nat) : Prop :=
  1 ≤ k ∧ Run b (OPPOSITE who) x y dx dy k ∧
    VALID_CELL (x + (k + 1 : Nat) * dx) (y + (k + 1 : Nat) * dy) ∧
    b (x + (k + 1 : Nat) * dx) (y + (k + 1 : Nat) * dy) = who

/-- One of the 8 directions. -/
def IsDir (dx dy : Int) : Prop :=
  (dx = -1 ∨ dx = 0 ∨ dx = 1) ∧ (dy = -1 ∨ dy = 0 ∨ dy = 1) ∧ (dx ≠ 0 ∨ dy ≠ 0)

instance (dx dy : Int) : Decidable (IsDir dx dy) := by
  unfold IsDir; infer_instance

/-- The number of discs captured in direction `d` by a disc of `who` placed at
`(x, y)`: the length of the run of opponent discs next to `(x, y)` when the run
is ended by an in-bounds disc of `who`, and `0` otherwise. -/
def capture_len (b : Board) (who x y : Int) (d : Int × Int) : Nat :=
  let k := run_len b (OPPOSITE who) d.1 d.2 8 (x + d.1) (y + d.2)
  if (d.1 ≠ 0 ∨ d.2 ≠ 0) ∧ 1 ≤ k ∧
      VALID_CELL (x + (k + 1 : Nat) * d.1) (y + (k + 1 : Nat) * d.2) ∧
      b (x + (k + 1 : Nat) * d.1) (y + (k + 1 : Nat) * d.2) = who then k
  else 0

/-- The legal moves of `who` on the board `b`, in the order of the cell loops. -/
def legal_moves (b : Board) (who : Int) : List (Int × Int) :=
  cells.filter fun c => valid_move b c.1 c.2 who ≠ 0

/-- The array `a` after the writes `a[k] = v₀; a[k+1] = v₁; ...`. -/
def write_list (a : Arr) (k : Int) : List Int → Arr
  | [] => a
  | v :: vs => write_list (store a k v) (k + 1) vs

/-- Row-major order of cells: the order of the loops `for i, for j`. -/
def row_major_lt (a c : Int × Int) : Prop := a.1 < c.1 ∨ (a.1 = c.1 ∧ a.2 < c.2)

instance (a c : Int × Int) : Decidable (row_major_lt a c) := by
  unfold row_major_lt; infer_instance

/-- The cells `k, k-1, ..., 1` of the ray from `(x, y)` in direction `(dx, dy)`:
farthest first, the order in which `make_move` walks back. -/
def ray_back (x y dx dy : Int) : Nat → List (Int × Int)
  | 0 => []
  | k + 1 => (x + (k + 1 : Nat) * dx, y + (k + 1 : Nat) * dy) :: ray_back x y dx dy k

/-- The discs captured by a disc of `who` placed at `(x, y)` on the board `b`:
direction by direction in the order of `dirs`, farthest first within a
direction. -/
def captures (b : Board) (who x y : Int) : List (Int × Int) :=
  dirs.flatMap fun d => ray_back x y d.1 d.2 (capture_len b who x y d)

/-- The board after `board[c] = who` for the cells `c` of a list. -/
def paint (b : Board) (who : Int) (l : List (Int × Int)) : Board :=
  l.foldl (fun b c => store2 b c.1 c.2 who) b

/-- One iteration of the flipping loop of `make_move` at the cell `c`. -/
def log_flip (who : Int) (s : State) (c : Int × Int) : State :=
  { s with
    board := store2 s.board c.1 c.2 who
    flips_x := store s.flips_x s.flips_next c.1
    flips_y := store s.flips_y s.flips_next c.2
    flips_next := s.flips_next + 1
    flips_stack_block :=
      store s.flips_stack_block s.flips_stack_next
        (s.flips_stack_block s.flips_stack_next + 1) }

/-- The cells logged in `flips_x`, `flips_y` at the `n` indices from `i` on. -/
def log_cells (fx fy : Arr) : Nat → Int → List (Int × Int)
  | 0, _ => []
  | n + 1, i => (fx i, fy i) :: log_cells fx fy n (i + 1)

/-- The state `t` has the board, the log sizes and the live log entries (those
below the log sizes) of the state `s`. -/
def Preserved (s t : State) : Prop :=
  t.board = s.board ∧
  t.moves_next = s.moves_next ∧ t.moves_stack_next = s.moves_stack_next ∧
  t.flips_next = s.flips_next ∧ t.flips_stack_next = s.flips_stack_next ∧
  (∀ n, n < s.moves_next → t.moves_x n = s.moves_x n ∧ t.moves_y n = s.moves_y n) ∧
  (∀ n, n < s.moves_stack_next → t.moves_stack_block n = s.moves_stack_block n) ∧
  (∀ n, n < s.flips_next → t.flips_x n = s.flips_x n ∧ t.flips_y n = s.flips_y n) ∧
  (∀ n, n < s.flips_stack_next →
    t.flips_stack_block n = s.flips_stack_block n ∧ t.flips_stack_who n = s.flips_stack_who n)

/-- The state `t` has the suggestion of the state `s`. -/
def SameSuggestion (s t : State) : Prop :=
  t.suggested_move_x = s.suggested_move_x ∧ t.suggested_move_y = s.suggested_move_y

/-- The board after a disc of `who` is placed at `(x, y)` and every bracketed
run of the board `b` is flipped at once. -/
def after_move (b : Board) (who x y : Int) : Board :=
  paint (store2 b x y who) who (captures b who x y)

/-- The number of empty cells of the board, as a count. -/
def empties (b : Board) : Nat := cells.countP fun c => b c.1 c.2 = 0

/-- The sum of `weight` over the cell of a move and the cells it captures. -/
def move_weight (b : Board) (who x y : Int) : Int :=
  weight x y + ((captures b who x y).map fun c => weight c.1 c.2).sum

/-- The running minimum kept in `depth_weight` by the reply loop of `weigh_move`. -/
def min_fold (f : Int × Int → Int) (l : List (Int × Int)) (acc : Int) : Int :=
  l.foldl (fun acc c => if f c < acc then f c else acc) acc

/-- The value returned by `weigh_move`, as a function of the board alone. -/
def score : Nat → Board → Int → Int → Int → Int → Int → Int
  | 0, _, _, _, _, _, _ => 0
  | fuel + 1, b, x, y, who, max_depth, add =>
    let w : Int := if add ≠ 0 then move_weight b who x y else 0 - move_weight b who x y
    if max_depth ≠ 0 ∧ number_of_empties (after_move b who x y) ≠ 0 then
      w + min_fold
        (fun c => score fuel (after_move b who x y) c.1 c.2 (OPPOSITE who) (max_depth - 1)
          (if add = 0 then 1 else 0))
        (legal_moves (after_move b who x y) (OPPOSITE who)) 0
    else w + 0

/-- The choice made by the candidate loop of `suggest_move` over the candidates
`l`, from the best weight `best`, the current suggestion `cur` and `k` calls of
`rand()` so far: the final best weight, suggestion and count of calls. -/
def pick (rnd : Nat → Int) (f : Int × Int → Int) :
    List (Int × Int) → Int → Int × Int → Nat → Int × (Int × Int) × Nat
  | [], best, cur, k => (best, cur, k)
  | c :: l, best, cur, k =>
    if f c > best then pick rnd f l (f c) c k
    else if f c = best then
      if rnd k % 2 ≠ 0 then pick rnd f l (f c) c (k + 1)
      else pick rnd f l best cur (k + 1)
    else pick rnd f l best cur k

/-- The depth used by `suggest_move` after the end-game override. -/
def effective_depth (b : Board) (max_depth : Int) : Int :=
  if number_of_empties b < 11 ∧ max_depth ≠ 0 then 10 else max_depth

/-- The cell `(i, j)` lies on a run of opponent discs that starts next to `(x, y)`
in one of the 8 directions and is ended by an in-bounds disc of `who`, on the
board `b`. -/
def Bracketed (b : Board) (who x y i j : Int) : Prop :=
  ∃ dx dy : Int, IsDir dx dy ∧ ∃ k m : Nat, Bracket b who x y dx dy k ∧
    1 ≤ m ∧ m ≤ k ∧ i = x + m * dx ∧ j = y + m * dy

/-- The initial layout: `(3,3)` and `(4,4)` White, `(3,4)` and `(4,3)` Black. -/
def init_board : Board := fun i j =>
  if (i = 3 ∧ j = 3) ∨ (i = 4 ∧ j = 4) then WHITE
  else if (i = 3 ∧ j = 4) ∨ (i = 4 ∧ j = 3) then BLACK
  else EMPTY

/-- A state with an empty board and empty logs. -/
def zero_state : State :=
  { board := fun _ _ => 0
    moves_x := fun _ => 0
    moves_y := fun _ => 0
    moves_next := 0
    moves_stack_block := fun _ => 0
    moves_stack_next := 0
    flips_x := fun _ => 0
    flips_y := fun _ => 0
    flips_next := 0
    flips_stack_block := fun _ => 0
    flips_stack_who := fun _ => 0
    flips_stack_next := 0
    suggested_move_x := 0
    suggested_move_y := 0 }

/-- The state of a new game. -/
def start_state : State := clear_board zero_state

/-- A board with a White disc at `(0, 0)` and a Black disc at `(1, 0)`. -/
def edge_board : Board := fun i j =>
  if i = 0 ∧ j = 0 then WHITE else if i = 1 ∧ j = 0 then BLACK else EMPTY

/-- A board near the end of a game: all Black but for the empty cells `(0, 0)`,
`(0, 4)`, `(7, 3)` and the White discs at `(0, 1)`, `(0, 3)`. -/
def late_board : Board := fun i j =>
  if (i = 0 ∧ j = 0) ∨ (i = 0 ∧ j = 4) ∨ (i = 7 ∧ j = 3) then EMPTY
  else if (i = 0 ∧ j = 1) ∨ (i = 0 ∧ j = 3) then WHITE
  else BLACK

/-- A state with the board `late_board` and empty logs. -/
def late_state : State := { zero_state with board := late_board }

/-- The number of cells of the board that hold the value `v`: the count made by
the scoring loops of `main`. -/
def count_discs (b : Board) (v : Int) : Nat := cells.countP fun c => b c.1 c.2 = v

/-- The sum `a[0] + ... + a[n-1]` of the first `n` block lengths. -/
def block_sum (a : Arr) : Nat → Int
  | 0 => 0
  | n + 1 => block_sum a n + a n

/-- The states reachable from `clear_board()` by `get_all`, by `undo_get_all` when
a move block is there to pop, by `make_move` on a legal in-bounds move of a
player, and by `undo_move` when a flip block is there to pop. -/
inductive LogReach : State → Prop
  | clear (s : State) : LogReach (clear_board s)
  | get_all (who : Int) (s : State) : LogReach s → LogReach (get_all who s)
  | undo_get_all (s : State) : LogReach s → 0 < s.moves_stack_next →
      LogReach (undo_get_all s)
  | make_move (x y who : Int) (s : State) : LogReach s → (who = BLACK ∨ who = WHITE) →
      VALID_CELL x y → valid_move s.board x y who = 1 → LogReach (make_move x y who s)
  | undo_move (s : State) : LogReach s → 0 < s.flips_stack_next → LogReach (undo_move s)

/-! ## The capacity of the logs -/

/-- The triangular number `1 + 2 + ... + n`; `tri 60 = 1830` is the size of
`moves_x` and `moves_y`. -/
def tri : Nat → Nat
  | 0 => 0
  | n + 1 => tri n + (n + 1)

/-- Every log counter is inside its reserved array: `flips_stack_next` and
`moves_stack_next` in `0..60`, `flips_next` in `0..1520` and `moves_next` in
`0..1830`. -/
def InCap (s : State) : Prop :=
  0 ≤ s.flips_stack_next ∧ s.flips_stack_next ≤ BLOCKS_CAP ∧
  0 ≤ s.flips_next ∧ s.flips_next ≤ FLIPS_CAP ∧
  0 ≤ s.moves_stack_next ∧ s.moves_stack_next ≤ BLOCKS_CAP ∧
  0 ≤ s.moves_next ∧ s.moves_next ≤ MOVES_CAP

instance (s : State) : Decidable (InCap s) := by
  unfold InCap; infer_instance

/-- The function `make_move(x, y, who)` with its writes checked against the sizes of the
arrays: the block is written at the index `flips_stack_next`, which has to be
below 60, and the entries are written at the indices from `flips_next` at entry
up to `flips_next` at exit, which have to lie in `0..1520`. The result is `none`
when a check fails. -/
def make_move_chk (x y who : Int) (s : State) : Option State :=
  if s.flips_stack_next < BLOCKS_CAP ∧ InCap s ∧ InCap (make_move x y who s) then
    some (make_move x y who s)
  else none

/-- The function `undo_move()` with its reads checked: a block has to be there to pop,
and the counters have to be inside the arrays before and after. -/
def undo_move_chk (s : State) : Option State :=
  if 0 < s.flips_stack_next ∧ InCap s ∧ InCap (undo_move s) then some (undo_move s) else none

/-- The function `get_all(who)` with its writes checked against the sizes of the arrays:
the block is written at the index `moves_stack_next`, which has to be below 60,
and the entries are written at the indices from `moves_next` at entry up to
`moves_next` at exit, which have to lie in `0..1830`. -/
def get_all_chk (who : Int) (s : State) : Option State :=
  if s.moves_stack_next < BLOCKS_CAP ∧ InCap s ∧ InCap (get_all who s) then
    some (get_all who s)
  else none

/-- The function `undo_get_all()` with its reads checked: a block has to be there to
pop, and the counters have to be inside the arrays before and after. -/
def undo_get_all_chk (s : State) : Option State :=
  if 0 < s.moves_stack_next ∧ InCap s ∧ InCap (undo_get_all s) then some (undo_get_all s)
  else none

/-- The body of `weigh_move(x, y, who, max_depth, add)` as in `weigh_move_body`,
with every call of `make_move`, `get_all`, `undo_get_all` and `undo_move`
replaced by its checked form. -/
def weigh_move_chk_body (call : Int → Int → Int → Int → Int → State → Option (Int × State))
    (x y who max_depth add : Int) (s : State) : Option (Int × State) :=
  let bottom := s.flips_next
  (make_move_chk x y who s).bind fun s1 =>
    let top := s1.flips_next
    let move_weight : Int :=
      if add ≠ 0 then sum_weights s1 (top - bottom).toNat bottom
      else 0 - sum_weights s1 (top - bottom).toNat bottom
    if max_depth ≠ 0 ∧ number_of_empties s1.board ≠ 0 then
      let who1 := OPPOSITE who
      let max_depth1 := max_depth - 1
      let add1 : Int := if add = 0 then 1 else 0
      let bottom1 := s1.moves_next
      (get_all_chk who1 s1).bind fun s2 =>
        let top1 := s2.moves_next
        (weigh_loop (fun mx my t => call mx my who1 max_depth1 add1 t)
            (top1 - bottom1).toNat bottom1 0 s2).bind
          fun r =>
            (undo_get_all_chk r.2).bind fun s3 =>
              (undo_move_chk s3).map fun s4 => (move_weight + r.1, s4)
    else (undo_move_chk s1).map fun s4 => (move_weight + 0, s4)

/-- The function `weigh_move` with checked log operations and a budget of nested calls. -/
def weigh_move_chk : Nat → Int → Int → Int → Int → Int → State → Option (Int × State)
  | 0 => fun _ _ _ _ _ _ => none
  | fuel + 1 => weigh_move_chk_body (weigh_move_chk fuel)

/-- The candidate loop of `suggest_move` as in `suggest_loop`, over the checked
`weigh_move`. -/
def suggest_loop_chk (fuel : Nat) (rnd : Nat → Int) (who max_depth : Int) :
    Nat → Int → Int → Nat → State → Option (Int × Nat × State)
  | 0, _, best_weight, k, s => some (best_weight, k, s)
  | n + 1, i, best_weight, k, s =>
    match weigh_move_chk fuel (s.moves_x i) (s.moves_y i) who max_depth 1 s with
    | none => none
    | some (move_weight, s1) =>
      if move_weight > best_weight then
        suggest_loop_chk fuel rnd who max_depth n (i + 1) move_weight k
          { s1 with suggested_move_x := s1.moves_x i, suggested_move_y := s1.moves_y i }
      else if move_weight = best_weight then
        if rnd k % 2 ≠ 0 then
          suggest_loop_chk fuel rnd who max_depth n (i + 1) move_weight (k + 1)
            { s1 with suggested_move_x := s1.moves_x i, suggested_move_y := s1.moves_y i }
        else suggest_loop_chk fuel rnd who max_depth n (i + 1) best_weight (k + 1) s1
      else suggest_loop_chk fuel rnd who max_depth n (i + 1) best_weight k s1

/-- The function `suggest_move(who, max_depth)` as in `suggest_move`, with every log
operation replaced by its checked form. -/
def suggest_move_chk (fuel : Nat) (rnd : Nat → Int) (who max_depth : Int) (s : State) :
    Option (Int × State) :=
  if number_of_empties s.board = 0 then some (0, s)
  else
    let max_depth1 : Int :=
      if number_of_empties s.board < 11 ∧ max_depth ≠ 0 then 10 else max_depth
    let bottom := s.moves_next
    (get_all_chk who s).bind fun s1 =>
      let top := s1.moves_next
      if top = bottom then (undo_get_all_chk s1).map fun s3 => (0, s3)
      else
        let s2 : State :=
          { s1 with suggested_move_x := s1.moves_x bottom, suggested_move_y := s1.moves_y bottom }
        (weigh_move_chk fuel s2.suggested_move_x s2.suggested_move_y who max_depth1 1 s2).bind
          fun r =>
            (suggest_loop_chk fuel rnd who max_depth1 (top - (bottom + 1)).toNat (bottom + 1)
                r.1 0 r.2).bind
              fun q => (undo_get_all_chk q.2.2).map fun s3 => (1, s3)

/-- The states reached from `clear_board()` by legal in-bounds moves of the
players alone. -/
inductive Played : State → Prop
  | clear (s : State) : Played (clear_board s)
  | make_move (x y who : Int) (s : State) : Played s → (who = BLACK ∨ who = WHITE) →
      VALID_CELL x y → valid_move s.board x y who = 1 → Played (make_move x y who s)

/-- The states reachable from `clear_board()` by `make_move` on a legal in-bounds
move of a player and by `undo_move` when the flip log holds a block. -/
inductive GameReach : State → Prop
  | clear (s : State) : GameReach (clear_board s)
  | make_move (x y who : Int) (s : State) : GameReach s → (who = BLACK ∨ who = WHITE) →
      VALID_CELL x y → valid_move s.board x y who = 1 → GameReach (make_move x y who s)
  | undo_move (s : State) : GameReach s → 0 < s.flips_stack_next → GameReach (undo_move s)

/-- The invariant of the game states: the move log is empty, the number of flip
blocks is 60 minus the number of empty cells, and the flip log holds at most 25
entries per block. -/
def GameInv (s : State) : Prop :=
  s.moves_next = 0 ∧ s.moves_stack_next = 0 ∧
  0 ≤ s.flips_stack_next ∧ s.flips_stack_next = 60 - (empties s.board : Nat) ∧
  0 ≤ s.flips_next ∧ s.flips_next ≤ 25 * s.flips_stack_next

/-- The invariant of the states at the entry of `weigh_move` during a search: the
flip log as in `GameInv`, at most `61 - e` move blocks and at most
`1830 - tri (e - 1)` logged moves, where `e` is the number of empty cells. -/
def SearchInv (s : State) : Prop :=
  0 ≤ s.flips_stack_next ∧ s.flips_stack_next = 60 - (empties s.board : Nat) ∧
  0 ≤ s.flips_next ∧ s.flips_next ≤ 25 * s.flips_stack_next ∧
  0 ≤ s.moves_stack_next ∧ s.moves_stack_next + (empties s.board : Nat) ≤ 61 ∧
  0 ≤ s.moves_next ∧ s.moves_next + (tri (empties s.board - 1) : Nat) ≤ 1830

/-! ## Basic facts -/

theorem OPPOSITE_black : OPPOSITE 1 = 2 := by decide

theorem OPPOSITE_white : OPPOSITE 2 = 1 := by decide

theorem OPPOSITE_ne {who : Int} (h : who = 1 ∨ who = 2) : who ≠ OPPOSITE who := by
  rcases h with h | h <;> subst h <;> decide

theorem OPPOSITE_ne_zero {who : Int} (h : who = 1 ∨ who = 2) : OPPOSITE who ≠ 0 := by
  rcases h with h | h <;> subst h <;> decide

theorem OPPOSITE_OPPOSITE {who : Int} (h : who = 1 ∨ who = 2) :
    OPPOSITE (OPPOSITE who) = who := by
  rcases h with h | h <;> subst h <;> decide

theorem ldiff_three (n : Nat) : Nat.ldiff 3 n = 3 - n % 4 := by
  obtain ⟨b0, m, rfl⟩ : ∃ b0 m, n = Nat.bit b0 m := ⟨_, _, (Nat.bit_decomp n).symm⟩
  obtain ⟨b1, q, rfl⟩ : ∃ b1 q, m = Nat.bit b1 q := ⟨_, _, (Nat.bit_decomp m).symm⟩
  have h3 : (3 : Nat) = Nat.bit true (Nat.bit true 0) := by decide
  have hz : Nat.ldiff 0 q = 0 := by
    simp [Nat.ldiff]
  conv_lhs => rw [h3, Nat.ldiff_bit, Nat.ldiff_bit, hz]
  cases b0 <;> cases b1 <;> simp [Nat.bit] <;> omega

theorem land_three (n : Nat) : n &&& 3 = n % 4 := by
  exact Nat.and_pow_two_sub_one_eq_mod n 2

/-- The macro `OPPOSITE` on mathematical integers is `(~x) & 3` on two's
complement integers. -/
theorem OPPOSITE_eq_land (x : Int) : OPPOSITE x = Int.land (Int.not x) 3 := by
  unfold OPPOSITE
  cases x with
  | ofNat n =>
    show _ = ((Nat.ldiff 3 n : Nat) : Int)
    rw [ldiff_three]
    simp only [Int.ofNat_eq_coe]
    omega
  | negSucc n =>
    show _ = ((n &&& 3 : Nat) : Int)
    rw [land_three]
    simp only [Int.negSucc_eq]
    omega
theorem mem_dirs_iff (d : Int × Int) :
    d ∈ dirs ↔ (d.1 = -1 ∨ d.1 = 0 ∨ d.1 = 1) ∧ (d.2 = -1 ∨ d.2 = 0 ∨ d.2 = 1) := by
  obtain ⟨dx, dy⟩ := d
  simp only [dirs, List.mem_cons, Prod.mk.injEq, List.mem_singleton, List.not_mem_nil, or_false]
  constructor
  · rintro (h | h | h | h | h | h | h | h | h) <;> omega
  · rintro ⟨h1 | h1 | h1, h2 | h2 | h2⟩ <;> subst h1 <;> subst h2 <;> simp

/-- From an in-bounds cell, the 8th cell of a ray is out of bounds. -/
theorem ray_leaves {dx dy i j : Int} (hd : IsDir dx dy) (hv : VALID_CELL i j) (m : Nat)
    (hm : 7 < m) : ¬ VALID_CELL (i + m * dx) (j + m * dy) := by
  obtain ⟨h1, h2, h3⟩ := hd
  unfold VALID_CELL at *
  rcases h1 with h | h | h <;> rcases h2 with h' | h' | h' <;> subst h <;> subst h' <;>
    simp at h3 ⊢ <;> omega

/-- The ray visits each cell once. -/
theorem ray_inj {dx dy : Int} (hd : dx ≠ 0 ∨ dy ≠ 0) {x y : Int} {m n : Int}
    (h1 : x + m * dx = x + n * dx) (h2 : y + m * dy = y + n * dy) : m = n := by
  rcases hd with h | h
  · have : (m - n) * dx = 0 := by linarith
    rcases mul_eq_zero.mp this with h' | h'
    · omega
    · exact absurd h' h
  · have : (m - n) * dy = 0 := by linarith
    rcases mul_eq_zero.mp this with h' | h'
    · omega
    · exact absurd h' h

theorem ray_coord {d e : Int} (hd : d = -1 ∨ d = 0 ∨ d = 1) (he : e = -1 ∨ e = 0 ∨ e = 1)
    {x : Int} {m n : Nat} (hm : 1 ≤ m) (hn : 1 ≤ n) (h : x + m * d = x + n * e) : d = e := by
  rcases hd with h1 | h1 | h1 <;> rcases he with h2 | h2 | h2 <;> subst h1 <;> subst h2 <;>
    simp at h ⊢ <;> omega

/-- Two rays from one cell in different directions share no cell. -/
theorem ray_disjoint {dx dy ex ey : Int} (hd : IsDir dx dy) (he : IsDir ex ey)
    {x y : Int} {m n : Nat} (hm : 1 ≤ m) (hn : 1 ≤ n)
    (h1 : x + m * dx = x + n * ex) (h2 : y + m * dy = y + n * ey) : dx = ex ∧ dy = ey :=
  ⟨ray_coord hd.1 he.1 hm hn h1, ray_coord hd.2.1 he.2.1 hm hn h2⟩

/-! ## The scan along a ray -/

theorem run_len_le (b : Board) (opp dx dy : Int) (n : Nat) (i j : Int) :
    run_len b opp dx dy n i j ≤ n := by
  induction n generalizing i j with
  | zero => simp [run_len]
  | succ n ih =>
    simp only [run_len]
    split
    · have := ih (i + dx) (j + dy); omega
    · omega

theorem run_len_run (b : Board) (opp dx dy : Int) (n : Nat) (i j : Int) (m : Nat)
    (hm : m < run_len b opp dx dy n i j) :
    VALID_CELL (i + m * dx) (j + m * dy) ∧ b (i + m * dx) (j + m * dy) = opp := by
  induction n generalizing i j m with
  | zero => simp [run_len] at hm
  | succ n ih =>
    simp only [run_len] at hm
    split at hm
    · rename_i hc
      cases m with
      | zero => simpa using hc
      | succ m =>
        have := ih (i + dx) (j + dy) m (by omega)
        have e1 : i + ((m + 1 : Nat) : Int) * dx = i + dx + (m : Int) * dx := by push_cast; ring
        have e2 : j + ((m + 1 : Nat) : Int) * dy = j + dy + (m : Int) * dy := by push_cast; ring
        rw [e1, e2]; exact this
    · omega

theorem run_len_stop (b : Board) (opp dx dy : Int) (n : Nat) (i j : Int)
    (hlt : run_len b opp dx dy n i j < n) :
    ¬ (VALID_CELL (i + (run_len b opp dx dy n i j : Nat) * dx)
          (j + (run_len b opp dx dy n i j : Nat) * dy) ∧
        b (i + (run_len b opp dx dy n i j : Nat) * dx)
          (j + (run_len b opp dx dy n i j : Nat) * dy) = opp) := by
  induction n generalizing i j with
  | zero => omega
  | succ n ih =>
    simp only [run_len] at hlt ⊢
    split
    · rename_i hc
      rw [if_pos hc] at hlt
      have := ih (i + dx) (j + dy) (by omega)
      have e1 : i + ((1 + run_len b opp dx dy n (i + dx) (j + dy) : Nat) : Int) * dx
          = i + dx + (run_len b opp dx dy n (i + dx) (j + dy) : Int) * dx := by push_cast; ring
      have e2 : j + ((1 + run_len b opp dx dy n (i + dx) (j + dy) : Nat) : Int) * dy
          = j + dy + (run_len b opp dx dy n (i + dx) (j + dy) : Int) * dy := by push_cast; ring
      rw [e1, e2]; exact this
    · rename_i hc
      simpa using hc

/-- The scan is determined by the first cell that does not continue the run. -/
theorem run_len_eq (b : Board) (opp dx dy : Int) (n : Nat) (i j : Int) (k : Nat)
    (hk : k < n)
    (hrun : ∀ m : Nat, m < k →
      VALID_CELL (i + m * dx) (j + m * dy) ∧ b (i + m * dx) (j + m * dy) = opp)
    (hstop : ¬ (VALID_CELL (i + k * dx) (j + k * dy) ∧ b (i + k * dx) (j + k * dy) = opp)) :
    run_len b opp dx dy n i j = k := by
  have hle := run_len_le b opp dx dy n i j
  rcases Nat.lt_trichotomy (run_len b opp dx dy n i j) k with h | h | h
  · exact absurd (hrun _ h) (run_len_stop b opp dx dy n i j (by omega))
  · exact h
  · exact absurd (run_len_run b opp dx dy n i j k h) hstop

/-- On the board a run that starts next to an in-bounds cell has fewer than 8 cells. -/
theorem run_len_lt (b : Board) (opp : Int) {dx dy : Int} (hd : IsDir dx dy) (n : Nat) {i j : Int}
    (hv : VALID_CELL i j) : run_len b opp dx dy n (i + dx) (j + dy) < 8 := by
  by_contra h
  have h7 := (run_len_run b opp dx dy n (i + dx) (j + dy) 7 (by omega)).1
  have e1 : i + dx + ((7 : Nat) : Int) * dx = i + ((8 : Nat) : Int) * dx := by push_cast; ring
  have e2 : j + dy + ((7 : Nat) : Int) * dy = j + ((8 : Nat) : Int) * dy := by push_cast; ring
  rw [e1, e2] at h7
  exact ray_leaves hd hv 8 (by omega) h7

/-- The `do ... while` loop leaves by its own condition, one cell past the run,
whenever its budget exceeds the length of the run. -/
theorem walk_exit (b : Board) (opp dx dy : Int) (n : Nat) (i j : Int)
    (h : run_len b opp dx dy n (i + dx) (j + dy) < n) :
    walk b opp dx dy n i j =
      (i + (run_len b opp dx dy n (i + dx) (j + dy) + 1 : Nat) * dx,
       j + (run_len b opp dx dy n (i + dx) (j + dy) + 1 : Nat) * dy) := by
  induction n generalizing i j with
  | zero => omega
  | succ n ih =>
    simp only [run_len] at h ⊢
    simp only [walk]
    split
    · rename_i hc
      rw [if_pos hc] at h
      rw [ih (i + dx) (j + dy) (by omega)]
      ext <;> simp <;> ring
    · simp

theorem run_len_step (b : Board) (opp dx dy : Int) (n : Nat) (i j : Int) :
    run_len b opp dx dy (n + 1) i j =
      if VALID_CELL i j ∧ b i j = opp then 1 + run_len b opp dx dy n (i + dx) (j + dy)
      else 0 := rfl

theorem run_len_succ (b : Board) (opp dx dy : Int) (n : Nat) (i j : Int)
    (h : run_len b opp dx dy (n + 1) i j < n + 1) :
    run_len b opp dx dy n i j = run_len b opp dx dy (n + 1) i j := by
  induction n generalizing i j with
  | zero =>
    rw [run_len_step] at h ⊢
    by_cases hc : VALID_CELL i j ∧ b i j = opp
    · rw [if_pos hc] at h; omega
    · rw [if_neg hc]; rfl
  | succ n ih =>
    rw [run_len_step b opp dx dy (n + 1)] at h ⊢
    rw [run_len_step b opp dx dy n]
    by_cases hc : VALID_CELL i j ∧ b i j = opp
    · rw [if_pos hc] at h ⊢
      rw [if_pos hc, ih (i + dx) (j + dy) (by omega)]
    · rw [if_neg hc, if_neg hc]

theorem run_len_pos_iff (b : Board) (opp dx dy : Int) (n : Nat) (i j : Int) :
    1 ≤ run_len b opp dx dy (n + 1) i j ↔ VALID_CELL i j ∧ b i j = opp := by
  rw [run_len]
  split <;> simp_all

/-- Where the scan of `valid_move` and `make_move` stops: one cell past the run
of opponent discs. -/
theorem walk_end {b : Board} {opp dx dy x y : Int} (hd : IsDir dx dy)
    (hv : VALID_CELL (x + dx) (y + dy)) (ho : b (x + dx) (y + dy) = opp) :
    walk b opp dx dy 8 (x + dx) (y + dy) =
      (x + (run_len b opp dx dy 8 (x + dx) (y + dy) + 1 : Nat) * dx,
       y + (run_len b opp dx dy 8 (x + dx) (y + dy) + 1 : Nat) * dy) := by
  have h8 := run_len_lt b opp hd 8 hv
  rw [walk_exit b opp dx dy 8 _ _ h8]
  have h7 := run_len_succ b opp dx dy 7 (x + dx + dx) (y + dy + dy) h8
  have hk : run_len b opp dx dy 8 (x + dx) (y + dy)
      = 1 + run_len b opp dx dy 7 (x + dx + dx) (y + dy + dy) := by
    rw [run_len, if_pos ⟨hv, ho⟩]
  rw [hk, h7]
  ext <;> simp <;> ring

/-- The test of one direction in `valid_move` and `make_move`, in terms of
`capture_len`. -/
theorem dir_test_iff (b : Board) (who x y : Int) {d : Int × Int} (hd : d ∈ dirs) :
    ((d.1 ≠ 0 ∨ d.2 ≠ 0) ∧ VALID_CELL (x + d.1) (y + d.2) ∧
        b (x + d.1) (y + d.2) = OPPOSITE who) ∧
      (VALID_CELL (walk b (OPPOSITE who) d.1 d.2 8 (x + d.1) (y + d.2)).1
          (walk b (OPPOSITE who) d.1 d.2 8 (x + d.1) (y + d.2)).2 ∧
        b (walk b (OPPOSITE who) d.1 d.2 8 (x + d.1) (y + d.2)).1
          (walk b (OPPOSITE who) d.1 d.2 8 (x + d.1) (y + d.2)).2 = who)
    ↔ 1 ≤ capture_len b who x y d := by
  obtain ⟨dx, dy⟩ := d
  have hm := (mem_dirs_iff _).mp hd
  simp only at hm ⊢
  unfold capture_len
  simp only
  constructor
  · rintro ⟨⟨h0, hv, ho⟩, he⟩
    have hdir : IsDir dx dy := ⟨hm.1, hm.2, h0⟩
    rw [walk_end hdir hv ho] at he
    have hpos := (run_len_pos_iff b (OPPOSITE who) dx dy 7 (x + dx) (y + dy)).mpr ⟨hv, ho⟩
    rw [if_pos ⟨h0, hpos, he⟩]
    exact hpos
  · intro h
    split at h
    · rename_i hc
      obtain ⟨h0, hpos, he⟩ := hc
      have hdir : IsDir dx dy := ⟨hm.1, hm.2, h0⟩
      obtain ⟨hv, ho⟩ := (run_len_pos_iff b (OPPOSITE who) dx dy 7 (x + dx) (y + dy)).mp hpos
      refine ⟨⟨h0, hv, ho⟩, ?_⟩
      rw [walk_end hdir hv ho]
      exact he
    · omega

/-- A captured run is a bracket, and a bracket is the captured run. -/
theorem capture_len_eq_iff {b : Board} {who x y dx dy : Int} (hw : who ≠ OPPOSITE who)
    (hd : IsDir dx dy) (k : Nat) (hk : 1 ≤ k) :
    capture_len b who x y (dx, dy) = k ↔ Bracket b who x y dx dy k := by
  unfold capture_len
  simp only
  constructor
  · intro h
    split at h
    · rename_i hc
      obtain ⟨_, hpos, hv, he⟩ := hc
      rw [h] at hv he
      refine ⟨hk, ?_, hv, he⟩
      intro m hm1 hmk
      have := run_len_run b (OPPOSITE who) dx dy 8 (x + dx) (y + dy) (m - 1) (by omega)
      have e1 : x + dx + ((m - 1 : Nat) : Int) * dx = x + (m : Int) * dx := by
        rw [Nat.cast_sub hm1]; push_cast; ring
      have e2 : y + dy + ((m - 1 : Nat) : Int) * dy = y + (m : Int) * dy := by
        rw [Nat.cast_sub hm1]; push_cast; ring
      rw [e1, e2] at this
      exact this
    · omega
  · rintro ⟨_, hrun, hv, he⟩
    have h1 := hrun 1 (le_refl 1) hk
    simp only [Nat.cast_one, one_mul] at h1
    have hk8 : k < 8 := by
      by_contra hge
      have e1 : x + ((k + 1 : Nat) : Int) * dx = x + dx + (k : Int) * dx := by push_cast; ring
      have e2 : y + ((k + 1 : Nat) : Int) * dy = y + dy + (k : Int) * dy := by push_cast; ring
      rw [e1, e2] at hv
      exact ray_leaves hd h1.1 k (by omega) hv
    have hlen : run_len b (OPPOSITE who) dx dy 8 (x + dx) (y + dy) = k := by
      apply run_len_eq _ _ _ _ _ _ _ _ hk8
      · intro m hm
        have := hrun (m + 1) (by omega) (by omega)
        have e1 : x + dx + (m : Int) * dx = x + ((m + 1 : Nat) : Int) * dx := by push_cast; ring
        have e2 : y + dy + (m : Int) * dy = y + ((m + 1 : Nat) : Int) * dy := by push_cast; ring
        rw [e1, e2]; exact this
      · have e1 : x + dx + (k : Int) * dx = x + ((k + 1 : Nat) : Int) * dx := by push_cast; ring
        have e2 : y + dy + (k : Int) * dy = y + ((k + 1 : Nat) : Int) * dy := by push_cast; ring
        rw [e1, e2, he]
        exact fun h => hw h.2
    rw [hlen, if_pos ⟨hd.2.2, hk, hv, he⟩]

/-- The value of the direction loops of `valid_move`. -/
theorem valid_move_dirs_eq (b : Board) (x y who : Int) (ds : List (Int × Int))
    (hds : ∀ d ∈ ds, d ∈ dirs) :
    valid_move_dirs b x y who ds =
      if ∃ d ∈ ds, 1 ≤ capture_len b who x y d then 1 else 0 := by
  induction ds with
  | nil => simp [valid_move_dirs]
  | cons d ds ih =>
    have hd := hds d (List.mem_cons_self _ _)
    have ih := ih (fun e he => hds e (List.mem_cons_of_mem _ he))
    have key := dir_test_iff b who x y hd
    simp only [valid_move_dirs]
    by_cases hc : 1 ≤ capture_len b who x y d
    · obtain ⟨h1, h2⟩ := key.mpr hc
      rw [if_pos h1, if_pos h2, if_pos ⟨d, List.mem_cons_self _ _, hc⟩]
    · have hn := fun h => hc (key.mp h)
      have hrest : (if (d.1 ≠ 0 ∨ d.2 ≠ 0) ∧ VALID_CELL (x + d.1) (y + d.2) ∧
            b (x + d.1) (y + d.2) = OPPOSITE who then
          if VALID_CELL (walk b (OPPOSITE who) d.1 d.2 8 (x + d.1) (y + d.2)).1
                (walk b (OPPOSITE who) d.1 d.2 8 (x + d.1) (y + d.2)).2 ∧
              b (walk b (OPPOSITE who) d.1 d.2 8 (x + d.1) (y + d.2)).1
                (walk b (OPPOSITE who) d.1 d.2 8 (x + d.1) (y + d.2)).2 = who then (1 : Int)
          else valid_move_dirs b x y who ds
          else valid_move_dirs b x y who ds) = valid_move_dirs b x y who ds := by
        by_cases h1 : (d.1 ≠ 0 ∨ d.2 ≠ 0) ∧ VALID_CELL (x + d.1) (y + d.2) ∧
            b (x + d.1) (y + d.2) = OPPOSITE who
        · rw [if_pos h1, if_neg (fun h2 => hn ⟨h1, h2⟩)]
        · rw [if_neg h1]
      rw [hrest, ih]
      congr 1
      apply propext
      constructor
      · rintro ⟨e, he, h⟩; exact ⟨e, List.mem_cons_of_mem _ he, h⟩
      · rintro ⟨e, he, h⟩
        rcases List.mem_cons.mp he with rfl | he'
        · exact absurd h hc
        · exact ⟨e, he', h⟩

/-- The value of `valid_move`. -/
theorem valid_move_eq (b : Board) (x y who : Int) :
    valid_move b x y who =
      if (VALID_CELL x y ∧ b x y ≠ 0) then 0
      else if ∃ d ∈ dirs, 1 ≤ capture_len b who x y d then 1 else 0 := by
  unfold valid_move
  rw [valid_move_dirs_eq b x y who dirs (fun d h => h)]

/-- A direction captures exactly when it holds a bracket. -/
theorem exists_capture_iff {b : Board} {who x y : Int} (hw : who ≠ OPPOSITE who) :
    (∃ d ∈ dirs, 1 ≤ capture_len b who x y d) ↔
      ∃ dx dy : Int, IsDir dx dy ∧ ∃ k : Nat, Bracket b who x y dx dy k := by
  constructor
  · rintro ⟨⟨dx, dy⟩, hd, hk⟩
    have hm := (mem_dirs_iff _).mp hd
    have h0 : dx ≠ 0 ∨ dy ≠ 0 := by
      by_contra h0
      unfold capture_len at hk
      simp only at hk
      rw [if_neg (fun h => h0 h.1)] at hk
      omega
    have hdir : IsDir dx dy := ⟨hm.1, hm.2, h0⟩
    exact ⟨dx, dy, hdir, _, (capture_len_eq_iff hw hdir _ hk).mp rfl⟩
  · rintro ⟨dx, dy, hdir, k, hb⟩
    refine ⟨(dx, dy), (mem_dirs_iff _).mpr ⟨hdir.1, hdir.2.1⟩, ?_⟩
    rw [(capture_len_eq_iff hw hdir k hb.1).mpr hb]
    exact hb.1

/-! ## Arrays -/

@[simp] theorem store_same (a : Arr) (k v : Int) : store a k v k = v := by simp [store]

theorem store_other (a : Arr) (k v n : Int) (h : n ≠ k) : store a k v n = a n := by
  simp [store, h]

theorem store_store (a : Arr) (k u v : Int) : store (store a k u) k v = store a k v := by
  funext n; simp only [store]; split <;> rfl

theorem store_self (a : Arr) (k : Int) : store a k (a k) = a := by
  funext n; simp only [store]; split
  · rename_i h; rw [h]
  · rfl

@[simp] theorem store2_same (b : Board) (x y v : Int) : store2 b x y v x y = v := by
  simp [store2]

theorem store2_other (b : Board) (x y v i j : Int) (h : ¬ (i = x ∧ j = y)) :
    store2 b x y v i j = b i j := by
  simp only [store2, if_neg h]

theorem write_list_below (a : Arr) (k : Int) (vs : List Int) (n : Int) (h : n < k) :
    write_list a k vs n = a n := by
  induction vs generalizing a k with
  | nil => rfl
  | cons v vs ih =>
    rw [write_list, ih _ _ (by omega), store_other _ _ _ _ (by omega)]

theorem write_list_get (a : Arr) (k : Int) (vs : List Int) (m : Nat) (h : m < vs.length) :
    write_list a k vs (k + m) = vs.get ⟨m, h⟩ := by
  induction vs generalizing a k m with
  | nil => simp at h
  | cons v vs ih =>
    rw [write_list]
    cases m with
    | zero =>
      rw [write_list_below _ _ _ _ (by simp)]
      simp
    | succ m =>
      have e : k + ((m + 1 : Nat) : Int) = k + 1 + (m : Int) := by push_cast; ring
      rw [e, ih _ _ m (by simpa using h)]
      rfl

theorem write_list_above (a : Arr) (k : Int) (vs : List Int) (n : Int)
    (h : k + vs.length ≤ n) : write_list a k vs n = a n := by
  induction vs generalizing a k with
  | nil => rfl
  | cons v vs ih =>
    simp only [List.length_cons, Nat.cast_add, Nat.cast_one] at h
    rw [write_list, ih _ _ (by omega), store_other _ _ _ _ (by omega)]

/-! ## The cells of the board -/

theorem mem_cells_iff (c : Int × Int) : c ∈ cells ↔ VALID_CELL c.1 c.2 := by
  obtain ⟨i, j⟩ := c
  simp only [cells, List.mem_flatMap, List.mem_map, List.mem_range, Prod.mk.injEq, VALID_CELL,
    Int.ofNat_eq_coe]
  constructor
  · rintro ⟨a, ha, a', ha', rfl, rfl⟩
    omega
  · rintro ⟨h1, h2, h3, h4⟩
    have e1 : ((i.toNat : Nat) : Int) = i := Int.toNat_of_nonneg (by omega)
    have e2 : ((j.toNat : Nat) : Int) = j := Int.toNat_of_nonneg (by omega)
    exact ⟨i.toNat, by omega, j.toNat, by omega, e1, e2⟩

theorem cells_sorted : cells.Pairwise row_major_lt := by decide

theorem cells_nodup : cells.Nodup := by decide

/-! ## The validator reads the 64 cells only -/

theorem run_len_congr {b c : Board} (h : ∀ i j, VALID_CELL i j → b i j = c i j)
    (opp dx dy : Int) (n : Nat) (i j : Int) :
    run_len b opp dx dy n i j = run_len c opp dx dy n i j := by
  induction n generalizing i j with
  | zero => rfl
  | succ n ih =>
    rw [run_len_step, run_len_step, ih]
    by_cases hv : VALID_CELL i j
    · rw [h i j hv]
    · rw [if_neg (fun hc => hv hc.1), if_neg (fun hc => hv hc.1)]

theorem capture_len_congr {b c : Board} (h : ∀ i j, VALID_CELL i j → b i j = c i j)
    (who x y : Int) (d : Int × Int) : capture_len b who x y d = capture_len c who x y d := by
  unfold capture_len
  simp only
  rw [run_len_congr h]
  by_cases hv : VALID_CELL
      (x + (run_len c (OPPOSITE who) d.1 d.2 8 (x + d.1) (y + d.2) + 1 : Nat) * d.1)
      (y + (run_len c (OPPOSITE who) d.1 d.2 8 (x + d.1) (y + d.2) + 1 : Nat) * d.2)
  · rw [h _ _ hv]
  · rw [if_neg (fun hc => hv hc.2.2.1), if_neg (fun hc => hv hc.2.2.1)]

theorem valid_move_congr {b c : Board} (h : ∀ i j, VALID_CELL i j → b i j = c i j)
    (x y who : Int) : valid_move b x y who = valid_move c x y who := by
  rw [valid_move_eq, valid_move_eq]
  have h1 : (VALID_CELL x y ∧ b x y ≠ 0) ↔ (VALID_CELL x y ∧ c x y ≠ 0) := by
    constructor
    · rintro ⟨hv, hb⟩; exact ⟨hv, by rwa [← h x y hv]⟩
    · rintro ⟨hv, hb⟩; exact ⟨hv, by rwa [h x y hv]⟩
  have h2 : (∃ d ∈ dirs, 1 ≤ capture_len b who x y d) ↔
      (∃ d ∈ dirs, 1 ≤ capture_len c who x y d) := by
    constructor
    · rintro ⟨d, hd, hk⟩; exact ⟨d, hd, by rwa [← capture_len_congr h]⟩
    · rintro ⟨d, hd, hk⟩; exact ⟨d, hd, by rwa [capture_len_congr h]⟩
  simp only [h1, h2]

theorem legal_moves_congr {b c : Board} (h : ∀ i j, VALID_CELL i j → b i j = c i j)
    (who : Int) : legal_moves b who = legal_moves c who := by
  unfold legal_moves
  congr 1
  funext d
  rw [valid_move_congr h]

theorem valid_move_zero_or_one (b : Board) (x y who : Int) :
    valid_move b x y who = 0 ∨ valid_move b x y who = 1 := by
  rw [valid_move_eq]
  split
  · exact Or.inl rfl
  · split
    · exact Or.inr rfl
    · exact Or.inl rfl

theorem mem_legal_moves {b : Board} {who : Int} {c : Int × Int} :
    c ∈ legal_moves b who ↔ VALID_CELL c.1 c.2 ∧ valid_move b c.1 c.2 who = 1 := by
  unfold legal_moves
  rw [List.mem_filter, mem_cells_iff]
  have := valid_move_zero_or_one b c.1 c.2 who
  constructor
  · rintro ⟨hv, hc⟩
    refine ⟨hv, ?_⟩
    have hc' : valid_move b c.1 c.2 who ≠ 0 := by simpa using hc
    omega
  · rintro ⟨hv, hc⟩
    refine ⟨hv, ?_⟩
    simp [hc]

theorem legal_moves_sorted (b : Board) (who : Int) :
    (legal_moves b who).Pairwise row_major_lt :=
  List.Pairwise.sublist (List.filter_sublist _) cells_sorted

/-! ## `get_all` -/

/-- The state after the cell loops of `get_all` over the cells `cs`. -/
theorem get_all_fold (who : Int) (cs : List (Int × Int)) (s : State) :
    cs.foldl (get_all_step who) s =
      { s with
        moves_x := write_list s.moves_x s.moves_next
          ((cs.filter fun c => valid_move s.board c.1 c.2 who ≠ 0).map Prod.fst)
        moves_y := write_list s.moves_y s.moves_next
          ((cs.filter fun c => valid_move s.board c.1 c.2 who ≠ 0).map Prod.snd)
        moves_next := s.moves_next +
          ((cs.filter fun c => valid_move s.board c.1 c.2 who ≠ 0).length : Nat)
        moves_stack_block := store s.moves_stack_block s.moves_stack_next
          (s.moves_stack_block s.moves_stack_next +
            ((cs.filter fun c => valid_move s.board c.1 c.2 who ≠ 0).length : Nat)) } := by
  induction cs generalizing s with
  | nil =>
    simp only [List.foldl_nil, List.filter_nil, List.map_nil, write_list, List.length_nil,
      Nat.cast_zero, add_zero, store_self]
  | cons c cs ih =>
    rw [List.foldl_cons, ih]
    by_cases hc : valid_move s.board c.1 c.2 who ≠ 0
    · have hf : (List.filter (fun c => decide (valid_move s.board c.1 c.2 who ≠ 0)) (c :: cs))
          = c :: List.filter (fun c => decide (valid_move s.board c.1 c.2 who ≠ 0)) cs := by
        rw [List.filter_cons_of_pos]; simpa using hc
      rw [hf]
      simp only [get_all_step, if_pos hc, List.map_cons, write_list, List.length_cons,
        store_same, store_store, Nat.cast_add, Nat.cast_one]
      congr 1 <;> ring_nf
    · have hf : (List.filter (fun c => decide (valid_move s.board c.1 c.2 who ≠ 0)) (c :: cs))
          = List.filter (fun c => decide (valid_move s.board c.1 c.2 who ≠ 0)) cs := by
        rw [List.filter_cons_of_neg]; simpa using hc
      rw [hf]
      simp only [get_all_step, if_neg hc]

/-- The state after `get_all(who)`. -/
theorem get_all_eq (who : Int) (s : State) :
    get_all who s =
      { s with
        moves_x := write_list s.moves_x s.moves_next ((legal_moves s.board who).map Prod.fst)
        moves_y := write_list s.moves_y s.moves_next ((legal_moves s.board who).map Prod.snd)
        moves_next := s.moves_next + ((legal_moves s.board who).length : Nat)
        moves_stack_block := store s.moves_stack_block s.moves_stack_next
          ((legal_moves s.board who).length : Nat)
        moves_stack_next := s.moves_stack_next + 1 } := by
  unfold get_all
  simp only [get_all_fold, store_same, store_store, zero_add, legal_moves]

/-! ## `make_move` -/

theorem paint_apply (b : Board) (who : Int) (l : List (Int × Int)) (i j : Int) :
    paint b who l i j = if (i, j) ∈ l then who else b i j := by
  induction l generalizing b with
  | nil => simp [paint]
  | cons c l ih =>
    have e : paint b who (c :: l) = paint (store2 b c.1 c.2 who) who l := rfl
    rw [e, ih]
    by_cases h : (i, j) ∈ l
    · simp [h]
    · simp only [h, if_false, List.mem_cons, or_false]
      by_cases hc : (i, j) = c
      · subst hc; simp
      · rw [if_neg hc, store2_other]
        intro h'; exact hc (Prod.ext h'.1 h'.2)

theorem mem_ray_back {x y dx dy : Int} {k : Nat} {c : Int × Int} :
    c ∈ ray_back x y dx dy k ↔
      ∃ m : Nat, 1 ≤ m ∧ m ≤ k ∧ c = (x + m * dx, y + m * dy) := by
  induction k with
  | zero =>
    simp only [ray_back, List.not_mem_nil, false_iff]
    rintro ⟨m, h1, h2, _⟩; omega
  | succ k ih =>
    simp only [ray_back, List.mem_cons, ih]
    constructor
    · rintro (h | ⟨m, h1, h2, h3⟩)
      · exact ⟨k + 1, by omega, le_refl _, h⟩
      · exact ⟨m, h1, by omega, h3⟩
    · rintro ⟨m, h1, h2, h3⟩
      by_cases hm : m = k + 1
      · subst hm; exact Or.inl h3
      · exact Or.inr ⟨m, h1, by omega, h3⟩

theorem length_ray_back (x y dx dy : Int) (k : Nat) : (ray_back x y dx dy k).length = k := by
  induction k with
  | zero => rfl
  | succ k ih => simp [ray_back, ih]

/-- The state after the flipping loop has run over the cells `l`. -/
theorem log_flip_fold (who : Int) (l : List (Int × Int)) (s : State) :
    l.foldl (log_flip who) s =
      { s with
        board := paint s.board who l
        flips_x := write_list s.flips_x s.flips_next (l.map Prod.fst)
        flips_y := write_list s.flips_y s.flips_next (l.map Prod.snd)
        flips_next := s.flips_next + (l.length : Nat)
        flips_stack_block := store s.flips_stack_block s.flips_stack_next
          (s.flips_stack_block s.flips_stack_next + (l.length : Nat)) } := by
  induction l generalizing s with
  | nil =>
    simp only [List.foldl_nil, paint, List.map_nil, write_list, List.length_nil,
      Nat.cast_zero, add_zero, store_self]
  | cons c l ih =>
    rw [List.foldl_cons, ih]
    simp only [log_flip, List.map_cons, write_list, List.length_cons,
      store_same, store_store, Nat.cast_add, Nat.cast_one, paint, List.foldl_cons]
    congr 1 <;> ring_nf

/-- The flipping loop started at the far end of a run of `k` opponent discs
flips the `k` discs, walking back to `(x, y)`, and stops there. -/
theorem flip_back_run {who opp dx dy x y : Int} (hd : dx ≠ 0 ∨ dy ≠ 0) (k n : Nat)
    (hn : k < n) (s : State)
    (hrun : ∀ m : Nat, 1 ≤ m → m ≤ k → s.board (x + m * dx) (y + m * dy) = opp)
    (h0 : s.board x y ≠ opp) :
    flip_back who opp dx dy n (x + k * dx) (y + k * dy) s =
      (ray_back x y dx dy k).foldl (log_flip who) s := by
  induction k generalizing n s with
  | zero =>
    obtain ⟨n, rfl⟩ : ∃ n', n = n' + 1 := ⟨n - 1, by omega⟩
    simp only [Nat.cast_zero, zero_mul, add_zero, flip_back, if_neg h0, ray_back,
      List.foldl_nil]
  | succ k ih =>
    obtain ⟨n, rfl⟩ : ∃ n', n = n' + 1 := ⟨n - 1, by omega⟩
    have hk := hrun (k + 1) (by omega) (le_refl _)
    rw [flip_back, if_pos hk]
    have e1 : x + ((k + 1 : Nat) : Int) * dx - dx = x + (k : Int) * dx := by push_cast; ring
    have e2 : y + ((k + 1 : Nat) : Int) * dy - dy = y + (k : Int) * dy := by push_cast; ring
    rw [e1, e2, ray_back, List.foldl_cons]
    apply ih n (by omega)
    · intro m h1 h2
      show store2 s.board _ _ who _ _ = opp
      rw [store2_other]
      · exact hrun m h1 (by omega)
      · rintro ⟨h3, h4⟩
        have := ray_inj hd (m := (m : Int)) (n := ((k + 1 : Nat) : Int)) h3 h4
        omega
    · show store2 s.board _ _ who _ _ ≠ opp
      rw [store2_other]
      · exact h0
      · rintro ⟨h3, h4⟩
        have := ray_inj hd (x := x) (y := y) (m := (0 : Int)) (n := ((k + 1 : Nat) : Int))
          (by simpa using h3) (by simpa using h4)
        omega

theorem run_len_congr_ray {b c : Board} {dx dy : Int} (n : Nat) (i j : Int)
    (h : ∀ m : Nat, b (i + m * dx) (j + m * dy) = c (i + m * dx) (j + m * dy)) (opp : Int) :
    run_len b opp dx dy n i j = run_len c opp dx dy n i j := by
  induction n generalizing i j with
  | zero => rfl
  | succ n ih =>
    have h0 := h 0
    simp only [Nat.cast_zero, zero_mul, add_zero] at h0
    rw [run_len_step, run_len_step, h0, ih]
    intro m
    have := h (m + 1)
    have e1 : i + ((m + 1 : Nat) : Int) * dx = i + dx + (m : Int) * dx := by push_cast; ring
    have e2 : j + ((m + 1 : Nat) : Int) * dy = j + dy + (m : Int) * dy := by push_cast; ring
    rw [e1, e2] at this
    exact this

/-- The capture in a direction depends only on the cells of that ray. -/
theorem capture_len_congr_ray {b c : Board} {x y : Int} {d : Int × Int}
    (h : ∀ m : Nat, 1 ≤ m → b (x + m * d.1) (y + m * d.2) = c (x + m * d.1) (y + m * d.2))
    (who : Int) : capture_len b who x y d = capture_len c who x y d := by
  unfold capture_len
  simp only
  have hr : run_len b (OPPOSITE who) d.1 d.2 8 (x + d.1) (y + d.2)
      = run_len c (OPPOSITE who) d.1 d.2 8 (x + d.1) (y + d.2) := by
    apply run_len_congr_ray
    intro m
    have := h (m + 1) (by omega)
    have e1 : x + ((m + 1 : Nat) : Int) * d.1 = x + d.1 + (m : Int) * d.1 := by push_cast; ring
    have e2 : y + ((m + 1 : Nat) : Int) * d.2 = y + d.2 + (m : Int) * d.2 := by push_cast; ring
    rw [e1, e2] at this
    exact this
  rw [hr, h _ (by omega)]

theorem capture_len_zero_dir (b : Board) (who x y : Int) :
    capture_len b who x y (0, 0) = 0 := by
  unfold capture_len
  simp

/-- A capturing run has at most 7 discs. -/
theorem capture_len_lt {b : Board} {who x y : Int} {d : Int × Int} (hd : d ∈ dirs) :
    capture_len b who x y d < 8 := by
  obtain ⟨dx, dy⟩ := d
  have hm := (mem_dirs_iff _).mp hd
  unfold capture_len
  simp only
  split
  · rename_i hc
    obtain ⟨h0, hpos, hv, _⟩ := hc
    have hdir : IsDir dx dy := ⟨hm.1, hm.2, h0⟩
    obtain ⟨hv1, _⟩ := (run_len_pos_iff b (OPPOSITE who) dx dy 7 (x + dx) (y + dy)).mp hpos
    by_contra hge
    have e1 : x + ((run_len b (OPPOSITE who) dx dy 8 (x + dx) (y + dy) + 1 : Nat) : Int) * dx
        = x + dx + (run_len b (OPPOSITE who) dx dy 8 (x + dx) (y + dy) : Int) * dx := by
      push_cast; ring
    have e2 : y + ((run_len b (OPPOSITE who) dx dy 8 (x + dx) (y + dy) + 1 : Nat) : Int) * dy
        = y + dy + (run_len b (OPPOSITE who) dx dy 8 (x + dx) (y + dy) : Int) * dy := by
      push_cast; ring
    rw [e1, e2] at hv
    exact ray_leaves hdir hv1 _ (by omega) hv
  · omega

/-- The captured cells hold opponent discs. -/
theorem capture_len_run {b : Board} {who x y : Int} {d : Int × Int} (m : Nat) (h1 : 1 ≤ m)
    (h2 : m ≤ capture_len b who x y d) :
    VALID_CELL (x + m * d.1) (y + m * d.2) ∧ b (x + m * d.1) (y + m * d.2) = OPPOSITE who := by
  unfold capture_len at h2
  simp only at h2
  split at h2
  · have := run_len_run b (OPPOSITE who) d.1 d.2 8 (x + d.1) (y + d.2) (m - 1) (by omega)
    have e1 : x + d.1 + ((m - 1 : Nat) : Int) * d.1 = x + (m : Int) * d.1 := by
      rw [Nat.cast_sub h1]; push_cast; ring
    have e2 : y + d.2 + ((m - 1 : Nat) : Int) * d.2 = y + (m : Int) * d.2 := by
      rw [Nat.cast_sub h1]; push_cast; ring
    rw [e1, e2] at this
    exact this
  · omega

/-- One direction of `make_move`: the captured run is flipped, farthest disc first. -/
theorem make_move_dir_eq {x y who : Int} {s : State} {d : Int × Int} (hd : d ∈ dirs)
    (h0 : s.board x y ≠ OPPOSITE who) :
    make_move_dir x y who s d =
      (ray_back x y d.1 d.2 (capture_len s.board who x y d)).foldl (log_flip who) s := by
  have key := dir_test_iff s.board who x y hd
  unfold make_move_dir
  simp only
  by_cases hc : 1 ≤ capture_len s.board who x y d
  · obtain ⟨h1, h2⟩ := key.mpr hc
    rw [if_pos h1, if_pos h2]
    have hdir : IsDir d.1 d.2 := ⟨((mem_dirs_iff _).mp hd).1, ((mem_dirs_iff _).mp hd).2, h1.1⟩
    rw [walk_end hdir h1.2.1 h1.2.2]
    have hk : capture_len s.board who x y d
        = run_len s.board (OPPOSITE who) d.1 d.2 8 (x + d.1) (y + d.2) := by
      have hc' := hc
      unfold capture_len at hc' ⊢
      simp only at hc' ⊢
      split
      · rfl
      · rename_i hne; rw [if_neg hne] at hc'; omega
    rw [← hk]
    have e1 : x + ((capture_len s.board who x y d + 1 : Nat) : Int) * d.1 - d.1
        = x + (capture_len s.board who x y d : Int) * d.1 := by push_cast; ring
    have e2 : y + ((capture_len s.board who x y d + 1 : Nat) : Int) * d.2 - d.2
        = y + (capture_len s.board who x y d : Int) * d.2 := by push_cast; ring
    simp only [e1, e2]
    exact flip_back_run h1.1 _ 8 (capture_len_lt hd) s
      (fun m hm1 hm2 => (capture_len_run m hm1 hm2).2) h0
  · have hz : capture_len s.board who x y d = 0 := by omega
    rw [hz]
    simp only [ray_back, List.foldl_nil]
    by_cases h1 : (d.1 ≠ 0 ∨ d.2 ≠ 0) ∧ VALID_CELL (x + d.1) (y + d.2) ∧
        s.board (x + d.1) (y + d.2) = OPPOSITE who
    · rw [if_pos h1, if_neg (fun h2 => hc (key.mp ⟨h1, h2⟩))]
    · rw [if_neg h1]

theorem dirs_nodup : dirs.Nodup := by decide

theorem mem_captures {b : Board} {who x y : Int} {c : Int × Int} :
    c ∈ captures b who x y ↔
      ∃ d ∈ dirs, ∃ m : Nat, 1 ≤ m ∧ m ≤ capture_len b who x y d ∧
        c = (x + m * d.1, y + m * d.2) := by
  unfold captures
  simp only [List.mem_flatMap, mem_ray_back]

/-- The direction loops of `make_move` over the directions `ds`, on a state whose
rays in these directions are those of the board `b`. -/
theorem make_move_dirs_fold {x y who : Int} (b : Board) (hw : who ≠ OPPOSITE who)
    (ds : List (Int × Int)) (hds : ∀ d ∈ ds, d ∈ dirs) (hnd : ds.Nodup) (s : State)
    (h0 : s.board x y ≠ OPPOSITE who)
    (hray : ∀ d ∈ ds, d ≠ (0, 0) → ∀ m : Nat, 1 ≤ m →
      s.board (x + m * d.1) (y + m * d.2) = b (x + m * d.1) (y + m * d.2)) :
    ds.foldl (make_move_dir x y who) s =
      (ds.flatMap fun d => ray_back x y d.1 d.2 (capture_len b who x y d)).foldl
        (log_flip who) s := by
  induction ds generalizing s with
  | nil => rfl
  | cons d ds ih =>
    have hd := hds d (List.mem_cons_self _ _)
    have hcap : capture_len s.board who x y d = capture_len b who x y d := by
      by_cases hz : d = (0, 0)
      · rw [hz, capture_len_zero_dir, capture_len_zero_dir]
      · exact capture_len_congr_ray (hray d (List.mem_cons_self _ _) hz) who
    rw [List.foldl_cons, make_move_dir_eq hd h0, hcap, List.flatMap_cons, List.foldl_append]
    have hb : (List.foldl (log_flip who) s
        (ray_back x y d.1 d.2 (capture_len b who x y d))).board
        = paint s.board who (ray_back x y d.1 d.2 (capture_len b who x y d)) := by
      rw [log_flip_fold]
    apply ih (fun e he => hds e (List.mem_cons_of_mem _ he)) (List.nodup_cons.mp hnd).2
    · rw [hb, paint_apply]
      split
      · exact hw
      · exact h0
    · intro e he hez m hm
      rw [hb, paint_apply, if_neg]
      · exact hray e (List.mem_cons_of_mem _ he) hez m hm
      · intro hmem
        obtain ⟨m', h1, h2, h3⟩ := mem_ray_back.mp hmem
        have hdz : d.1 ≠ 0 ∨ d.2 ≠ 0 := by
          by_contra hdz
          have : d = (0, 0) := by
            ext <;> simp <;> tauto
          rw [this, capture_len_zero_dir] at h2
          omega
        have hez' : e.1 ≠ 0 ∨ e.2 ≠ 0 := by
          by_contra h
          apply hez
          ext <;> simp <;> tauto
        have hde := (mem_dirs_iff _).mp hd
        have hee := (mem_dirs_iff _).mp (hds e (List.mem_cons_of_mem _ he))
        have := ray_disjoint (⟨hee.1, hee.2, hez'⟩ : IsDir e.1 e.2)
          (⟨hde.1, hde.2, hdz⟩ : IsDir d.1 d.2) hm h1
          (congrArg Prod.fst h3) (congrArg Prod.snd h3)
        have hed : e = d := Prod.ext this.1 this.2
        exact (List.nodup_cons.mp hnd).1 (hed ▸ he)

/-- The state after `make_move(x, y, who)`: the disc is placed, the runs
bracketed on the board before the move are flipped, and one block is pushed on the
flip log. -/
theorem make_move_eq (x y who : Int) (s : State) (hw : who ≠ OPPOSITE who) :
    make_move x y who s =
      { s with
        board := after_move s.board who x y
        flips_x := write_list s.flips_x s.flips_next
          (x :: (captures s.board who x y).map Prod.fst)
        flips_y := write_list s.flips_y s.flips_next
          (y :: (captures s.board who x y).map Prod.snd)
        flips_next := s.flips_next + 1 + ((captures s.board who x y).length : Nat)
        flips_stack_block := store s.flips_stack_block s.flips_stack_next
          (1 + ((captures s.board who x y).length : Nat))
        flips_stack_who := store s.flips_stack_who s.flips_stack_next who
        flips_stack_next := s.flips_stack_next + 1 } := by
  unfold make_move
  simp only
  rw [make_move_dirs_fold s.board hw dirs (fun d h => h) dirs_nodup]
  · rw [log_flip_fold]
    simp only [write_list, store_same, store_store, after_move, captures]
  · show store2 s.board x y who x y ≠ OPPOSITE who
    rw [store2_same]; exact hw
  · intro d _ hdz m hm
    show store2 s.board x y who _ _ = _
    rw [store2_other]
    rintro ⟨h1, h2⟩
    have hdz' : d.1 ≠ 0 ∨ d.2 ≠ 0 := by
      by_contra h
      apply hdz
      ext <;> simp <;> tauto
    have := ray_inj hdz' (x := x) (y := y) (m := (m : Int)) (n := 0)
      (by simpa using h1) (by simpa using h2)
    omega

/-! ## `undo_move` -/

theorem undo_loop_eq (who : Int) (n : Nat) (i : Int) (s : State) :
    undo_loop who n i s =
      { s with board := paint s.board who (log_cells s.flips_x s.flips_y n i) } := by
  induction n generalizing i s with
  | zero => rfl
  | succ n ih =>
    rw [undo_loop, ih]
    rfl

/-- The state after `undo_move()`. -/
theorem undo_move_eq (s : State) :
    undo_move s =
      { s with
        flips_stack_next := s.flips_stack_next - 1
        flips_next := s.flips_next - s.flips_stack_block (s.flips_stack_next - 1)
        board :=
          paint
            (store2 s.board
              (s.flips_x (s.flips_next - s.flips_stack_block (s.flips_stack_next - 1)))
              (s.flips_y (s.flips_next - s.flips_stack_block (s.flips_stack_next - 1))) EMPTY)
            (OPPOSITE (s.flips_stack_who (s.flips_stack_next - 1)))
            (log_cells s.flips_x s.flips_y
              (s.flips_next -
                (s.flips_next - s.flips_stack_block (s.flips_stack_next - 1) + 1)).toNat
              (s.flips_next - s.flips_stack_block (s.flips_stack_next - 1) + 1)) } := by
  unfold undo_move
  simp only [undo_loop_eq]

theorem log_cells_congr {fx fy gx gy : Arr} (n : Nat) (i : Int)
    (h : ∀ m, i ≤ m → m < i + n → fx m = gx m ∧ fy m = gy m) :
    log_cells fx fy n i = log_cells gx gy n i := by
  induction n generalizing i with
  | zero => rfl
  | succ n ih =>
    have h0 := h i (le_refl _) (by push_cast; omega)
    rw [log_cells, log_cells, h0.1, h0.2, ih]
    intro m h1 h2
    exact h m (by omega) (by push_cast; omega)

/-- Reading back the cells that were written to the log. -/
theorem log_cells_write (fx fy : Arr) (k : Int) (l : List (Int × Int)) :
    log_cells (write_list fx k (l.map Prod.fst)) (write_list fy k (l.map Prod.snd))
      l.length k = l := by
  induction l generalizing fx fy k with
  | nil => rfl
  | cons c l ih =>
    simp only [List.map_cons, write_list, List.length_cons, log_cells]
    rw [write_list_below _ _ _ _ (by omega), write_list_below _ _ _ _ (by omega),
      store_same, store_same, ih]

theorem Preserved_refl (s : State) : Preserved s s :=
  ⟨rfl, rfl, rfl, rfl, rfl, fun _ _ => ⟨rfl, rfl⟩, fun _ _ => rfl, fun _ _ => ⟨rfl, rfl⟩,
    fun _ _ => ⟨rfl, rfl⟩⟩

theorem Preserved_trans {s t u : State} (h1 : Preserved s t) (h2 : Preserved t u) :
    Preserved s u := by
  obtain ⟨a1, a2, a3, a4, a5, a6, a7, a8, a9⟩ := h1
  obtain ⟨b1, b2, b3, b4, b5, b6, b7, b8, b9⟩ := h2
  refine ⟨b1.trans a1, b2.trans a2, b3.trans a3, b4.trans a4, b5.trans a5, ?_, ?_, ?_, ?_⟩
  · intro n hn
    have := b6 n (by omega); have := a6 n hn
    exact ⟨by simp [*], by simp [*]⟩
  · intro n hn
    have := b7 n (by omega); have := a7 n hn
    simp [*]
  · intro n hn
    have := b8 n (by omega); have := a8 n hn
    exact ⟨by simp [*], by simp [*]⟩
  · intro n hn
    have := b9 n (by omega); have := a9 n hn
    exact ⟨by simp [*], by simp [*]⟩

/-- The captured cells hold opponent discs and are not the cell of the move. -/
theorem captures_opp {b : Board} {who x y : Int} {c : Int × Int}
    (h : c ∈ captures b who x y) : VALID_CELL c.1 c.2 ∧ b c.1 c.2 = OPPOSITE who := by
  obtain ⟨d, _, m, h1, h2, rfl⟩ := mem_captures.mp h
  exact capture_len_run m h1 h2

/-- Undoing a move restores the board: the cell of the move was empty and the
captured cells held opponent discs. -/
theorem undo_board (b : Board) (who x y : Int) (hb : b x y = 0) :
    paint (store2 (after_move b who x y) x y EMPTY) (OPPOSITE who) (captures b who x y) = b := by
  funext i j
  rw [paint_apply]
  split
  · rename_i hmem
    exact (captures_opp hmem).2.symm
  · rename_i hmem
    by_cases hxy : i = x ∧ j = y
    · rw [hxy.1, hxy.2, store2_same, hb]; rfl
    · rw [store2_other _ _ _ _ _ _ hxy]
      unfold after_move
      rw [paint_apply, if_neg hmem, store2_other _ _ _ _ _ _ hxy]

/-- A state that preserves the state after `make_move` is taken by `undo_move`
to a state that preserves the state before it. -/
theorem undo_move_make_move {x y who : Int} {s t : State} (hwho : who = 1 ∨ who = 2)
    (hb : s.board x y = 0) (ht : Preserved (make_move x y who s) t) :
    Preserved s (undo_move t) := by
  have hw := OPPOSITE_ne hwho
  rw [make_move_eq x y who s hw] at ht
  obtain ⟨a1, a2, a3, a4, a5, a6, a7, a8, a9⟩ := ht
  simp only at a1 a2 a3 a4 a5 a6 a7 a8 a9
  have hblock := (a9 s.flips_stack_next (by omega))
  rw [store_same, store_same] at hblock
  have hfirst := a8 s.flips_next (by omega)
  rw [write_list, write_list, write_list_below _ _ _ _ (by omega),
    write_list_below _ _ _ _ (by omega), store_same, store_same] at hfirst
  have hcells : log_cells t.flips_x t.flips_y (captures s.board who x y).length
      (s.flips_next + 1) = captures s.board who x y := by
    have h1 : log_cells t.flips_x t.flips_y (captures s.board who x y).length
        (s.flips_next + 1) =
        log_cells
          (write_list (store s.flips_x s.flips_next x) (s.flips_next + 1)
            ((captures s.board who x y).map Prod.fst))
          (write_list (store s.flips_y s.flips_next y) (s.flips_next + 1)
            ((captures s.board who x y).map Prod.snd))
          (captures s.board who x y).length (s.flips_next + 1) := by
      apply log_cells_congr
      intro m h1 h2
      have := a8 m (by omega)
      simpa [write_list] using this
    rw [h1, log_cells_write]
  have e1 : t.flips_stack_next - 1 = s.flips_stack_next := by omega
  have e2 : t.flips_next - t.flips_stack_block s.flips_stack_next = s.flips_next := by
    rw [hblock.1, a4]; omega
  have e3 : (t.flips_next - (s.flips_next + 1)).toNat = (captures s.board who x y).length := by
    rw [a4]; omega
  rw [undo_move_eq]
  simp only [e1, e2, e3, hfirst.1, hfirst.2, hblock.2, hcells, a1]
  rw [undo_board _ _ _ _ hb]
  refine ⟨rfl, a2, a3, rfl, rfl, a6, a7, ?_, ?_⟩
  · intro n hn
    have := a8 n (by omega)
    rw [write_list, write_list, write_list_below _ _ _ _ (by omega),
      write_list_below _ _ _ _ (by omega), store_other _ _ _ _ (by omega),
      store_other _ _ _ _ (by omega)] at this
    exact this
  · intro n hn
    have := a9 n (by omega)
    rw [store_other _ _ _ _ (by omega), store_other _ _ _ _ (by omega)] at this
    exact this

/-- A state that preserves the state after `get_all` is taken by `undo_get_all`
to a state that preserves the state before it. -/
theorem undo_get_all_get_all {who : Int} {s t : State} (ht : Preserved (get_all who s) t) :
    Preserved s (undo_get_all t) := by
  rw [get_all_eq] at ht
  obtain ⟨a1, a2, a3, a4, a5, a6, a7, a8, a9⟩ := ht
  simp only at a1 a2 a3 a4 a5 a6 a7 a8 a9
  have hblock := a7 s.moves_stack_next (by omega)
  rw [store_same] at hblock
  have e1 : t.moves_stack_next - 1 = s.moves_stack_next := by omega
  unfold undo_get_all
  refine ⟨a1, ?_, e1, a4, a5, ?_, ?_, a8, a9⟩
  · show t.moves_next - t.moves_stack_block (t.moves_stack_next - 1) = s.moves_next
    rw [e1, hblock, a2]; omega
  · intro n hn
    have := a6 n (by omega)
    rw [write_list_below _ _ _ _ hn, write_list_below _ _ _ _ hn] at this
    exact this
  · intro n hn
    have := a7 n (by omega)
    rw [store_other _ _ _ _ (by omega)] at this
    exact this

/-! ## Counting the empty cells -/

theorem empties_fold (b : Board) (cs : List (Int × Int)) (acc : Int) :
    cs.foldl (fun count c => if b c.1 c.2 ≠ 0 then count - 1 else count) acc =
      acc - (cs.length : Nat) + (cs.countP fun c => b c.1 c.2 = 0 : Nat) := by
  induction cs generalizing acc with
  | nil => simp
  | cons c cs ih =>
    rw [List.foldl_cons, ih]
    by_cases h : b c.1 c.2 = 0
    · simp [h, List.countP_cons_of_pos]
      ring
    · simp [h, List.countP_cons_of_neg]
      ring

theorem cells_length : cells.length = 64 := by decide

/-- The function `number_of_empties()` counts the empty cells. -/
theorem number_of_empties_eq (b : Board) : number_of_empties b = (empties b : Nat) := by
  unfold number_of_empties empties
  rw [empties_fold, cells_length]
  simp

theorem countP_remove {α : Type} [DecidableEq α] (l : List α) (hn : l.Nodup) (a : α)
    (ha : a ∈ l) (p q : α → Bool) (hp : p a = true)
    (hq : ∀ c, q c = (p c && decide (c ≠ a))) : l.countP q + 1 = l.countP p := by
  induction l with
  | nil => simp at ha
  | cons c l ih =>
    obtain ⟨hc, hn'⟩ := List.nodup_cons.mp hn
    by_cases hca : c = a
    · subst hca
      have hqc : q c = false := by rw [hq]; simp
      rw [List.countP_cons_of_neg _ _ (by simp [hqc]), List.countP_cons_of_pos _ _ hp]
      congr 1
      apply List.countP_congr
      intro e he
      rw [hq]
      have : e ≠ c := fun h => hc (h ▸ he)
      simp [this]
    · have ha' : a ∈ l := by
        rcases List.mem_cons.mp ha with h | h
        · exact absurd h.symm hca
        · exact h
      have hqc : q c = p c := by rw [hq]; simp [hca]
      by_cases hpc : p c = true
      · rw [List.countP_cons_of_pos _ _ (by rw [hqc]; exact hpc), List.countP_cons_of_pos _ _ hpc,
          ← ih hn' ha']
      · rw [List.countP_cons_of_neg _ _ (by rw [hqc]; exact hpc), List.countP_cons_of_neg _ _ hpc,
          ← ih hn' ha']

/-- A legal move fills one empty cell. -/
theorem empties_after_move {b : Board} {who x y : Int} (hwho : who = 1 ∨ who = 2)
    (hv : VALID_CELL x y) (hb : b x y = 0) :
    empties (after_move b who x y) + 1 = empties b := by
  unfold empties
  apply countP_remove cells cells_nodup (x, y) ((mem_cells_iff _).mpr hv)
  · simpa using hb
  · intro c
    have hw0 : who ≠ 0 := by omega
    unfold after_move
    rw [paint_apply]
    by_cases hmem : (c.1, c.2) ∈ captures b who x y
    · have := (captures_opp hmem).2
      have ho := OPPOSITE_ne_zero hwho
      simp only [hmem, if_true]
      have hb0 : b c.1 c.2 ≠ 0 := by rw [this]; exact ho
      simp [hw0, hb0]
    · rw [if_neg hmem]
      by_cases hxy : c = (x, y)
      · subst hxy
        simp [hw0]
      · rw [store2_other]
        · simp [hxy]
        · intro h; exact hxy (Prod.ext h.1 h.2)

theorem empties_pos {b : Board} {x y : Int} (hv : VALID_CELL x y) (hb : b x y = 0) :
    1 ≤ empties b := by
  unfold empties
  apply List.countP_pos_iff.mpr
  exact ⟨(x, y), (mem_cells_iff _).mpr hv, by simpa using hb⟩

/-- A legal move is on an empty cell. -/
theorem valid_move_empty {b : Board} {x y who : Int} (hv : VALID_CELL x y)
    (h : valid_move b x y who = 1) : b x y = 0 := by
  by_contra hb
  unfold valid_move at h
  rw [if_pos ⟨hv, hb⟩] at h
  omega

/-! ## `weigh_move` -/

theorem sum_weights_eq (s : State) (n : Nat) (i : Int) :
    sum_weights s n i = ((log_cells s.flips_x s.flips_y n i).map fun c => weight c.1 c.2).sum := by
  induction n generalizing i with
  | zero => rfl
  | succ n ih => rw [sum_weights, log_cells, List.map_cons, List.sum_cons, ih]

/-- The sum of weights computed by `weigh_move` after `make_move`. -/
theorem sum_weights_make_move (x y who : Int) (s : State) (hw : who ≠ OPPOSITE who) :
    sum_weights (make_move x y who s)
        ((make_move x y who s).flips_next - s.flips_next).toNat s.flips_next
      = move_weight s.board who x y := by
  rw [sum_weights_eq, make_move_eq x y who s hw]
  simp only
  have e : (s.flips_next + 1 + ((captures s.board who x y).length : Nat) - s.flips_next).toNat
      = ((x, y) :: captures s.board who x y).length := by
    simp only [List.length_cons]; omega
  have hl := log_cells_write s.flips_x s.flips_y s.flips_next ((x, y) :: captures s.board who x y)
  simp only [List.map_cons] at hl
  rw [e, hl]
  simp [move_weight]

theorem SameSuggestion_refl (s : State) : SameSuggestion s s := ⟨rfl, rfl⟩

theorem SameSuggestion_trans {s t u : State} (h1 : SameSuggestion s t)
    (h2 : SameSuggestion t u) : SameSuggestion s u :=
  ⟨h2.1.trans h1.1, h2.2.trans h1.2⟩

theorem SameSuggestion_make_move (x y who : Int) (s : State) (hw : who ≠ OPPOSITE who) :
    SameSuggestion s (make_move x y who s) := by
  rw [make_move_eq x y who s hw]; exact ⟨rfl, rfl⟩

theorem SameSuggestion_undo_move (s : State) : SameSuggestion s (undo_move s) := by
  rw [undo_move_eq]; exact ⟨rfl, rfl⟩

theorem SameSuggestion_get_all (who : Int) (s : State) : SameSuggestion s (get_all who s) := by
  rw [get_all_eq]; exact ⟨rfl, rfl⟩

theorem SameSuggestion_undo_get_all (s : State) : SameSuggestion s (undo_get_all s) :=
  ⟨rfl, rfl⟩

/-- The reply loop of `weigh_move` over the block `l` of moves logged from index
`i` on, when every call returns the value `f` of its move and preserves the
state. -/
theorem weigh_loop_spec (call : Int → Int → State → Option (Int × State))
    (f : Int × Int → Int) (s0 : State) (l : List (Int × Int)) (i : Int)
    (hi : i + (l.length : Nat) ≤ s0.moves_next)
    (hl : log_cells s0.moves_x s0.moves_y l.length i = l)
    (hcall : ∀ c ∈ l, ∀ t, Preserved s0 t →
      ∃ t', call c.1 c.2 t = some (f c, t') ∧ Preserved s0 t' ∧ SameSuggestion t t')
    (dw : Int) (t : State) (ht : Preserved s0 t) :
    ∃ t', weigh_loop call l.length i dw t = some (min_fold f l dw, t') ∧ Preserved s0 t' ∧
      SameSuggestion t t' := by
  induction l generalizing i dw t with
  | nil => exact ⟨t, rfl, ht, SameSuggestion_refl t⟩
  | cons c l ih =>
    simp only [List.length_cons, log_cells, List.cons.injEq] at hl hi
    obtain ⟨hc, hl'⟩ := hl
    have hm := ht.2.2.2.2.2.1 i (by push_cast at hi; omega)
    obtain ⟨t1, h1, hp1, hs1⟩ := hcall c (List.mem_cons_self _ _) t ht
    have hcx : t.moves_x i = c.1 := by rw [hm.1, ← hc]
    have hcy : t.moves_y i = c.2 := by rw [hm.2, ← hc]
    obtain ⟨t2, h2, hp2, hs2⟩ := ih (i + 1) (by push_cast at hi ⊢; omega) hl'
      (fun e he => hcall e (List.mem_cons_of_mem _ he))
      (if f c < dw then f c else dw) t1 hp1
    refine ⟨t2, ?_, hp2, SameSuggestion_trans hs1 hs2⟩
    simp only [List.length_cons, weigh_loop, hcx, hcy, h1, h2]
    rfl

/-- The block of moves logged by `get_all`. -/
theorem get_all_block (who : Int) (s : State) :
    log_cells (get_all who s).moves_x (get_all who s).moves_y
        (legal_moves s.board who).length s.moves_next = legal_moves s.board who := by
  rw [get_all_eq]
  exact log_cells_write _ _ _ _

theorem get_all_count (who : Int) (s : State) :
    ((get_all who s).moves_next - s.moves_next).toNat = (legal_moves s.board who).length := by
  rw [get_all_eq]
  simp only
  omega

theorem get_all_board (who : Int) (s : State) : (get_all who s).board = s.board := by
  rw [get_all_eq]

theorem make_move_board (x y who : Int) (s : State) (hw : who ≠ OPPOSITE who) :
    (make_move x y who s).board = after_move s.board who x y := by
  rw [make_move_eq x y who s hw]

theorem OPPOSITE_player {who : Int} (h : who = 1 ∨ who = 2) :
    OPPOSITE who = 1 ∨ OPPOSITE who = 2 := by
  rcases h with h | h <;> subst h <;> decide

theorem weigh_move_succ (fuel : Nat) (x y who max_depth add : Int) (s : State) :
    weigh_move (fuel + 1) x y who max_depth add s =
      if max_depth ≠ 0 ∧ number_of_empties (make_move x y who s).board ≠ 0 then
        (weigh_loop
            (fun mx my t => weigh_move fuel mx my (OPPOSITE who) (max_depth - 1)
              (if add = 0 then 1 else 0) t)
            ((get_all (OPPOSITE who) (make_move x y who s)).moves_next -
              (make_move x y who s).moves_next).toNat
            (make_move x y who s).moves_next 0
            (get_all (OPPOSITE who) (make_move x y who s))).map
          fun r =>
            ((if add ≠ 0 then
                sum_weights (make_move x y who s)
                  ((make_move x y who s).flips_next - s.flips_next).toNat s.flips_next
              else 0 - sum_weights (make_move x y who s)
                  ((make_move x y who s).flips_next - s.flips_next).toNat s.flips_next) + r.1,
              undo_move (undo_get_all r.2))
      else
        some ((if add ≠ 0 then
                sum_weights (make_move x y who s)
                  ((make_move x y who s).flips_next - s.flips_next).toNat s.flips_next
              else 0 - sum_weights (make_move x y who s)
                  ((make_move x y who s).flips_next - s.flips_next).toNat s.flips_next) + 0,
          undo_move (make_move x y who s)) := rfl

theorem score_succ (fuel : Nat) (b : Board) (x y who max_depth add : Int) :
    score (fuel + 1) b x y who max_depth add =
      if max_depth ≠ 0 ∧ number_of_empties (after_move b who x y) ≠ 0 then
        (if add ≠ 0 then move_weight b who x y else 0 - move_weight b who x y) +
          min_fold
            (fun c => score fuel (after_move b who x y) c.1 c.2 (OPPOSITE who) (max_depth - 1)
              (if add = 0 then 1 else 0))
            (legal_moves (after_move b who x y) (OPPOSITE who)) 0
      else (if add ≠ 0 then move_weight b who x y else 0 - move_weight b who x y) + 0 := rfl

/-- The function `weigh_move` on a legal move returns, within a budget of one call per empty
cell, the value `score` of the move on the board at entry, in a state that
preserves the state at entry. -/
theorem weigh_move_spec (fuel : Nat) : ∀ (x y who max_depth add : Int) (s : State),
    (who = 1 ∨ who = 2) → VALID_CELL x y → valid_move s.board x y who = 1 →
    empties s.board ≤ fuel →
    ∃ t, weigh_move fuel x y who max_depth add s
        = some (score fuel s.board x y who max_depth add, t) ∧ Preserved s t ∧
      SameSuggestion s t := by
  induction fuel with
  | zero =>
    intro x y who max_depth add s _ hv hm he
    have := empties_pos hv (valid_move_empty hv hm)
    omega
  | succ fuel ih =>
    intro x y who max_depth add s hwho hv hm he
    have hw := OPPOSITE_ne hwho
    have hb := valid_move_empty hv hm
    have hsum := sum_weights_make_move x y who s hw
    have hboard := make_move_board x y who s hw
    have hemp := empties_after_move hwho hv hb
    rw [weigh_move_succ, score_succ, hsum, hboard]
    by_cases hc : max_depth ≠ 0 ∧ number_of_empties (after_move s.board who x y) ≠ 0
    · rw [if_pos hc, if_pos hc]
      have hloop := weigh_loop_spec
        (fun mx my t => weigh_move fuel mx my (OPPOSITE who) (max_depth - 1)
          (if add = 0 then 1 else 0) t)
        (fun c => score fuel (after_move s.board who x y) c.1 c.2 (OPPOSITE who)
          (max_depth - 1) (if add = 0 then 1 else 0))
        (get_all (OPPOSITE who) (make_move x y who s))
        (legal_moves (after_move s.board who x y) (OPPOSITE who))
        (make_move x y who s).moves_next
        (by
          have := get_all_count (OPPOSITE who) (make_move x y who s)
          rw [hboard] at this
          have h2 : (make_move x y who s).moves_next ≤
              (get_all (OPPOSITE who) (make_move x y who s)).moves_next := by
            rw [get_all_eq]; simp only; omega
          omega)
        (by
          have := get_all_block (OPPOSITE who) (make_move x y who s)
          rw [hboard] at this
          exact this)
        (by
          intro c hcmem t ht
          obtain ⟨hcv, hcm⟩ := mem_legal_moves.mp hcmem
          have htb : t.board = after_move s.board who x y := by
            rw [ht.1, get_all_board, hboard]
          obtain ⟨t', h1, h2, h3⟩ := ih c.1 c.2 (OPPOSITE who) (max_depth - 1)
            (if add = 0 then 1 else 0) t (OPPOSITE_player hwho) hcv (by rw [htb]; exact hcm)
            (by rw [htb]; omega)
          rw [htb] at h1
          exact ⟨t', h1, Preserved_trans ht h2, h3⟩)
        0 (get_all (OPPOSITE who) (make_move x y who s)) (Preserved_refl _)
      obtain ⟨t3, h3, hp3, hs3⟩ := hloop
      have hcount := get_all_count (OPPOSITE who) (make_move x y who s)
      rw [hboard] at hcount
      rw [hcount, h3]
      exact ⟨_, rfl, undo_move_make_move hwho hb (undo_get_all_get_all hp3),
        SameSuggestion_trans
          (SameSuggestion_trans
            (SameSuggestion_trans (SameSuggestion_make_move x y who s hw)
              (SameSuggestion_get_all _ _)) hs3)
          (SameSuggestion_trans (SameSuggestion_undo_get_all _) (SameSuggestion_undo_move _))⟩
    · rw [if_neg hc, if_neg hc]
      exact ⟨_, rfl, undo_move_make_move hwho hb (Preserved_refl _),
        SameSuggestion_trans (SameSuggestion_make_move x y who s hw)
          (SameSuggestion_undo_move _)⟩

/-! ## `suggest_move` -/

/-- The candidate loop of `suggest_move` over the block `l` of moves logged from
index `i` on, when every call of `weigh_move` returns the value `f` of its move
and preserves the state. -/
theorem suggest_loop_spec (fuel : Nat) (rnd : Nat → Int) (who max_depth : Int)
    (f : Int × Int → Int) (s0 : State) (l : List (Int × Int)) (i : Int)
    (hi : i + (l.length : Nat) ≤ s0.moves_next)
    (hl : log_cells s0.moves_x s0.moves_y l.length i = l)
    (hcall : ∀ c ∈ l, ∀ t, Preserved s0 t →
      ∃ t', weigh_move fuel c.1 c.2 who max_depth 1 t = some (f c, t') ∧ Preserved s0 t' ∧
        SameSuggestion t t')
    (best : Int) (k : Nat) (t : State) (ht : Preserved s0 t) :
    ∃ t', suggest_loop fuel rnd who max_depth l.length i best k t
        = some ((pick rnd f l best (t.suggested_move_x, t.suggested_move_y) k).1,
            (pick rnd f l best (t.suggested_move_x, t.suggested_move_y) k).2.2, t') ∧
      Preserved s0 t' ∧
      (t'.suggested_move_x, t'.suggested_move_y)
        = (pick rnd f l best (t.suggested_move_x, t.suggested_move_y) k).2.1 := by
  induction l generalizing i best k t with
  | nil => exact ⟨t, rfl, ht, rfl⟩
  | cons c l ih =>
    simp only [List.length_cons, log_cells, List.cons.injEq] at hl hi
    obtain ⟨hc, hl'⟩ := hl
    have hm := ht.2.2.2.2.2.1 i (by push_cast at hi; omega)
    obtain ⟨t1, h1, hp1, hs1⟩ := hcall c (List.mem_cons_self _ _) t ht
    have hm1 := hp1.2.2.2.2.2.1 i (by push_cast at hi; omega)
    have hcx : t.moves_x i = c.1 := by rw [hm.1, ← hc]
    have hcy : t.moves_y i = c.2 := by rw [hm.2, ← hc]
    have hcx1 : t1.moves_x i = c.1 := by rw [hm1.1, ← hc]
    have hcy1 : t1.moves_y i = c.2 := by rw [hm1.2, ← hc]
    have hi' : i + 1 + (l.length : Nat) ≤ s0.moves_next := by push_cast at hi ⊢; omega
    have hcall' := fun e he => hcall e (List.mem_cons_of_mem _ he)
    have hp1' : Preserved s0
        { t1 with suggested_move_x := t1.moves_x i, suggested_move_y := t1.moves_y i } := hp1
    simp only [List.length_cons, suggest_loop, hcx, hcy, h1, pick]
    by_cases hgt : f c > best
    · rw [if_pos hgt, if_pos hgt]
      have := ih (i + 1) hi' hl' hcall' (f c) k _ hp1'
      simp only [hcx1, hcy1] at this ⊢
      exact this
    · rw [if_neg hgt, if_neg hgt]
      by_cases heq : f c = best
      · rw [if_pos heq, if_pos heq]
        by_cases hr : rnd k % 2 ≠ 0
        · rw [if_pos hr, if_pos hr]
          have := ih (i + 1) hi' hl' hcall' (f c) (k + 1) _ hp1'
          simp only [hcx1, hcy1] at this ⊢
          exact this
        · rw [if_neg hr, if_neg hr]
          have := ih (i + 1) hi' hl' hcall' best (k + 1) t1 hp1
          rw [hs1.1, hs1.2] at this
          exact this
      · rw [if_neg heq, if_neg heq]
        have := ih (i + 1) hi' hl' hcall' best k t1 hp1
        rw [hs1.1, hs1.2] at this
        exact this

/-! ### The choice among the candidates -/

theorem pick_mem (rnd : Nat → Int) (f : Int × Int → Int) (l : List (Int × Int)) (best : Int)
    (cur : Int × Int) (k : Nat) : (pick rnd f l best cur k).2.1 ∈ cur :: l := by
  induction l generalizing best cur k with
  | nil => simp [pick]
  | cons c l ih =>
    simp only [pick]
    have h1 : ∀ b k, (pick rnd f l b c k).2.1 ∈ cur :: c :: l := fun b k =>
      List.mem_cons_of_mem _ (ih b c k)
    have h2 : ∀ b k, (pick rnd f l b cur k).2.1 ∈ cur :: c :: l := fun b k => by
      rcases List.mem_cons.mp (ih b cur k) with h | h
      · rw [h]; exact List.mem_cons_self _ _
      · exact List.mem_cons_of_mem _ (List.mem_cons_of_mem _ h)
    split
    · exact h1 _ _
    · split
      · split
        · exact h1 _ _
        · exact h2 _ _
      · exact h2 _ _

/-- The best weight is the weight of the suggestion and bounds every candidate. -/
theorem pick_max (rnd : Nat → Int) (f : Int × Int → Int) (l : List (Int × Int))
    (cur : Int × Int) (k : Nat) :
    (pick rnd f l (f cur) cur k).1 = f (pick rnd f l (f cur) cur k).2.1 ∧
      ∀ c ∈ cur :: l, f c ≤ f (pick rnd f l (f cur) cur k).2.1 := by
  induction l generalizing cur k with
  | nil => simp [pick]
  | cons c l ih =>
    simp only [pick]
    have hcur : ∀ k, f c ≤ f cur →
        ((pick rnd f l (f cur) cur k).1 = f (pick rnd f l (f cur) cur k).2.1 ∧
          ∀ e ∈ cur :: c :: l, f e ≤ f (pick rnd f l (f cur) cur k).2.1) := by
      intro k hle
      refine ⟨(ih cur k).1, ?_⟩
      intro e he
      have h0 := (ih cur k).2
      rcases List.mem_cons.mp he with h | h
      · rw [h]; exact h0 cur (List.mem_cons_self _ _)
      · rcases List.mem_cons.mp h with h | h
        · rw [h]; exact le_trans hle (h0 cur (List.mem_cons_self _ _))
        · exact h0 e (List.mem_cons_of_mem _ h)
    have hc : ∀ k, f cur ≤ f c →
        ((pick rnd f l (f c) c k).1 = f (pick rnd f l (f c) c k).2.1 ∧
          ∀ e ∈ cur :: c :: l, f e ≤ f (pick rnd f l (f c) c k).2.1) := by
      intro k hle
      refine ⟨(ih c k).1, ?_⟩
      intro e he
      have h0 := (ih c k).2
      rcases List.mem_cons.mp he with h | h
      · rw [h]; exact le_trans hle (h0 c (List.mem_cons_self _ _))
      · exact h0 e h
    split
    · rename_i h; exact hc k (le_of_lt h)
    · rename_i h
      split
      · rename_i heq
        split
        · exact hc (k + 1) (le_of_eq heq.symm)
        · exact hcur (k + 1) (le_of_eq heq)
      · exact hcur k (by omega)

/-- When no coin flip replaces the suggestion, the suggestion is the first
candidate of greatest weight. -/
theorem pick_keep (rnd : Nat → Int) (f : Int × Int → Int) (hkeep : ∀ k, rnd k % 2 = 0)
    (l : List (Int × Int)) (pre mid : List (Int × Int)) (cur : Int × Int) (k : Nat)
    (hpre : ∀ c ∈ pre, f c < f cur) (hmid : ∀ c ∈ mid, f c ≤ f cur) :
    ∃ pre1 post1, pre ++ cur :: mid ++ l = pre1 ++ (pick rnd f l (f cur) cur k).2.1 :: post1 ∧
      ∀ c ∈ pre1, f c < f (pick rnd f l (f cur) cur k).2.1 := by
  induction l generalizing pre mid cur k with
  | nil => exact ⟨pre, mid, by simp [pick], hpre⟩
  | cons c l ih =>
    simp only [pick]
    have hstay : ∀ k, f c ≤ f cur →
        ∃ pre1 post1, pre ++ cur :: mid ++ c :: l
            = pre1 ++ (pick rnd f l (f cur) cur k).2.1 :: post1 ∧
          ∀ e ∈ pre1, f e < f (pick rnd f l (f cur) cur k).2.1 := by
      intro k hle
      obtain ⟨pre1, post1, h1, h2⟩ := ih pre (mid ++ [c]) cur k hpre (by
        intro e he
        rcases List.mem_append.mp he with h | h
        · exact hmid e h
        · rw [List.mem_singleton.mp h]; exact hle)
      exact ⟨pre1, post1, by rw [← h1]; simp, h2⟩
    split
    · rename_i hgt
      obtain ⟨pre1, post1, h1, h2⟩ := ih (pre ++ cur :: mid) [] c k (by
        intro e he
        rcases List.mem_append.mp he with h | h
        · exact lt_trans (hpre e h) hgt
        · rcases List.mem_cons.mp h with h | h
          · rw [h]; exact hgt
          · exact lt_of_le_of_lt (hmid e h) hgt) (by simp)
      exact ⟨pre1, post1, by rw [← h1]; simp, h2⟩
    · rename_i hngt
      split
      · rename_i heq
        rw [if_neg (by rw [hkeep k]; simp)]
        exact hstay (k + 1) (le_of_eq heq)
      · exact hstay k (by omega)

theorem suggest_move_eq (fuel : Nat) (rnd : Nat → Int) (who max_depth : Int) (s : State) :
    suggest_move fuel rnd who max_depth s =
      if number_of_empties s.board = 0 then some (0, s)
      else if (get_all who s).moves_next = s.moves_next then some (0, undo_get_all (get_all who s))
      else
        (weigh_move fuel ((get_all who s).moves_x s.moves_next)
            ((get_all who s).moves_y s.moves_next) who (effective_depth s.board max_depth) 1
            { get_all who s with
              suggested_move_x := (get_all who s).moves_x s.moves_next
              suggested_move_y := (get_all who s).moves_y s.moves_next }).bind
          fun r =>
            (suggest_loop fuel rnd who (effective_depth s.board max_depth)
                ((get_all who s).moves_next - (s.moves_next + 1)).toNat (s.moves_next + 1)
                r.1 0 r.2).map
              fun q => (1, undo_get_all q.2.2) := by
  unfold suggest_move effective_depth
  with_reducible rfl

/-- Without an empty cell there is no legal move. -/
theorem legal_moves_of_full {b : Board} (who : Int) (h : number_of_empties b = 0) :
    legal_moves b who = [] := by
  rw [List.eq_nil_iff_forall_not_mem]
  intro c hc
  obtain ⟨hv, hm⟩ := mem_legal_moves.mp hc
  have := empties_pos hv (valid_move_empty hv hm)
  rw [number_of_empties_eq] at h
  omega

/-- First exit of `suggest_move`: the board is full. -/
theorem suggest_move_full (fuel : Nat) (rnd : Nat → Int) (who max_depth : Int) (s : State)
    (h : number_of_empties s.board = 0) :
    suggest_move fuel rnd who max_depth s = some (0, s) := by
  rw [suggest_move_eq, if_pos h]

/-- Second exit of `suggest_move`: no legal move. -/
theorem suggest_move_none (fuel : Nat) (rnd : Nat → Int) (who max_depth : Int) (s : State)
    (h : number_of_empties s.board ≠ 0) (hl : legal_moves s.board who = []) :
    suggest_move fuel rnd who max_depth s = some (0, undo_get_all (get_all who s)) := by
  rw [suggest_move_eq, if_neg h, if_pos]
  rw [get_all_eq, hl]
  simp

/-- Third exit of `suggest_move`: a move is suggested, chosen by `pick` among
the legal moves by their `score`. -/
theorem suggest_move_some (fuel : Nat) (rnd : Nat → Int) (who max_depth : Int) (s : State)
    (hwho : who = 1 ∨ who = 2) (hfuel : empties s.board ≤ fuel)
    (c0 : Int × Int) (l : List (Int × Int)) (hl : legal_moves s.board who = c0 :: l) :
    ∃ t, suggest_move fuel rnd who max_depth s = some (1, t) ∧ Preserved s t ∧
      (t.suggested_move_x, t.suggested_move_y) =
        (pick rnd
          (fun c => score fuel s.board c.1 c.2 who (effective_depth s.board max_depth) 1)
          l (score fuel s.board c0.1 c0.2 who (effective_depth s.board max_depth) 1) c0 0).2.1 := by
  have hc0 : c0 ∈ legal_moves s.board who := by rw [hl]; exact List.mem_cons_self _ _
  obtain ⟨hv0, hm0⟩ := mem_legal_moves.mp hc0
  have hne : number_of_empties s.board ≠ 0 := by
    intro h; rw [legal_moves_of_full who h] at hl; exact List.noConfusion hl
  have hblock := get_all_block who s
  rw [hl] at hblock
  simp only [List.length_cons, log_cells, List.cons.injEq] at hblock
  obtain ⟨hhead, htail⟩ := hblock
  have hnext : (get_all who s).moves_next = s.moves_next + ((l.length + 1 : Nat) : Int) := by
    rw [get_all_eq, hl]; rfl
  have hx : (get_all who s).moves_x s.moves_next = c0.1 := by rw [← hhead]
  have hy : (get_all who s).moves_y s.moves_next = c0.2 := by rw [← hhead]
  have hcount : ((get_all who s).moves_next - (s.moves_next + 1)).toNat = l.length := by
    rw [hnext]; push_cast; omega
  rw [suggest_move_eq, if_neg hne, if_neg (by rw [hnext]; push_cast; omega), hx, hy, hcount]
  have hgb := get_all_board who s
  have hundo : ∀ t, Preserved (get_all who s) t → Preserved s (undo_get_all t) :=
    fun t => undo_get_all_get_all
  generalize get_all who s = g at *
  have hp2 : Preserved g { g with suggested_move_x := c0.1, suggested_move_y := c0.2 } :=
    ⟨rfl, rfl, rfl, rfl, rfl, fun _ _ => ⟨rfl, rfl⟩, fun _ _ => rfl, fun _ _ => ⟨rfl, rfl⟩,
      fun _ _ => ⟨rfl, rfl⟩⟩
  obtain ⟨t3, h3, hp3, hs3⟩ := weigh_move_spec fuel c0.1 c0.2 who
    (effective_depth s.board max_depth) 1
    { g with suggested_move_x := c0.1, suggested_move_y := c0.2 } hwho hv0
    (by show valid_move g.board _ _ _ = 1; rw [hgb]; exact hm0)
    (by show empties g.board ≤ fuel; rw [hgb]; exact hfuel)
  rw [h3]
  dsimp only
  rw [hgb]
  obtain ⟨t4, h4, hp4, hs4⟩ := suggest_loop_spec fuel rnd who (effective_depth s.board max_depth)
    (fun c => score fuel s.board c.1 c.2 who (effective_depth s.board max_depth) 1)
    g l (s.moves_next + 1) (by rw [hnext]; push_cast; omega) htail
    (by
      intro c hc t ht
      have hcl : c ∈ legal_moves s.board who := by rw [hl]; exact List.mem_cons_of_mem _ hc
      obtain ⟨hv, hm⟩ := mem_legal_moves.mp hcl
      have htb : t.board = s.board := by rw [ht.1, hgb]
      obtain ⟨t', h1, h2, h3⟩ := weigh_move_spec fuel c.1 c.2 who
        (effective_depth s.board max_depth) 1 t hwho hv (by rw [htb]; exact hm)
        (by rw [htb]; exact hfuel)
      rw [htb] at h1
      exact ⟨t', h1, Preserved_trans ht h2, h3⟩)
    (score fuel s.board c0.1 c0.2 who (effective_depth s.board max_depth) 1) 0 t3
    (Preserved_trans hp2 hp3)
  simp only [Option.some_bind, h4, Option.map_some']
  refine ⟨_, rfl, hundo _ hp4, ?_⟩
  show (t4.suggested_move_x, t4.suggested_move_y) = _
  rw [hs4, hs3.1, hs3.2]

/-! ## The initial position -/

theorem clear_board_board (s : State) (i j : Int) (h : VALID_CELL i j) :
    (clear_board s).board i j = init_board i j := by
  have hp : ∀ b : Board, cells.foldl (fun b c => store2 b c.1 c.2 EMPTY) b = paint b EMPTY cells :=
    fun _ => rfl
  unfold clear_board
  simp only [hp]
  simp only [store2, paint_apply, if_pos ((mem_cells_iff (i, j)).mpr h), init_board]
  unfold VALID_CELL at h
  by_cases h1 : i = 3 ∧ j = 4
  · obtain ⟨rfl, rfl⟩ := h1; simp
  · by_cases h2 : i = 4 ∧ j = 3
    · obtain ⟨rfl, rfl⟩ := h2; simp
    · by_cases h3 : i = 3 ∧ j = 3
      · obtain ⟨rfl, rfl⟩ := h3; simp
      · by_cases h4 : i = 4 ∧ j = 4
        · obtain ⟨rfl, rfl⟩ := h4; simp
        · simp [h1, h2, h3, h4]

theorem legal_moves_init : legal_moves init_board BLACK = [(2, 3), (3, 2), (4, 5), (5, 4)] := by
  decide

/-- A move that captures is next to an in-bounds opponent disc. -/
theorem valid_move_neighbour {b : Board} {x y who : Int} (h : valid_move b x y who = 1) :
    ∃ d ∈ dirs, VALID_CELL (x + d.1) (y + d.2) ∧ b (x + d.1) (y + d.2) = OPPOSITE who := by
  rw [valid_move_eq] at h
  split at h
  · omega
  · split at h
    · rename_i hex
      obtain ⟨d, hd, hk⟩ := hex
      refine ⟨d, hd, ?_⟩
      have := capture_len_run 1 (le_refl 1) hk
      simpa using this
    · omega

theorem valid_move_init (x y : Int) :
    valid_move init_board x y BLACK = 1 ↔ (x, y) ∈ [((2 : Int), (3 : Int)), (3, 2), (4, 5), (5, 4)] := by
  rw [← legal_moves_init, mem_legal_moves]
  constructor
  · intro h
    refine ⟨?_, h⟩
    obtain ⟨d, hd, hv, hb⟩ := valid_move_neighbour h
    have hm := (mem_dirs_iff d).mp hd
    have hw : OPPOSITE BLACK = 2 := by decide
    rw [hw] at hb
    unfold init_board at hb
    unfold VALID_CELL at hv ⊢
    simp only [WHITE, BLACK, EMPTY] at hb
    split at hb
    · rename_i h1
      omega
    · split at hb <;> omega
  · exact fun h => h.2

/-! ## The claims -/

/-- C1 (apply/undo inverse).  For every board, every player `who` and every
in-bounds cell `(x, y)` for which `valid_move(x, y, who)` is true,
`make_move(x, y, who)` followed by `undo_move()` gives back the board of before
the move, cell for cell, with `flips_next` and `flips_stack_next` at their prior
values, the flip-log entries below the prior `flips_next` (and the flip blocks
below the prior `flips_stack_next`) unchanged, and the move log untouched. -/
theorem make_move_undo_move (s : State) (who x y : Int)
    (hwho : who = BLACK ∨ who = WHITE) (hxy : VALID_CELL x y)
    (hvalid : valid_move s.board x y who = 1) :
    (∀ i j, (undo_move (make_move x y who s)).board i j = s.board i j) ∧
    (undo_move (make_move x y who s)).flips_next = s.flips_next ∧
    (undo_move (make_move x y who s)).flips_stack_next = s.flips_stack_next ∧
    (∀ n, n < s.flips_next →
      (undo_move (make_move x y who s)).flips_x n = s.flips_x n ∧
      (undo_move (make_move x y who s)).flips_y n = s.flips_y n) ∧
    (∀ n, n < s.flips_stack_next →
      (undo_move (make_move x y who s)).flips_stack_block n = s.flips_stack_block n ∧
      (undo_move (make_move x y who s)).flips_stack_who n = s.flips_stack_who n) ∧
    (undo_move (make_move x y who s)).moves_x = s.moves_x ∧
    (undo_move (make_move x y who s)).moves_y = s.moves_y ∧
    (undo_move (make_move x y who s)).moves_next = s.moves_next ∧
    (undo_move (make_move x y who s)).moves_stack_block = s.moves_stack_block ∧
    (undo_move (make_move x y who s)).moves_stack_next = s.moves_stack_next := by
  have hw := OPPOSITE_ne hwho
  have hp := undo_move_make_move hwho (valid_move_empty hxy hvalid)
    (Preserved_refl (make_move x y who s))
  obtain ⟨a1, a2, a3, a4, a5, a6, a7, a8, a9⟩ := hp
  have hm : (make_move x y who s).moves_x = s.moves_x ∧
      (make_move x y who s).moves_y = s.moves_y ∧
      (make_move x y who s).moves_stack_block = s.moves_stack_block := by
    rw [make_move_eq x y who s hw]; exact ⟨rfl, rfl, rfl⟩
  have hu : ∀ t : State, (undo_move t).moves_x = t.moves_x ∧
      (undo_move t).moves_y = t.moves_y ∧
      (undo_move t).moves_stack_block = t.moves_stack_block := by
    intro t; rw [undo_move_eq]; exact ⟨rfl, rfl, rfl⟩
  refine ⟨fun i j => by rw [a1], a4, a5, a8, a9, ?_, ?_, a2, ?_, a3⟩
  · rw [(hu _).1, hm.1]
  · rw [(hu _).2.1, hm.2.1]
  · rw [(hu _).2.2, hm.2.2]

/-- C2 (the search leaves the game state as it found it).  With a call budget
of at least the number of empty cells, `weigh_move` on a legal in-bounds move
returns, for every depth and sign flag, with the board equal cell for cell to
the board at entry and the four log sizes at their entry values; and so does
`suggest_move`, for every depth and every outcome of `rand()`, on each of its
exits. -/
theorem search_restores_state (s : State) (who : Int) (fuel : Nat)
    (hwho : who = BLACK ∨ who = WHITE) (hfuel : number_of_empties s.board ≤ fuel) :
    (∀ x y max_depth add : Int, VALID_CELL x y → valid_move s.board x y who = 1 →
      ∃ w t, weigh_move fuel x y who max_depth add s = some (w, t) ∧
        (∀ i j, t.board i j = s.board i j) ∧
        t.moves_next = s.moves_next ∧ t.moves_stack_next = s.moves_stack_next ∧
        t.flips_next = s.flips_next ∧ t.flips_stack_next = s.flips_stack_next) ∧
    (∀ (rnd : Nat → Int) (max_depth : Int),
      ∃ r t, suggest_move fuel rnd who max_depth s = some (r, t) ∧
        (∀ i j, t.board i j = s.board i j) ∧
        t.moves_next = s.moves_next ∧ t.moves_stack_next = s.moves_stack_next ∧
        t.flips_next = s.flips_next ∧ t.flips_stack_next = s.flips_stack_next) := by
  have hf : empties s.board ≤ fuel := by
    rw [number_of_empties_eq] at hfuel; exact_mod_cast hfuel
  have key : ∀ t, Preserved s t → (∀ i j, t.board i j = s.board i j) ∧
      t.moves_next = s.moves_next ∧ t.moves_stack_next = s.moves_stack_next ∧
      t.flips_next = s.flips_next ∧ t.flips_stack_next = s.flips_stack_next :=
    fun t h => ⟨fun i j => by rw [h.1], h.2.1, h.2.2.1, h.2.2.2.1, h.2.2.2.2.1⟩
  constructor
  · intro x y max_depth add hxy hvalid
    obtain ⟨t, h1, h2, _⟩ := weigh_move_spec fuel x y who max_depth add s hwho hxy hvalid hf
    exact ⟨_, t, h1, key t h2⟩
  · intro rnd max_depth
    by_cases he : number_of_empties s.board = 0
    · exact ⟨0, s, suggest_move_full fuel rnd who max_depth s he, key s (Preserved_refl s)⟩
    · cases hl : legal_moves s.board who with
      | nil =>
        exact ⟨0, _, suggest_move_none fuel rnd who max_depth s he hl,
          key _ (undo_get_all_get_all (Preserved_refl _))⟩
      | cons c0 l =>
        obtain ⟨t, h1, h2, _⟩ := suggest_move_some fuel rnd who max_depth s hwho hf c0 l hl
        exact ⟨1, t, h1, key t h2⟩

/-- C3 (validator correctness).  For every board, every player `who` and every
in-bounds cell `(x, y)`, `valid_move(x, y, who)` returns 1 exactly when the cell
is Empty and some direction other than `(0, 0)` holds a run of `k ≥ 1` in-bounds
opponent discs next to `(x, y)` ended by an in-bounds disc of `who`; it returns 0
otherwise, in particular on every occupied cell.  (`valid_move` is a function of
the board: it writes neither the board nor the logs.) -/
theorem valid_move_correct (b : Board) (who x y : Int)
    (hwho : who = BLACK ∨ who = WHITE) (hxy : VALID_CELL x y) :
    (valid_move b x y who = 1 ↔
      b x y = EMPTY ∧
      ∃ dx dy : Int, ((dx = -1 ∨ dx = 0 ∨ dx = 1) ∧ (dy = -1 ∨ dy = 0 ∨ dy = 1) ∧
          (dx ≠ 0 ∨ dy ≠ 0)) ∧
        ∃ k : Nat, 1 ≤ k ∧
          (∀ i : Nat, 1 ≤ i → i ≤ k →
            VALID_CELL (x + i * dx) (y + i * dy) ∧
            b (x + i * dx) (y + i * dy) = OPPOSITE who) ∧
          VALID_CELL (x + (k + 1 : Nat) * dx) (y + (k + 1 : Nat) * dy) ∧
          b (x + (k + 1 : Nat) * dx) (y + (k + 1 : Nat) * dy) = who) ∧
    (valid_move b x y who = 0 ∨ valid_move b x y who = 1) ∧
    (b x y ≠ EMPTY → valid_move b x y who = 0) := by
  have hw := OPPOSITE_ne hwho
  refine ⟨?_, valid_move_zero_or_one b x y who, ?_⟩
  · rw [valid_move_eq]
    have hiff := exists_capture_iff (b := b) (x := x) (y := y) hw
    unfold IsDir Bracket Run at hiff
    by_cases hb : b x y = 0
    · rw [if_neg (fun h => h.2 hb)]
      constructor
      · intro h
        split at h
        · rename_i hex; exact ⟨hb, hiff.mp hex⟩
        · omega
      · rintro ⟨_, h⟩
        rw [if_pos (hiff.mpr h)]
    · rw [if_pos ⟨hxy, hb⟩]
      constructor
      · intro h; omega
      · rintro ⟨h, _⟩; exact absurd h hb
  · intro hb
    rw [valid_move_eq, if_pos ⟨hxy, hb⟩]

/-- C4 (effect of applying a move).  After `make_move(x, y, who)` the cell
`(x, y)` holds `who`; a cell other than `(x, y)` held the opponent's colour and
now holds `who` exactly when, on the board before the move, it lies on a run of
opponent discs next to `(x, y)` in one of the 8 directions ended by an in-bounds
disc of `who`; and every other cell is unchanged.  Flipping in place direction by
direction is flipping all bracketed runs of the pre-move board at once. -/
theorem make_move_effect (s : State) (who x y : Int) (hwho : who = BLACK ∨ who = WHITE) :
    (make_move x y who s).board x y = who ∧
    (∀ i j : Int, ¬ (i = x ∧ j = y) →
      ((s.board i j = OPPOSITE who ∧ (make_move x y who s).board i j = who) ↔
        Bracketed s.board who x y i j) ∧
      (¬ Bracketed s.board who x y i j → (make_move x y who s).board i j = s.board i j)) ∧
    (∀ i j : Int, (make_move x y who s).board i j = after_move s.board who x y i j) := by
  have hw := OPPOSITE_ne hwho
  have hmem : ∀ i j, (i, j) ∈ captures s.board who x y ↔ Bracketed s.board who x y i j := by
    intro i j
    rw [mem_captures]
    constructor
    · rintro ⟨⟨dx, dy⟩, hd, m, h1, h2, h3⟩
      have hm := (mem_dirs_iff _).mp hd
      have h0 : dx ≠ 0 ∨ dy ≠ 0 := by
        by_contra h0
        have : ((dx, dy) : Int × Int) = (0, 0) := by
          ext <;> simp <;> tauto
        rw [this, capture_len_zero_dir] at h2
        omega
      have hdir : IsDir dx dy := ⟨hm.1, hm.2, h0⟩
      exact ⟨dx, dy, hdir, _, m, (capture_len_eq_iff hw hdir _ (by omega)).mp rfl, h1, h2,
        congrArg Prod.fst h3, congrArg Prod.snd h3⟩
    · rintro ⟨dx, dy, hdir, k, m, hb, h1, h2, h3, h4⟩
      refine ⟨(dx, dy), (mem_dirs_iff _).mpr ⟨hdir.1, hdir.2.1⟩, m, h1, ?_, by rw [h3, h4]⟩
      rw [(capture_len_eq_iff hw hdir k hb.1).mpr hb]
      exact h2
  rw [make_move_board x y who s hw]
  refine ⟨?_, ?_, fun _ _ => rfl⟩
  · unfold after_move
    rw [paint_apply]
    split
    · rfl
    · exact store2_same _ _ _ _
  · intro i j hij
    have hval : after_move s.board who x y i j =
        if (i, j) ∈ captures s.board who x y then who else s.board i j := by
      unfold after_move
      rw [paint_apply, store2_other _ _ _ _ _ _ hij]
    rw [hval]
    constructor
    · constructor
      · rintro ⟨h1, h2⟩
        by_contra hn
        rw [if_neg (fun h => hn ((hmem i j).mp h)), h1] at h2
        exact hw h2.symm
      · intro hb
        have hc := (hmem i j).mpr hb
        exact ⟨(captures_opp hc).2, by rw [if_pos hc]⟩
    · intro hn
      rw [if_neg (fun h => hn ((hmem i j).mp h))]

/-- C5, as stated, fails: on the board with a White disc at `(0, 0)` and a Black
disc at `(1, 0)`, `valid_move(-1, 0, BLACK)` returns 1 although `(-1, 0)` is out
of bounds. -/
theorem valid_move_out_of_bounds_accepts :
    (∀ i j, edge_board i j = EMPTY ∨ edge_board i j = BLACK ∨ edge_board i j = WHITE) ∧
    ¬ VALID_CELL (-1) 0 ∧ valid_move edge_board (-1) 0 BLACK = 1 := by
  refine ⟨?_, by decide, by decide⟩
  intro i j
  unfold edge_board
  split
  · exact Or.inr (Or.inr rfl)
  · split
    · exact Or.inr (Or.inl rfl)
    · exact Or.inl rfl

/-- C5, amended (out-of-bounds coordinates).  For an out-of-bounds `(x, y)`,
`valid_move(x, y, who)` does not look at `board[x][y]` and returns 1 exactly when
some direction holds a run of `k ≥ 1` in-bounds opponent discs next to `(x, y)`
ended by an in-bounds disc of `who`, and 0 otherwise; so it returns 0 whenever
`x` or `y` is outside `-1..8`. -/
theorem valid_move_out_of_bounds (b : Board) (who x y : Int)
    (hwho : who = BLACK ∨ who = WHITE) (hout : ¬ VALID_CELL x y) :
    (valid_move b x y who = 1 ↔
      ∃ dx dy : Int, IsDir dx dy ∧ ∃ k : Nat, Bracket b who x y dx dy k) ∧
    (valid_move b x y who = 0 ∨ valid_move b x y who = 1) ∧
    ((x < -1 ∨ 8 < x ∨ y < -1 ∨ 8 < y) → valid_move b x y who = 0) := by
  have hw := OPPOSITE_ne hwho
  have h1 : valid_move b x y who = 1 ↔
      ∃ dx dy : Int, IsDir dx dy ∧ ∃ k : Nat, Bracket b who x y dx dy k := by
    rw [valid_move_eq, if_neg (fun h => hout h.1), ← exists_capture_iff hw]
    constructor
    · intro h
      split at h
      · assumption
      · omega
    · intro h; rw [if_pos h]
  refine ⟨h1, valid_move_zero_or_one b x y who, ?_⟩
  intro hfar
  rcases valid_move_zero_or_one b x y who with h | h
  · exact h
  · obtain ⟨dx, dy, hdir, k, hk, hrun, _⟩ := h1.mp h
    have hv := (hrun 1 (le_refl 1) hk).1
    obtain ⟨d1, d2, _⟩ := hdir
    unfold VALID_CELL at hv
    simp only [Nat.cast_one, one_mul] at hv
    omega

/-- C6 (initial legality).  On the board produced by `clear_board()`,
`valid_move(x, y, BLACK)` returns 1 for the four cells `(2,3)`, `(3,2)`, `(4,5)`,
`(5,4)` and 0 for every other coordinate pair, in or out of bounds; so
`get_all(BLACK)` on a fresh game pushes one block of length 4 that holds these
four moves in this order. -/
theorem initial_legality (s : State) :
    (∀ x y : Int, valid_move (clear_board s).board x y BLACK =
      if (x = 2 ∧ y = 3) ∨ (x = 3 ∧ y = 2) ∨ (x = 4 ∧ y = 5) ∨ (x = 5 ∧ y = 4) then 1
      else 0) ∧
    (get_all BLACK (clear_board s)).moves_stack_next = 1 ∧
    (get_all BLACK (clear_board s)).moves_stack_block 0 = 4 ∧
    (get_all BLACK (clear_board s)).moves_next = 4 ∧
    (get_all BLACK (clear_board s)).moves_x 0 = 2 ∧
    (get_all BLACK (clear_board s)).moves_y 0 = 3 ∧
    (get_all BLACK (clear_board s)).moves_x 1 = 3 ∧
    (get_all BLACK (clear_board s)).moves_y 1 = 2 ∧
    (get_all BLACK (clear_board s)).moves_x 2 = 4 ∧
    (get_all BLACK (clear_board s)).moves_y 2 = 5 ∧
    (get_all BLACK (clear_board s)).moves_x 3 = 5 ∧
    (get_all BLACK (clear_board s)).moves_y 3 = 4 := by
  have hb := clear_board_board s
  constructor
  · intro x y
    rw [valid_move_congr hb]
    have h := valid_move_init x y
    simp only [List.mem_cons, Prod.mk.injEq, List.mem_singleton, List.not_mem_nil, or_false] at h
    split
    · rename_i hc; exact h.mpr hc
    · rename_i hc
      rcases valid_move_zero_or_one init_board x y BLACK with h0 | h1
      · exact h0
      · exact absurd (h.mp h1) hc
  · have h0 : (clear_board s).moves_next = 0 := rfl
    have h1 : (clear_board s).moves_stack_next = 0 := rfl
    rw [get_all_eq, legal_moves_congr hb, legal_moves_init, h0, h1]
    simp [write_list, store]

/-- C7 (move enumeration).  `get_all(who)` appends to the move log the list
`legal_moves` of the board: the cells `(i, j)`, `0 ≤ i, j ≤ 7`, for which
`valid_move(i, j, who)` is true, each once, in row-major order.  It pushes one
block whose length is the number of cells appended, leaves every other log
entry (the earlier ones in particular) and every other block length unchanged,
and changes neither the board nor the flip log. -/
theorem get_all_enumerates (s : State) (who : Int) :
    (legal_moves s.board who).Pairwise row_major_lt ∧
    (∀ c : Int × Int, c ∈ legal_moves s.board who ↔
      VALID_CELL c.1 c.2 ∧ valid_move s.board c.1 c.2 who ≠ 0) ∧
    (get_all who s).moves_next = s.moves_next + ((legal_moves s.board who).length : Nat) ∧
    (∀ (k : Nat) (h : k < (legal_moves s.board who).length),
      (get_all who s).moves_x (s.moves_next + k) = ((legal_moves s.board who).get ⟨k, h⟩).1 ∧
      (get_all who s).moves_y (s.moves_next + k) = ((legal_moves s.board who).get ⟨k, h⟩).2) ∧
    (get_all who s).moves_stack_next = s.moves_stack_next + 1 ∧
    (get_all who s).moves_stack_block s.moves_stack_next
      = ((legal_moves s.board who).length : Nat) ∧
    (∀ n, (n < s.moves_next ∨ s.moves_next + ((legal_moves s.board who).length : Nat) ≤ n) →
      (get_all who s).moves_x n = s.moves_x n ∧ (get_all who s).moves_y n = s.moves_y n) ∧
    (∀ n, n ≠ s.moves_stack_next →
      (get_all who s).moves_stack_block n = s.moves_stack_block n) ∧
    (get_all who s).board = s.board ∧
    (get_all who s).flips_x = s.flips_x ∧ (get_all who s).flips_y = s.flips_y ∧
    (get_all who s).flips_next = s.flips_next ∧
    (get_all who s).flips_stack_block = s.flips_stack_block ∧
    (get_all who s).flips_stack_who = s.flips_stack_who ∧
    (get_all who s).flips_stack_next = s.flips_stack_next := by
  refine ⟨legal_moves_sorted s.board who, ?_, ?_⟩
  · intro c
    rw [mem_legal_moves]
    have := valid_move_zero_or_one s.board c.1 c.2 who
    constructor
    · rintro ⟨h1, h2⟩; exact ⟨h1, by omega⟩
    · rintro ⟨h1, h2⟩; exact ⟨h1, by omega⟩
  · rw [get_all_eq]
    refine ⟨rfl, ?_, rfl, store_same _ _ _, ?_, ?_, rfl, rfl, rfl, rfl, rfl, rfl, rfl⟩
    · intro k h
      constructor
      · show write_list _ _ _ _ = _
        rw [write_list_get _ _ _ k (by simpa using h)]
        simp
      · show write_list _ _ _ _ = _
        rw [write_list_get _ _ _ k (by simpa using h)]
        simp
    · intro n hn
      rcases hn with hn | hn
      · exact ⟨write_list_below _ _ _ _ hn, write_list_below _ _ _ _ hn⟩
      · exact ⟨write_list_above _ _ _ _ (by simpa using hn),
          write_list_above _ _ _ _ (by simpa using hn)⟩
    · intro n hn
      exact store_other _ _ _ _ hn

/-- C8 (enumerate/discard inverse).  `get_all(who)` followed by
`undo_get_all()` leaves `moves_next` and `moves_stack_next` at their prior
values and leaves every move-log entry below the prior `moves_next` and every
earlier block length unchanged; the board and the flip log are untouched. -/
theorem get_all_undo_get_all (s : State) (who : Int) :
    (undo_get_all (get_all who s)).moves_next = s.moves_next ∧
    (undo_get_all (get_all who s)).moves_stack_next = s.moves_stack_next ∧
    (∀ n, n < s.moves_next →
      (undo_get_all (get_all who s)).moves_x n = s.moves_x n ∧
      (undo_get_all (get_all who s)).moves_y n = s.moves_y n) ∧
    (∀ n, n < s.moves_stack_next →
      (undo_get_all (get_all who s)).moves_stack_block n = s.moves_stack_block n) ∧
    (undo_get_all (get_all who s)).board = s.board ∧
    (undo_get_all (get_all who s)).flips_x = s.flips_x ∧
    (undo_get_all (get_all who s)).flips_y = s.flips_y ∧
    (undo_get_all (get_all who s)).flips_next = s.flips_next ∧
    (undo_get_all (get_all who s)).flips_stack_block = s.flips_stack_block ∧
    (undo_get_all (get_all who s)).flips_stack_who = s.flips_stack_who ∧
    (undo_get_all (get_all who s)).flips_stack_next = s.flips_stack_next := by
  obtain ⟨a1, a2, a3, a4, a5, a6, a7, a8, a9⟩ :=
    undo_get_all_get_all (Preserved_refl (get_all who s))
  refine ⟨a2, a3, a6, a7, a1, ?_⟩
  rw [get_all_eq]
  exact ⟨rfl, rfl, rfl, rfl, rfl, rfl⟩

/-- The result of `suggest_move`, in terms of `legal_moves`, `score` and `pick`. -/
theorem suggest_move_result (s : State) (who : Int) (fuel : Nat) (rnd : Nat → Int)
    (max_depth : Int) (hwho : who = 1 ∨ who = 2) (hf : empties s.board ≤ fuel) :
    ∃ r t, suggest_move fuel rnd who max_depth s = some (r, t) ∧
      (legal_moves s.board who = [] → r = 0) ∧
      (∀ c0 l, legal_moves s.board who = c0 :: l →
        r = 1 ∧ (t.suggested_move_x, t.suggested_move_y) =
          (pick rnd
            (fun c => score fuel s.board c.1 c.2 who (effective_depth s.board max_depth) 1)
            l (score fuel s.board c0.1 c0.2 who (effective_depth s.board max_depth) 1)
            c0 0).2.1) := by
  by_cases he : number_of_empties s.board = 0
  · refine ⟨0, s, suggest_move_full fuel rnd who max_depth s he, fun _ => rfl, ?_⟩
    intro c0 l hl
    rw [legal_moves_of_full who he] at hl
    exact List.noConfusion hl
  · cases hl : legal_moves s.board who with
    | nil =>
      refine ⟨0, _, suggest_move_none fuel rnd who max_depth s he hl, fun _ => rfl, ?_⟩
      intro c0 l hl'
      exact List.noConfusion hl'
    | cons c0 l =>
      obtain ⟨t, h1, _, h3⟩ := suggest_move_some fuel rnd who max_depth s hwho hf c0 l hl
      refine ⟨1, t, h1, fun h => List.noConfusion h, ?_⟩
      intro c1 l1 hl1
      obtain ⟨rfl, rfl⟩ := List.cons.inj hl1
      exact ⟨rfl, h3⟩

/-- C9 (the suggestion is a legal move or none).  With a call budget of at least
the number of empty cells, `suggest_move(who, max_depth)` returns, for every depth
and every outcome of `rand()`, 0 if and only if the board has no empty cell or no
cell is legal for `who`; otherwise it returns 1 and
`(suggested_move_x, suggested_move_y)` is an in-bounds cell for which `valid_move`
is true.  On the initial board `suggest_move(BLACK, max_depth)` returns 1 and
suggests one of `(2,3)`, `(3,2)`, `(4,5)`, `(5,4)`, for every depth, 0 and 3
included. -/
theorem suggest_move_legal (s : State) (who : Int) (fuel : Nat) (rnd : Nat → Int)
    (max_depth : Int) (hwho : who = BLACK ∨ who = WHITE)
    (hfuel : number_of_empties s.board ≤ fuel) :
    (∃ r t, suggest_move fuel rnd who max_depth s = some (r, t) ∧
      (r = 0 ∨ r = 1) ∧
      (r = 0 ↔ (number_of_empties s.board = 0 ∨
        ∀ x y, VALID_CELL x y → valid_move s.board x y who = 0)) ∧
      (r = 1 → VALID_CELL t.suggested_move_x t.suggested_move_y ∧
        valid_move s.board t.suggested_move_x t.suggested_move_y who = 1)) ∧
    ((∀ i j, VALID_CELL i j → s.board i j = init_board i j) → who = BLACK →
      ∃ t, suggest_move fuel rnd who max_depth s = some (1, t) ∧
        ((t.suggested_move_x = 2 ∧ t.suggested_move_y = 3) ∨
         (t.suggested_move_x = 3 ∧ t.suggested_move_y = 2) ∨
         (t.suggested_move_x = 4 ∧ t.suggested_move_y = 5) ∨
         (t.suggested_move_x = 5 ∧ t.suggested_move_y = 4))) := by
  have hf : empties s.board ≤ fuel := by
    rw [number_of_empties_eq] at hfuel; exact_mod_cast hfuel
  obtain ⟨r, t, h1, h2, h3⟩ := suggest_move_result s who fuel rnd max_depth hwho hf
  have hnone : legal_moves s.board who = [] ↔
      (number_of_empties s.board = 0 ∨
        ∀ x y, VALID_CELL x y → valid_move s.board x y who = 0) := by
    constructor
    · intro hl
      right
      intro x y hv
      rcases valid_move_zero_or_one s.board x y who with h | h
      · exact h
      · have : (x, y) ∈ legal_moves s.board who := mem_legal_moves.mpr ⟨hv, h⟩
        rw [hl] at this
        exact absurd this (List.not_mem_nil _)
    · rintro (h | h)
      · exact legal_moves_of_full who h
      · rw [List.eq_nil_iff_forall_not_mem]
        intro c hc
        obtain ⟨hv, hm⟩ := mem_legal_moves.mp hc
        rw [h c.1 c.2 hv] at hm
        omega
  have hsome : ∀ c0 l, legal_moves s.board who = c0 :: l →
      r = 1 ∧ (t.suggested_move_x, t.suggested_move_y) ∈ legal_moves s.board who := by
    intro c0 l hl
    obtain ⟨hr, hp⟩ := h3 c0 l hl
    refine ⟨hr, ?_⟩
    rw [hp, hl]
    exact pick_mem _ _ _ _ _ _
  constructor
  · refine ⟨r, t, h1, ?_, ?_, ?_⟩
    · cases hl : legal_moves s.board who with
      | nil => exact Or.inl (h2 hl)
      | cons c0 l => exact Or.inr (hsome c0 l hl).1
    · rw [← hnone]
      cases hl : legal_moves s.board who with
      | nil => simp [h2 hl]
      | cons c0 l => simp [(hsome c0 l hl).1]
    · intro hr
      cases hl : legal_moves s.board who with
      | nil => rw [h2 hl] at hr; omega
      | cons c0 l =>
        have := (hsome c0 l hl).2
        exact mem_legal_moves.mp this
  · intro hinit hblack
    subst hblack
    have hl : legal_moves s.board BLACK = [(2, 3), (3, 2), (4, 5), (5, 4)] := by
      rw [legal_moves_congr hinit, legal_moves_init]
    obtain ⟨hr, hm⟩ := hsome _ _ hl
    subst hr
    refine ⟨t, h1, ?_⟩
    rw [hl] at hm
    simpa using hm

/-- The value returned by `weigh_move` on a legal move is its `score`. -/
theorem weigh_value_eq (fuel : Nat) (x y who max_depth add : Int) (s : State)
    (hwho : who = 1 ∨ who = 2) (hxy : VALID_CELL x y) (hvalid : valid_move s.board x y who = 1)
    (hf : empties s.board ≤ fuel) :
    weigh_value fuel x y who max_depth add s = some (score fuel s.board x y who max_depth add) := by
  obtain ⟨t, h, _⟩ := weigh_move_spec fuel x y who max_depth add s hwho hxy hvalid hf
  unfold weigh_value
  rw [h]
  rfl

/-- C10 (the suggestion is best-scoring).  When `suggest_move(who, max_depth)`
returns 1, the suggested move is legal and its value under
`weigh_move(.., who, d, 1)`, `d` the depth after the end-game override, is the
greatest value of a legal move of `who`, whatever `rand()` returns; a legal move
that alone attains this value is the move suggested; and when every coin flip
says keep (`rand() % 2 = 0`), the suggestion is the first move of greatest value
in row-major order. -/
theorem suggest_move_best (s : State) (who : Int) (fuel : Nat) (rnd : Nat → Int)
    (max_depth : Int) (hwho : who = BLACK ∨ who = WHITE)
    (hfuel : number_of_empties s.board ≤ fuel) :
    ∃ r t, suggest_move fuel rnd who max_depth s = some (r, t) ∧
      (r = 1 →
        ∃ w : Int,
          VALID_CELL t.suggested_move_x t.suggested_move_y ∧
          valid_move s.board t.suggested_move_x t.suggested_move_y who = 1 ∧
          weigh_value fuel t.suggested_move_x t.suggested_move_y who
            (effective_depth s.board max_depth) 1 s = some w ∧
          (∀ x y, VALID_CELL x y → valid_move s.board x y who = 1 →
            ∃ w', weigh_value fuel x y who (effective_depth s.board max_depth) 1 s = some w' ∧
              w' ≤ w) ∧
          (∀ x y, VALID_CELL x y → valid_move s.board x y who = 1 →
            weigh_value fuel x y who (effective_depth s.board max_depth) 1 s = some w →
            (∀ x' y', VALID_CELL x' y' → valid_move s.board x' y' who = 1 →
              weigh_value fuel x' y' who (effective_depth s.board max_depth) 1 s = some w →
              x' = x ∧ y' = y) →
            t.suggested_move_x = x ∧ t.suggested_move_y = y) ∧
          ((∀ k, rnd k % 2 = 0) →
            ∀ x y, VALID_CELL x y → valid_move s.board x y who = 1 →
              weigh_value fuel x y who (effective_depth s.board max_depth) 1 s = some w →
              (x = t.suggested_move_x ∧ y = t.suggested_move_y) ∨
                row_major_lt (t.suggested_move_x, t.suggested_move_y) (x, y))) := by
  have hf : empties s.board ≤ fuel := by
    rw [number_of_empties_eq] at hfuel; exact_mod_cast hfuel
  obtain ⟨r, t, h1, h2, h3⟩ := suggest_move_result s who fuel rnd max_depth hwho hf
  refine ⟨r, t, h1, ?_⟩
  intro hr
  cases hl : legal_moves s.board who with
  | nil => rw [h2 hl] at hr; omega
  | cons c0 l =>
    obtain ⟨_, hp⟩ := h3 c0 l hl
    have hval : ∀ x y, VALID_CELL x y → valid_move s.board x y who = 1 →
        weigh_value fuel x y who (effective_depth s.board max_depth) 1 s
          = some (score fuel s.board x y who (effective_depth s.board max_depth) 1) :=
      fun x y hv hm => weigh_value_eq fuel x y who _ 1 s hwho hv hm hf
    have hmem := pick_mem rnd
      (fun c => score fuel s.board c.1 c.2 who (effective_depth s.board max_depth) 1)
      l (score fuel s.board c0.1 c0.2 who (effective_depth s.board max_depth) 1) c0 0
    have hmax := pick_max rnd
      (fun c => score fuel s.board c.1 c.2 who (effective_depth s.board max_depth) 1) l c0 0
    rw [← hp] at hmem hmax
    rw [← hl] at hmem
    obtain ⟨hv, hm⟩ := mem_legal_moves.mp hmem
    simp only at hv hm hmax
    have hle : ∀ x y, VALID_CELL x y → valid_move s.board x y who = 1 →
        score fuel s.board x y who (effective_depth s.board max_depth) 1 ≤
          score fuel s.board t.suggested_move_x t.suggested_move_y who
            (effective_depth s.board max_depth) 1 := by
      intro x y hxv hxm
      have : (x, y) ∈ c0 :: l := by rw [← hl]; exact mem_legal_moves.mpr ⟨hxv, hxm⟩
      exact hmax.2 (x, y) this
    refine ⟨_, hv, hm, hval _ _ hv hm, ?_, ?_, ?_⟩
    · intro x y hxv hxm
      exact ⟨_, hval x y hxv hxm, hle x y hxv hxm⟩
    · intro x y hxv hxm _ huniq
      exact huniq _ _ hv hm (hval _ _ hv hm)
    · intro hkeep x y hxv hxm hxw
      rw [hval x y hxv hxm] at hxw
      have hxw' := Option.some.inj hxw
      obtain ⟨pre1, post1, hsplit, hpre⟩ := pick_keep rnd
        (fun c => score fuel s.board c.1 c.2 who (effective_depth s.board max_depth) 1)
        hkeep l [] [] c0 0 (by simp) (by simp)
      rw [← hp] at hsplit hpre
      simp only [List.nil_append, List.cons_append] at hsplit
      have hsorted := legal_moves_sorted s.board who
      rw [hl, hsplit] at hsorted
      have hxmem : (x, y) ∈ pre1 ++ (t.suggested_move_x, t.suggested_move_y) :: post1 := by
        rw [← hsplit, ← hl]; exact mem_legal_moves.mpr ⟨hxv, hxm⟩
      rcases List.mem_append.mp hxmem with h | h
      · have := hpre _ h
        simp only at this
        omega
      · rcases List.mem_cons.mp h with h | h
        · left
          exact ⟨congrArg Prod.fst h, congrArg Prod.snd h⟩
        · right
          exact List.rel_of_pairwise_cons (List.pairwise_append.mp hsorted).2.1 h

/-! ## Witnesses -/

/-- C1 at the opening move `(2, 3)` of Black on the initial board. -/
theorem make_move_undo_move_witness :
    (BLACK = BLACK ∨ BLACK = WHITE) ∧ VALID_CELL 2 3 ∧
    valid_move start_state.board 2 3 BLACK = 1 ∧
    (∀ i j, (undo_move (make_move 2 3 BLACK start_state)).board i j = start_state.board i j) ∧
    (undo_move (make_move 2 3 BLACK start_state)).flips_next = start_state.flips_next ∧
    (undo_move (make_move 2 3 BLACK start_state)).flips_stack_next
      = start_state.flips_stack_next :=
  have h := make_move_undo_move start_state BLACK 2 3 (by decide) (by decide) (by decide)
  ⟨by decide, by decide, by decide, h.1, h.2.1, h.2.2.1⟩

/-- C2 at the initial board: the move `(2, 3)` of Black at depth 3, and
`suggest_move(BLACK, 3)`. -/
theorem search_restores_state_witness :
    (BLACK = BLACK ∨ BLACK = WHITE) ∧ number_of_empties start_state.board ≤ (60 : Nat) ∧
    VALID_CELL 2 3 ∧ valid_move start_state.board 2 3 BLACK = 1 ∧
    (∃ w t, weigh_move 60 2 3 BLACK 3 1 start_state = some (w, t) ∧
      (∀ i j, t.board i j = start_state.board i j) ∧
      t.moves_next = start_state.moves_next ∧
      t.moves_stack_next = start_state.moves_stack_next ∧
      t.flips_next = start_state.flips_next ∧
      t.flips_stack_next = start_state.flips_stack_next) ∧
    (∃ r t, suggest_move 60 (fun _ => 1) BLACK 3 start_state = some (r, t) ∧
      (∀ i j, t.board i j = start_state.board i j) ∧
      t.moves_next = start_state.moves_next ∧
      t.moves_stack_next = start_state.moves_stack_next ∧
      t.flips_next = start_state.flips_next ∧
      t.flips_stack_next = start_state.flips_stack_next) :=
  have h := search_restores_state start_state BLACK 60 (by decide) (by decide)
  ⟨by decide, by decide, by decide, by decide,
    h.1 2 3 3 1 (by decide) (by decide), h.2 (fun _ => 1) 3⟩

/-- C3 at the cell `(2, 3)` of the initial board, for Black: the move is legal,
so the cell is empty and a direction holds a bracketed run. -/
theorem valid_move_correct_witness :
    (BLACK = BLACK ∨ BLACK = WHITE) ∧ VALID_CELL 2 3 ∧
    valid_move start_state.board 2 3 BLACK = 1 ∧
    (start_state.board 2 3 = EMPTY ∧
      ∃ dx dy : Int, ((dx = -1 ∨ dx = 0 ∨ dx = 1) ∧ (dy = -1 ∨ dy = 0 ∨ dy = 1) ∧
          (dx ≠ 0 ∨ dy ≠ 0)) ∧
        ∃ k : Nat, 1 ≤ k ∧
          (∀ i : Nat, 1 ≤ i → i ≤ k →
            VALID_CELL (2 + i * dx) (3 + i * dy) ∧
            start_state.board (2 + i * dx) (3 + i * dy) = OPPOSITE BLACK) ∧
          VALID_CELL (2 + (k + 1 : Nat) * dx) (3 + (k + 1 : Nat) * dy) ∧
          start_state.board (2 + (k + 1 : Nat) * dx) (3 + (k + 1 : Nat) * dy) = BLACK) :=
  ⟨by decide, by decide, by decide,
    (valid_move_correct start_state.board BLACK 2 3 (by decide) (by decide)).1.mp (by decide)⟩

/-- C4 at the opening move `(2, 3)` of Black on the initial board: the disc is
placed and the White disc at `(3, 3)`, bracketed by the Black disc at `(4, 3)`,
is flipped. -/
theorem make_move_effect_witness :
    (BLACK = BLACK ∨ BLACK = WHITE) ∧
    (make_move 2 3 BLACK start_state).board 2 3 = BLACK ∧
    start_state.board 3 3 = OPPOSITE BLACK ∧
    (make_move 2 3 BLACK start_state).board 3 3 = BLACK :=
  have h := make_move_effect start_state BLACK 2 3 (by decide)
  have hb : Bracketed start_state.board BLACK 2 3 3 3 :=
    ⟨1, 0, by decide, 1, 1,
      ⟨by decide, fun m h1 h2 => by
        obtain rfl : m = 1 := by omega
        decide, by decide, by decide⟩,
      by decide, by decide, by decide, by decide⟩
  ⟨by decide, h.1, ((h.2.1 3 3 (by decide)).1.mpr hb).1, ((h.2.1 3 3 (by decide)).1.mpr hb).2⟩

/-- C5, amended, at the cell `(-1, 0)` of `edge_board`, for Black. -/
theorem valid_move_out_of_bounds_witness :
    (BLACK = BLACK ∨ BLACK = WHITE) ∧ ¬ VALID_CELL (-1) 0 ∧
    (valid_move edge_board (-1) 0 BLACK = 1 ↔
      ∃ dx dy : Int, IsDir dx dy ∧ ∃ k : Nat, Bracket edge_board BLACK (-1) 0 dx dy k) :=
  ⟨by decide, by decide, (valid_move_out_of_bounds edge_board BLACK (-1) 0 (by decide)
    (by decide)).1⟩

/-- C9 at the initial board: `suggest_move(BLACK, 3)`. -/
theorem suggest_move_legal_witness :
    (BLACK = BLACK ∨ BLACK = WHITE) ∧ number_of_empties start_state.board ≤ (60 : Nat) ∧
    ∃ t, suggest_move 60 (fun _ => 1) BLACK 3 start_state = some (1, t) ∧
      ((t.suggested_move_x = 2 ∧ t.suggested_move_y = 3) ∨
       (t.suggested_move_x = 3 ∧ t.suggested_move_y = 2) ∨
       (t.suggested_move_x = 4 ∧ t.suggested_move_y = 5) ∨
       (t.suggested_move_x = 5 ∧ t.suggested_move_y = 4)) :=
  ⟨by decide, by decide,
    (suggest_move_legal start_state BLACK 60 (fun _ => 1) 3 (by decide) (by decide)).2
      (clear_board_board zero_state) rfl⟩

/-- C10 at the initial board: `suggest_move(BLACK, 3)` with every coin flip
saying keep. -/
theorem suggest_move_best_witness :
    (BLACK = BLACK ∨ BLACK = WHITE) ∧ number_of_empties start_state.board ≤ (60 : Nat) ∧
    ∃ r t, suggest_move 60 (fun _ => 0) BLACK 3 start_state = some (r, t) ∧
      (r = 1 →
        ∃ w : Int,
          VALID_CELL t.suggested_move_x t.suggested_move_y ∧
          valid_move start_state.board t.suggested_move_x t.suggested_move_y BLACK = 1 ∧
          weigh_value 60 t.suggested_move_x t.suggested_move_y BLACK
            (effective_depth start_state.board 3) 1 start_state = some w ∧
          (∀ x y, VALID_CELL x y → valid_move start_state.board x y BLACK = 1 →
            ∃ w', weigh_value 60 x y BLACK (effective_depth start_state.board 3) 1 start_state
                = some w' ∧ w' ≤ w)) :=
  have h := suggest_move_best start_state BLACK 60 (fun _ => 0) 3 (by decide) (by decide)
  ⟨by decide, by decide,
    h.elim fun r hr => hr.elim fun t ht =>
      ⟨r, t, ht.1, fun h1 => (ht.2 h1).elim fun w hw =>
        ⟨w, hw.1, hw.2.1, hw.2.2.1, hw.2.2.2.1⟩⟩⟩

/-! ## The weight table and the new game -/

theorem weight_symmetry_cells :
    ∀ c ∈ cells, weight c.1 c.2 = weight (7 - c.1) c.2 ∧ weight c.1 c.2 = weight c.1 (7 - c.2) ∧
      weight c.1 c.2 = weight c.2 c.1 ∧ weight c.1 c.2 = weight (7 - c.2) (7 - c.1) := by
  decide

theorem weight_pos_cells : ∀ c ∈ cells, 0 < weight c.1 c.2 := by decide

theorem weight_pos {i j : Int} (h : VALID_CELL i j) : 0 < weight i j :=
  weight_pos_cells (i, j) ((mem_cells_iff (i, j)).mpr h)

theorem number_of_empties_congr {b c : Board} (h : ∀ i j, VALID_CELL i j → b i j = c i j) :
    number_of_empties b = number_of_empties c := by
  rw [number_of_empties_eq, number_of_empties_eq]
  unfold empties
  congr 1
  apply List.countP_congr
  intro d hd
  rw [h d.1 d.2 ((mem_cells_iff d).mp hd)]

theorem number_of_empties_init : number_of_empties init_board = 60 := by decide

/-- C16 (weight symmetry).  For all `i`, `j` in `0..7`,
`weight[i][j] = weight[7-i][j] = weight[i][7-j] = weight[j][i] = weight[7-j][7-i]`:
the table is invariant under both flips and both diagonal reflections. -/
theorem weight_symmetry (i j : Int) (h : VALID_CELL i j) :
    weight i j = weight (7 - i) j ∧ weight i j = weight i (7 - j) ∧
    weight i j = weight j i ∧ weight i j = weight (7 - j) (7 - i) :=
  weight_symmetry_cells (i, j) ((mem_cells_iff (i, j)).mpr h)

/-- C16 at the cell `(0, 1)`. -/
theorem weight_symmetry_witness :
    VALID_CELL 0 1 ∧ weight 0 1 = weight (7 - 0) 1 ∧ weight 0 1 = weight 0 (7 - 1) ∧
    weight 0 1 = weight 1 0 ∧ weight 0 1 = weight (7 - 1) (7 - 0) :=
  ⟨by decide, weight_symmetry 0 1 (by decide)⟩

/-- C17 (new game).  From every prior state, `clear_board()` yields the board
with `(3,3)` and `(4,4)` White, `(3,4)` and `(4,3)` Black and the other 60 cells
Empty, so that `number_of_empties()` returns 60, and sets `moves_next`,
`moves_stack_next`, `flips_next` and `flips_stack_next` to 0. -/
theorem clear_board_new_game (s : State) :
    (∀ i j : Int, VALID_CELL i j →
      (clear_board s).board i j =
        if (i = 3 ∧ j = 3) ∨ (i = 4 ∧ j = 4) then WHITE
        else if (i = 3 ∧ j = 4) ∨ (i = 4 ∧ j = 3) then BLACK
        else EMPTY) ∧
    number_of_empties (clear_board s).board = 60 ∧
    (clear_board s).moves_next = 0 ∧ (clear_board s).moves_stack_next = 0 ∧
    (clear_board s).flips_next = 0 ∧ (clear_board s).flips_stack_next = 0 := by
  refine ⟨fun i j h => clear_board_board s i j h, ?_, rfl, rfl, rfl, rfl⟩
  rw [number_of_empties_congr (clear_board_board s), number_of_empties_init]

/-! ## The call budget of `weigh_move` -/

/-- The function `weigh_move` on a legal move returns the value `score` of the
move, in a state that preserves the state at entry, as soon as its budget is at
least the number of empty cells or exceeds a non-negative depth. -/
theorem weigh_move_spec_gen (fuel : Nat) : ∀ (x y who max_depth add : Int) (s : State),
    (who = 1 ∨ who = 2) → VALID_CELL x y → valid_move s.board x y who = 1 →
    (empties s.board ≤ fuel ∨ (0 ≤ max_depth ∧ max_depth < fuel)) →
    ∃ t, weigh_move fuel x y who max_depth add s
        = some (score fuel s.board x y who max_depth add, t) ∧ Preserved s t ∧
      SameSuggestion s t := by
  induction fuel with
  | zero =>
    intro x y who max_depth add s _ hv hm he
    have := empties_pos hv (valid_move_empty hv hm)
    rcases he with he | he
    · omega
    · have := he.2
      omega
  | succ fuel ih =>
    intro x y who max_depth add s hwho hv hm he
    have hw := OPPOSITE_ne hwho
    have hb := valid_move_empty hv hm
    have hsum := sum_weights_make_move x y who s hw
    have hboard := make_move_board x y who s hw
    have hemp := empties_after_move hwho hv hb
    rw [weigh_move_succ, score_succ, hsum, hboard]
    by_cases hc : max_depth ≠ 0 ∧ number_of_empties (after_move s.board who x y) ≠ 0
    · rw [if_pos hc, if_pos hc]
      have hloop := weigh_loop_spec
        (fun mx my t => weigh_move fuel mx my (OPPOSITE who) (max_depth - 1)
          (if add = 0 then 1 else 0) t)
        (fun c => score fuel (after_move s.board who x y) c.1 c.2 (OPPOSITE who)
          (max_depth - 1) (if add = 0 then 1 else 0))
        (get_all (OPPOSITE who) (make_move x y who s))
        (legal_moves (after_move s.board who x y) (OPPOSITE who))
        (make_move x y who s).moves_next
        (by
          have := get_all_count (OPPOSITE who) (make_move x y who s)
          rw [hboard] at this
          have h2 : (make_move x y who s).moves_next ≤
              (get_all (OPPOSITE who) (make_move x y who s)).moves_next := by
            rw [get_all_eq]; simp only; omega
          omega)
        (by
          have := get_all_block (OPPOSITE who) (make_move x y who s)
          rw [hboard] at this
          exact this)
        (by
          intro c hcmem t ht
          obtain ⟨hcv, hcm⟩ := mem_legal_moves.mp hcmem
          have htb : t.board = after_move s.board who x y := by
            rw [ht.1, get_all_board, hboard]
          obtain ⟨t', h1, h2, h3⟩ := ih c.1 c.2 (OPPOSITE who) (max_depth - 1)
            (if add = 0 then 1 else 0) t (OPPOSITE_player hwho) hcv (by rw [htb]; exact hcm)
            (by
              rw [htb]
              rcases he with he | he
              · left; omega
              · right; have := hc.1; have := he.2; constructor <;> omega)
          rw [htb] at h1
          exact ⟨t', h1, Preserved_trans ht h2, h3⟩)
        0 (get_all (OPPOSITE who) (make_move x y who s)) (Preserved_refl _)
      obtain ⟨t3, h3, hp3, hs3⟩ := hloop
      have hcount := get_all_count (OPPOSITE who) (make_move x y who s)
      rw [hboard] at hcount
      rw [hcount, h3]
      exact ⟨_, rfl, undo_move_make_move hwho hb (undo_get_all_get_all hp3),
        SameSuggestion_trans
          (SameSuggestion_trans
            (SameSuggestion_trans (SameSuggestion_make_move x y who s hw)
              (SameSuggestion_get_all _ _)) hs3)
          (SameSuggestion_trans (SameSuggestion_undo_get_all _) (SameSuggestion_undo_move _))⟩
    · rw [if_neg hc, if_neg hc]
      exact ⟨_, rfl, undo_move_make_move hwho hb (Preserved_refl _),
        SameSuggestion_trans (SameSuggestion_make_move x y who s hw)
          (SameSuggestion_undo_move _)⟩

/-! ## The running minimum -/

theorem min_fold_le_acc (f : Int × Int → Int) (l : List (Int × Int)) (acc : Int) :
    min_fold f l acc ≤ acc := by
  induction l generalizing acc with
  | nil => exact le_refl _
  | cons c l ih =>
    show min_fold f l (if f c < acc then f c else acc) ≤ acc
    by_cases hlt : f c < acc
    · rw [if_pos hlt]; have := ih (f c); omega
    · rw [if_neg hlt]; exact ih acc

theorem min_fold_le (f : Int × Int → Int) (l : List (Int × Int)) (acc : Int) (c : Int × Int)
    (hc : c ∈ l) : min_fold f l acc ≤ f c := by
  induction l generalizing acc with
  | nil => exact absurd hc (List.not_mem_nil _)
  | cons e l ih =>
    show min_fold f l (if f e < acc then f e else acc) ≤ f c
    rcases List.mem_cons.mp hc with h | h
    · subst h
      by_cases hlt : f c < acc
      · rw [if_pos hlt]; exact min_fold_le_acc f l (f c)
      · rw [if_neg hlt]; have := min_fold_le_acc f l acc; omega
    · exact ih _ h

theorem min_fold_mem (f : Int × Int → Int) (l : List (Int × Int)) (acc : Int) :
    min_fold f l acc = acc ∨ ∃ c ∈ l, min_fold f l acc = f c := by
  induction l generalizing acc with
  | nil => exact Or.inl rfl
  | cons e l ih =>
    show min_fold f l (if f e < acc then f e else acc) = acc ∨
      ∃ c ∈ e :: l, min_fold f l (if f e < acc then f e else acc) = f c
    rcases ih (if f e < acc then f e else acc) with h | ⟨c, hc, h⟩
    · split at h
      · exact Or.inr ⟨e, List.mem_cons_self _ _, by
          rename_i hlt; rw [if_pos hlt]; exact h⟩
      · rename_i hlt; rw [if_neg hlt]; exact Or.inl h
    · exact Or.inr ⟨c, List.mem_cons_of_mem _ hc, h⟩

theorem min_fold_congr (f g : Int × Int → Int) (l : List (Int × Int)) (acc : Int)
    (h : ∀ c ∈ l, f c = g c) : min_fold f l acc = min_fold g l acc := by
  induction l generalizing acc with
  | nil => rfl
  | cons e l ih =>
    show min_fold f l (if f e < acc then f e else acc) =
      min_fold g l (if g e < acc then g e else acc)
    rw [h e (List.mem_cons_self _ _)]
    exact ih _ (fun c hc => h c (List.mem_cons_of_mem _ hc))

/-- The value of a legal move does not depend on the budget, once the budget is
at least the number of empty cells or exceeds a non-negative depth. -/
theorem score_fuel (f : Nat) : ∀ (g : Nat) (b : Board) (x y who max_depth add : Int),
    (who = 1 ∨ who = 2) → VALID_CELL x y → valid_move b x y who = 1 →
    (empties b ≤ f ∨ (0 ≤ max_depth ∧ max_depth < f)) →
    (empties b ≤ g ∨ (0 ≤ max_depth ∧ max_depth < g)) →
    score f b x y who max_depth add = score g b x y who max_depth add := by
  induction f with
  | zero =>
    intro g b x y who max_depth add _ hv hm hf _
    have := empties_pos hv (valid_move_empty hv hm)
    rcases hf with h | h
    · omega
    · have := h.2; omega
  | succ f ih =>
    intro g b x y who max_depth add hwho hv hm hf hg
    have hpos := empties_pos hv (valid_move_empty hv hm)
    obtain ⟨g, rfl⟩ : ∃ g', g = g' + 1 := by
      refine ⟨g - 1, ?_⟩
      rcases hg with h | h
      · omega
      · have := h.1; have := h.2; omega
    have hemp := empties_after_move hwho hv (valid_move_empty hv hm)
    rw [score_succ, score_succ]
    by_cases hc : max_depth ≠ 0 ∧ number_of_empties (after_move b who x y) ≠ 0
    · rw [if_pos hc, if_pos hc]
      congr 1
      apply min_fold_congr
      intro c hcmem
      obtain ⟨hcv, hcm⟩ := mem_legal_moves.mp hcmem
      apply ih g _ _ _ _ _ _ (OPPOSITE_player hwho) hcv hcm
      · rcases hf with h | h
        · left; omega
        · right; have := hc.1; have := h.2; constructor <;> omega
      · rcases hg with h | h
        · left; omega
        · right; have := hc.1; have := h.2; constructor <;> omega
    · rw [if_neg hc, if_neg hc]

theorem weigh_value_eq_gen (fuel : Nat) (x y who max_depth add : Int) (s : State)
    (hwho : who = 1 ∨ who = 2) (hxy : VALID_CELL x y) (hvalid : valid_move s.board x y who = 1)
    (hf : empties s.board ≤ fuel ∨ (0 ≤ max_depth ∧ max_depth < fuel)) :
    weigh_value fuel x y who max_depth add s = some (score fuel s.board x y who max_depth add) := by
  obtain ⟨t, h, _⟩ := weigh_move_spec_gen fuel x y who max_depth add s hwho hxy hvalid hf
  unfold weigh_value
  rw [h]
  rfl

theorem move_weight_pos (b : Board) (who : Int) {x y : Int} (hv : VALID_CELL x y) :
    0 < move_weight b who x y := by
  unfold move_weight
  have h1 := weight_pos hv
  have h2 : ∀ l : List (Int × Int), (∀ c ∈ l, VALID_CELL c.1 c.2) →
      0 ≤ (l.map fun c => weight c.1 c.2).sum := by
    intro l
    induction l with
    | nil => intro _; simp
    | cons c l ih =>
      intro h
      rw [List.map_cons, List.sum_cons]
      have := weight_pos (h c (List.mem_cons_self _ _))
      have := ih (fun e he => h e (List.mem_cons_of_mem _ he))
      omega
  have := h2 (captures b who x y) (fun c hc => (captures_opp hc).1)
  omega

/-- A move scored with the sign flag 0 has a negative value. -/
theorem score_neg (fuel : Nat) (b : Board) (x y who max_depth : Int) (hv : VALID_CELL x y) :
    score (fuel + 1) b x y who max_depth 0 < 0 := by
  rw [score_succ]
  have hm := move_weight_pos b who hv
  simp only [ne_eq, not_true_eq_false, if_false]
  split
  · have := min_fold_le_acc
      (fun c => score fuel (after_move b who x y) c.1 c.2 (OPPOSITE who) (max_depth - 1)
        (if (0 : Int) = 0 then 1 else 0))
      (legal_moves (after_move b who x y) (OPPOSITE who)) 0
    simp only [if_true] at this ⊢
    omega
  · omega

/-! ## The value of a move -/

theorem effective_depth_zero (b : Board) : effective_depth b 0 = 0 := by
  unfold effective_depth
  simp

theorem score_depth_zero (fuel : Nat) (b : Board) (x y who add : Int) :
    score (fuel + 1) b x y who 0 add =
      if add ≠ 0 then move_weight b who x y else 0 - move_weight b who x y := by
  rw [score_succ, if_neg (fun h => h.1 rfl), add_zero]

set_option maxRecDepth 100000 in
/-- C11, as stated, fails: on `late_board`, White's move `(7, 3)` scored with
depth 1 and the sign flag 0 has the value `-356`, its immediate weight negated,
although the board is not full after the move and both legal replies of Black,
`(0, 0)` and `(0, 4)`, have a positive value (516 and 528) at depth 0 with the
flipped sign: the continuation is 0, not the minimum 516 of the replies. -/
theorem weigh_move_score_clamps :
    valid_move late_board 7 3 WHITE = 1 ∧
    move_weight late_board WHITE 7 3 = 356 ∧
    weigh_value 60 7 3 WHITE 1 0 late_state = some (-356) ∧
    number_of_empties (make_move 7 3 WHITE late_state).board ≠ 0 ∧
    legal_moves (make_move 7 3 WHITE late_state).board (OPPOSITE WHITE) = [(0, 0), (0, 4)] ∧
    weigh_value 60 0 0 (OPPOSITE WHITE) (1 - 1) 1 (make_move 7 3 WHITE late_state) = some 516 ∧
    weigh_value 60 0 4 (OPPOSITE WHITE) (1 - 1) 1 (make_move 7 3 WHITE late_state)
      = some 528 := by
  decide

/-- C11, amended (score of a move).  For a legal in-bounds move of `who`,
`weigh_move(x, y, who, depth, add)` returns `immediateWeight + continuation`:
`immediateWeight` is the sum of `weight` over the placed cell and every flipped
cell, negated when `add` is 0; `continuation` is 0 when `depth = 0`, when the
board is full after the move or when the opponent has no legal reply, and
otherwise it is the lesser of 0 and the minimum, over the legal replies `r` of
the opponent on the post-move board, of the value `f r` of
`weigh_move(r, opponent, depth - 1, flipped sign)`.  When `add` is not 0 every
reply has a negative value, so the continuation is then that minimum. -/
theorem weigh_move_score (s : State) (who x y max_depth add : Int) (fuel : Nat)
    (hwho : who = BLACK ∨ who = WHITE) (hxy : VALID_CELL x y)
    (hvalid : valid_move s.board x y who = 1) (hfuel : number_of_empties s.board ≤ fuel) :
    ∃ (f : Int × Int → Int) (cont : Int),
      (∀ r ∈ legal_moves (make_move x y who s).board (OPPOSITE who),
        weigh_value fuel r.1 r.2 (OPPOSITE who) (max_depth - 1) (if add = 0 then 1 else 0)
          (make_move x y who s) = some (f r)) ∧
      weigh_value fuel x y who max_depth add s =
        some ((if add ≠ 0 then move_weight s.board who x y
          else 0 - move_weight s.board who x y) + cont) ∧
      cont ≤ 0 ∧
      ((max_depth = 0 ∨ number_of_empties (make_move x y who s).board = 0 ∨
          legal_moves (make_move x y who s).board (OPPOSITE who) = []) → cont = 0) ∧
      (max_depth ≠ 0 → number_of_empties (make_move x y who s).board ≠ 0 →
        (∀ r ∈ legal_moves (make_move x y who s).board (OPPOSITE who), cont ≤ f r) ∧
        (cont = 0 ∨
          ∃ r ∈ legal_moves (make_move x y who s).board (OPPOSITE who), cont = f r) ∧
        (add ≠ 0 → legal_moves (make_move x y who s).board (OPPOSITE who) ≠ [] →
          ∃ r ∈ legal_moves (make_move x y who s).board (OPPOSITE who), cont = f r)) := by
  have hw := OPPOSITE_ne hwho
  have hf : empties s.board ≤ fuel := by
    rw [number_of_empties_eq] at hfuel; exact_mod_cast hfuel
  have hb := valid_move_empty hxy hvalid
  have hpos := empties_pos hxy hb
  have hemp := empties_after_move hwho hxy hb
  obtain ⟨n, rfl⟩ : ∃ n, fuel = n + 1 := ⟨fuel - 1, by omega⟩
  have hboard := make_move_board x y who s hw
  have hval := weigh_value_eq (n + 1) x y who max_depth add s hwho hxy hvalid hf
  have hreply : ∀ r ∈ legal_moves (after_move s.board who x y) (OPPOSITE who),
      weigh_value (n + 1) r.1 r.2 (OPPOSITE who) (max_depth - 1) (if add = 0 then 1 else 0)
          (make_move x y who s)
        = some (score (n + 1) (after_move s.board who x y) r.1 r.2 (OPPOSITE who)
            (max_depth - 1) (if add = 0 then 1 else 0)) := by
    intro r hr
    obtain ⟨hrv, hrm⟩ := mem_legal_moves.mp hr
    have := weigh_value_eq (n + 1) r.1 r.2 (OPPOSITE who) (max_depth - 1)
      (if add = 0 then 1 else 0) (make_move x y who s) (OPPOSITE_player hwho) hrv
      (by rw [hboard]; exact hrm) (by rw [hboard]; omega)
    rw [hboard] at this
    exact this
  have hfg : ∀ r ∈ legal_moves (after_move s.board who x y) (OPPOSITE who),
      score n (after_move s.board who x y) r.1 r.2 (OPPOSITE who) (max_depth - 1)
          (if add = 0 then 1 else 0)
        = score (n + 1) (after_move s.board who x y) r.1 r.2 (OPPOSITE who) (max_depth - 1)
          (if add = 0 then 1 else 0) := by
    intro r hr
    obtain ⟨hrv, hrm⟩ := mem_legal_moves.mp hr
    exact score_fuel n (n + 1) _ _ _ _ _ _ (OPPOSITE_player hwho) hrv hrm
      (Or.inl (by omega)) (Or.inl (by omega))
  rw [hboard]
  generalize hL : legal_moves (after_move s.board who x y) (OPPOSITE who) = L at *
  generalize hF : (fun r : Int × Int =>
    score (n + 1) (after_move s.board who x y) r.1 r.2 (OPPOSITE who) (max_depth - 1)
      (if add = 0 then 1 else 0)) = F at *
  have hFr : ∀ r, F r = score (n + 1) (after_move s.board who x y) r.1 r.2 (OPPOSITE who)
      (max_depth - 1) (if add = 0 then 1 else 0) := fun r => by rw [← hF]
  refine ⟨F,
    if max_depth ≠ 0 ∧ number_of_empties (after_move s.board who x y) ≠ 0
      then min_fold F L 0 else 0, ?_, ?_, ?_, ?_, ?_⟩
  · intro r hr
    rw [hreply r hr, hFr]
  · rw [hval, score_succ, hL]
    have hmf := min_fold_congr _ F L 0 (fun r hr => (hfg r hr).trans (hFr r).symm)
    rw [hmf]
    by_cases hc : max_depth ≠ 0 ∧ number_of_empties (after_move s.board who x y) ≠ 0
    · rw [if_pos hc, if_pos hc]
    · rw [if_neg hc, if_neg hc]
  · split
    · exact min_fold_le_acc F L 0
    · exact le_refl 0
  · rintro (h | h | h)
    · rw [if_neg (fun hc => hc.1 h)]
    · rw [if_neg (fun hc => hc.2 h)]
    · rw [h]
      split <;> rfl
  · intro h1 h2
    rw [if_pos ⟨h1, h2⟩]
    refine ⟨fun r hr => min_fold_le F L 0 r hr, ?_, ?_⟩
    · exact min_fold_mem F L 0
    · intro hadd hne
      rcases min_fold_mem F L 0 with h0 | h0
      · obtain ⟨r, hr⟩ := List.exists_mem_of_ne_nil L hne
        have hle := min_fold_le F L 0 r hr
        have hneg : F r < 0 := by
          rw [hFr, if_neg hadd]
          exact score_neg n _ _ _ _ _ (mem_legal_moves.mp (hL ▸ hr)).1
        omega
      · exact h0

/-- C11, amended, at the opening move `(2, 3)` of Black on the initial board, with
depth 1 and the sign flag 1. -/
theorem weigh_move_score_witness :
    (BLACK = BLACK ∨ BLACK = WHITE) ∧ VALID_CELL 2 3 ∧
    valid_move start_state.board 2 3 BLACK = 1 ∧
    number_of_empties start_state.board ≤ (60 : Nat) ∧
    ∃ (f : Int × Int → Int) (cont : Int),
      (∀ r ∈ legal_moves (make_move 2 3 BLACK start_state).board (OPPOSITE BLACK),
        weigh_value 60 r.1 r.2 (OPPOSITE BLACK) (1 - 1) (if (1 : Int) = 0 then 1 else 0)
          (make_move 2 3 BLACK start_state) = some (f r)) ∧
      weigh_value 60 2 3 BLACK 1 1 start_state =
        some ((if (1 : Int) ≠ 0 then move_weight start_state.board BLACK 2 3
          else 0 - move_weight start_state.board BLACK 2 3) + cont) ∧
      cont ≤ 0 :=
  have h := weigh_move_score start_state BLACK 2 3 1 1 60 (by decide) (by decide) (by decide)
    (by decide)
  ⟨by decide, by decide, by decide, by decide,
    h.elim fun f hf => hf.elim fun cont hc => ⟨f, cont, hc.1, hc.2.1, hc.2.2.1⟩⟩

/-- C12 (end-game forcing).  On a board with at least 1 and at most 10 empty
cells, `suggest_move(who, max_depth)` with `max_depth ≠ 0` returns what
`suggest_move(who, 10)` returns with the same coin flips: the same `int`, the same
suggestion, the same state.  With `max_depth = 0` the depth stays 0, every
candidate is scored by its immediate weight (the sum of `weight` over the placed
cell and the flipped cells) and the suggestion is a legal move of greatest
immediate weight. -/
theorem endgame_forcing (s : State) (who : Int) (fuel : Nat) (rnd : Nat → Int)
    (max_depth : Int) (hwho : who = BLACK ∨ who = WHITE)
    (hfuel : number_of_empties s.board ≤ fuel)
    (h1 : 1 ≤ number_of_empties s.board) (h10 : number_of_empties s.board ≤ 10) :
    (max_depth ≠ 0 →
      suggest_move fuel rnd who max_depth s = suggest_move fuel rnd who 10 s) ∧
    effective_depth s.board 0 = 0 ∧
    (∀ x y, VALID_CELL x y → valid_move s.board x y who = 1 →
      weigh_value fuel x y who 0 1 s = some (move_weight s.board who x y)) ∧
    (∃ r t, suggest_move fuel rnd who 0 s = some (r, t) ∧
      (r = 1 →
        VALID_CELL t.suggested_move_x t.suggested_move_y ∧
        valid_move s.board t.suggested_move_x t.suggested_move_y who = 1 ∧
        ∀ x y, VALID_CELL x y → valid_move s.board x y who = 1 →
          move_weight s.board who x y ≤
            move_weight s.board who t.suggested_move_x t.suggested_move_y)) := by
  have hf : empties s.board ≤ fuel := by
    rw [number_of_empties_eq] at hfuel; exact_mod_cast hfuel
  have hpos : 1 ≤ empties s.board := by
    rw [number_of_empties_eq] at h1; exact_mod_cast h1
  obtain ⟨n, rfl⟩ : ∃ n, fuel = n + 1 := ⟨fuel - 1, by omega⟩
  have hscore : ∀ x y, score (n + 1) s.board x y who 0 1 = move_weight s.board who x y := by
    intro x y
    rw [score_depth_zero, if_pos (by decide)]
  refine ⟨?_, effective_depth_zero s.board, ?_, ?_⟩
  · intro hd
    have e1 : effective_depth s.board max_depth = 10 := by
      unfold effective_depth
      rw [if_pos ⟨by omega, hd⟩]
    have e2 : effective_depth s.board 10 = 10 := by
      unfold effective_depth
      rw [if_pos ⟨by omega, by decide⟩]
    rw [suggest_move_eq, suggest_move_eq, e1, e2]
  · intro x y hv hm
    rw [weigh_value_eq (n + 1) x y who 0 1 s hwho hv hm hf, hscore]
  · obtain ⟨r, t, h1, h2, h3⟩ := suggest_move_result s who (n + 1) rnd 0 hwho hf
    refine ⟨r, t, h1, ?_⟩
    intro hr
    cases hl : legal_moves s.board who with
    | nil => rw [h2 hl] at hr; omega
    | cons c0 l =>
      obtain ⟨_, hp⟩ := h3 c0 l hl
      rw [effective_depth_zero] at hp
      have hmem := pick_mem rnd (fun c => score (n + 1) s.board c.1 c.2 who 0 1) l
        (score (n + 1) s.board c0.1 c0.2 who 0 1) c0 0
      have hmax := pick_max rnd (fun c => score (n + 1) s.board c.1 c.2 who 0 1) l c0 0
      rw [← hp] at hmem hmax
      rw [← hl] at hmem
      obtain ⟨hv, hm⟩ := mem_legal_moves.mp hmem
      refine ⟨hv, hm, ?_⟩
      intro x y hxv hxm
      have : (x, y) ∈ c0 :: l := by rw [← hl]; exact mem_legal_moves.mpr ⟨hxv, hxm⟩
      have := hmax.2 (x, y) this
      simp only [hscore] at this
      exact this

set_option maxRecDepth 100000 in
/-- C12 on `late_board` (3 empty cells), for Black, with `max_depth = 1`. -/
theorem endgame_forcing_witness :
    (BLACK = BLACK ∨ BLACK = WHITE) ∧ number_of_empties late_state.board ≤ (3 : Nat) ∧
    1 ≤ number_of_empties late_state.board ∧ number_of_empties late_state.board ≤ 10 ∧
    suggest_move 3 (fun _ => 0) BLACK 1 late_state
      = suggest_move 3 (fun _ => 0) BLACK 10 late_state :=
  ⟨by decide, by decide, by decide, by decide,
    (endgame_forcing late_state BLACK 3 (fun _ => 0) 1 (by decide) (by decide) (by decide)
      (by decide)).1 (by decide)⟩

/-- C14 (termination of the search).  A legal move fills one empty cell, so
every recursive call of `weigh_move` runs on a board with one empty cell fewer.
Hence `weigh_move` on a legal in-bounds move returns a result, for every integer
depth, as soon as its budget of nested calls is at least the number of empty
cells; for a depth `≥ 0` a budget above `min(depth, number of empty cells)` is
enough, that is, at most that many calls are nested beneath the first; and the
value returned does not depend on the budget. -/
theorem weigh_move_terminates (s : State) (who x y max_depth add : Int)
    (hwho : who = BLACK ∨ who = WHITE) (hxy : VALID_CELL x y)
    (hvalid : valid_move s.board x y who = 1) :
    number_of_empties (make_move x y who s).board = number_of_empties s.board - 1 ∧
    (∀ fuel : Nat, number_of_empties s.board ≤ fuel →
      ∃ w t, weigh_move fuel x y who max_depth add s = some (w, t)) ∧
    (0 ≤ max_depth → ∀ fuel : Nat, min max_depth (number_of_empties s.board) < fuel →
      ∃ w t, weigh_move fuel x y who max_depth add s = some (w, t)) ∧
    (∀ fuel fuel2 : Nat,
      (number_of_empties s.board ≤ fuel ∨ (0 ≤ max_depth ∧ max_depth < fuel)) →
      (number_of_empties s.board ≤ fuel2 ∨ (0 ≤ max_depth ∧ max_depth < fuel2)) →
      weigh_value fuel x y who max_depth add s = weigh_value fuel2 x y who max_depth add s) := by
  have hw := OPPOSITE_ne hwho
  have hb := valid_move_empty hxy hvalid
  have hemp := empties_after_move (b := s.board) hwho hxy hb
  have hadq : ∀ fuel : Nat,
      (number_of_empties s.board ≤ fuel ∨ (0 ≤ max_depth ∧ max_depth < fuel)) →
      (empties s.board ≤ fuel ∨ (0 ≤ max_depth ∧ max_depth < fuel)) := by
    intro fuel h
    rcases h with h | h
    · left; rw [number_of_empties_eq] at h; exact_mod_cast h
    · exact Or.inr h
  refine ⟨?_, ?_, ?_, ?_⟩
  · rw [make_move_board x y who s hw, number_of_empties_eq, number_of_empties_eq, ← hemp]
    push_cast
    omega
  · intro fuel hf
    obtain ⟨t, h, _⟩ := weigh_move_spec_gen fuel x y who max_depth add s hwho hxy hvalid
      (hadq fuel (Or.inl hf))
    exact ⟨_, t, h⟩
  · intro hd fuel hf
    obtain ⟨t, h, _⟩ := weigh_move_spec_gen fuel x y who max_depth add s hwho hxy hvalid
      (hadq fuel (by
        rcases min_lt_iff.mp hf with h | h
        · exact Or.inr ⟨hd, h⟩
        · exact Or.inl (le_of_lt h)))
    exact ⟨_, t, h⟩
  · intro fuel fuel2 h1 h2
    rw [weigh_value_eq_gen fuel x y who max_depth add s hwho hxy hvalid (hadq fuel h1),
      weigh_value_eq_gen fuel2 x y who max_depth add s hwho hxy hvalid (hadq fuel2 h2),
      score_fuel fuel fuel2 s.board x y who max_depth add hwho hxy hvalid (hadq fuel h1)
        (hadq fuel2 h2)]

/-- C14 at the opening move `(2, 3)` of Black on the initial board, with depth 3
and the budget 4. -/
theorem weigh_move_terminates_witness :
    (BLACK = BLACK ∨ BLACK = WHITE) ∧ VALID_CELL 2 3 ∧
    valid_move start_state.board 2 3 BLACK = 1 ∧
    ∃ w t, weigh_move 4 2 3 BLACK 3 1 start_state = some (w, t) :=
  ⟨by decide, by decide, by decide,
    (weigh_move_terminates start_state BLACK 2 3 3 1 (by decide) (by decide)
      (by decide)).2.2.1 (by decide) 4 (by decide)⟩

/-! ## The flip-log block of `make_move` -/

/-- The captured cells are the cells of the bracketed runs. -/
theorem mem_captures_iff_Bracketed {b : Board} {who x y : Int} (hw : who ≠ OPPOSITE who)
    (i j : Int) : (i, j) ∈ captures b who x y ↔ Bracketed b who x y i j := by
  rw [mem_captures]
  constructor
  · rintro ⟨⟨dx, dy⟩, hd, m, h1, h2, h3⟩
    have hm := (mem_dirs_iff _).mp hd
    have h0 : dx ≠ 0 ∨ dy ≠ 0 := by
      by_contra h0
      have : ((dx, dy) : Int × Int) = (0, 0) := by
        ext <;> simp <;> tauto
      rw [this, capture_len_zero_dir] at h2
      omega
    have hdir : IsDir dx dy := ⟨hm.1, hm.2, h0⟩
    exact ⟨dx, dy, hdir, _, m, (capture_len_eq_iff hw hdir _ (by omega)).mp rfl, h1, h2,
      congrArg Prod.fst h3, congrArg Prod.snd h3⟩
  · rintro ⟨dx, dy, hdir, k, m, hb, h1, h2, h3, h4⟩
    refine ⟨(dx, dy), (mem_dirs_iff _).mpr ⟨hdir.1, hdir.2.1⟩, m, h1, ?_, by rw [h3, h4]⟩
    rw [(capture_len_eq_iff hw hdir k hb.1).mpr hb]
    exact h2

/-- The entry `i` of `ray_back` is the cell `k - i` steps away: the farthest cell
comes first. -/
theorem ray_back_getElem (x y dx dy : Int) (k i : Nat) (h : i < k) :
    (ray_back x y dx dy k)[i]? = some (x + ((k - i : Nat) : Int) * dx, y + ((k - i : Nat) : Int) * dy) := by
  induction k generalizing i with
  | zero => omega
  | succ k ih =>
    cases i with
    | zero => simp [ray_back]
    | succ i =>
      have := ih i (by omega)
      simp only [ray_back, List.getElem?_cons_succ, this]
      have e : k + 1 - (i + 1) = k - i := by omega
      rw [e]

/-- The cells of one captured run are distinct. -/
theorem ray_back_nodup {x y dx dy : Int} (hd : dx ≠ 0 ∨ dy ≠ 0) (k : Nat) :
    (ray_back x y dx dy k).Nodup := by
  induction k with
  | zero => simp [ray_back]
  | succ k ih =>
    rw [ray_back, List.nodup_cons]
    refine ⟨?_, ih⟩
    rw [mem_ray_back]
    rintro ⟨m, h1, h2, h3⟩
    have := ray_inj hd (x := x) (y := y) (m := ((k + 1 : Nat) : Int)) (n := (m : Int))
      (congrArg Prod.fst h3) (congrArg Prod.snd h3)
    omega

/-- A direction with a capture is one of the 8 directions. -/
theorem IsDir_of_capture {b : Board} {who x y : Int} {d : Int × Int} (hd : d ∈ dirs)
    (h : 1 ≤ capture_len b who x y d) : IsDir d.1 d.2 := by
  have hm := (mem_dirs_iff _).mp hd
  refine ⟨hm.1, hm.2, ?_⟩
  by_contra h0
  have : d = (0, 0) := by
    ext <;> simp <;> tauto
  rw [this, capture_len_zero_dir] at h
  omega

/-- The captured cells are distinct. -/
theorem captures_nodup (b : Board) (who x y : Int) : (captures b who x y).Nodup := by
  unfold captures
  rw [List.nodup_flatMap]
  constructor
  · intro d hd
    by_cases h : 1 ≤ capture_len b who x y d
    · exact ray_back_nodup (IsDir_of_capture hd h).2.2 _
    · have : capture_len b who x y d = 0 := by omega
      rw [this]; simp [ray_back]
  · refine List.Pairwise.imp_of_mem ?_ dirs_nodup
    intro d e hd he hne
    show List.Disjoint _ _
    intro c hc1 hc2
    obtain ⟨m, hm1, hm2, rfl⟩ := mem_ray_back.mp hc1
    obtain ⟨n, hn1, hn2, h3⟩ := mem_ray_back.mp hc2
    have hdd := IsDir_of_capture hd (by omega : 1 ≤ capture_len b who x y d)
    have hde := IsDir_of_capture he (by omega : 1 ≤ capture_len b who x y e)
    have := ray_disjoint hdd hde hm1 hn1 (congrArg Prod.fst h3) (congrArg Prod.snd h3)
    exact hne (Prod.ext this.1 this.2)

/-- The cell of the move is not captured. -/
theorem not_mem_captures_self (b : Board) (who x y : Int) : (x, y) ∉ captures b who x y := by
  rw [mem_captures]
  rintro ⟨d, hd, m, h1, h2, h3⟩
  have hdd := IsDir_of_capture hd (by omega : 1 ≤ capture_len b who x y d)
  have := ray_inj hdd.2.2 (x := x) (y := y) (m := (0 : Int)) (n := (m : Int))
    (by simpa using congrArg Prod.fst h3) (by simpa using congrArg Prod.snd h3)
  omega

theorem make_move_flips_stack_next (x y who : Int) (s : State) (hw : who ≠ OPPOSITE who) :
    (make_move x y who s).flips_stack_next = s.flips_stack_next + 1 := by
  rw [make_move_eq x y who s hw]

theorem make_move_flips_next (x y who : Int) (s : State) (hw : who ≠ OPPOSITE who) :
    (make_move x y who s).flips_next =
      s.flips_next + 1 + ((captures s.board who x y).length : Nat) := by
  rw [make_move_eq x y who s hw]

theorem make_move_flips_stack_block (x y who : Int) (s : State) (hw : who ≠ OPPOSITE who) :
    (make_move x y who s).flips_stack_block =
      store s.flips_stack_block s.flips_stack_next
        (1 + ((captures s.board who x y).length : Nat)) := by
  rw [make_move_eq x y who s hw]

theorem make_move_flips_stack_who (x y who : Int) (s : State) (hw : who ≠ OPPOSITE who) :
    (make_move x y who s).flips_stack_who = store s.flips_stack_who s.flips_stack_next who := by
  rw [make_move_eq x y who s hw]

theorem make_move_flips_x (x y who : Int) (s : State) (hw : who ≠ OPPOSITE who) :
    (make_move x y who s).flips_x =
      write_list s.flips_x s.flips_next (x :: (captures s.board who x y).map Prod.fst) := by
  rw [make_move_eq x y who s hw]

theorem make_move_flips_y (x y who : Int) (s : State) (hw : who ≠ OPPOSITE who) :
    (make_move x y who s).flips_y =
      write_list s.flips_y s.flips_next (y :: (captures s.board who x y).map Prod.snd) := by
  rw [make_move_eq x y who s hw]

theorem make_move_moves (x y who : Int) (s : State) (hw : who ≠ OPPOSITE who) :
    (make_move x y who s).moves_next = s.moves_next ∧
    (make_move x y who s).moves_stack_next = s.moves_stack_next ∧
    (make_move x y who s).moves_stack_block = s.moves_stack_block ∧
    (make_move x y who s).moves_x = s.moves_x ∧
    (make_move x y who s).moves_y = s.moves_y := by
  rw [make_move_eq x y who s hw]
  exact ⟨rfl, rfl, rfl, rfl, rfl⟩

/-- The entries written by `write_list`: the entry `m` of the list lands at the
index `k + m`. -/
theorem write_list_getElem (a : Arr) (k : Int) (l : List (Int × Int)) (f : Int × Int → Int)
    (m : Nat) (c : Int × Int) (h : l[m]? = some c) :
    write_list a k (l.map f) (k + m) = f c := by
  have hlt : m < l.length := by
    by_contra hn
    rw [List.getElem?_eq_none (by omega)] at h
    exact Option.noConfusion h
  rw [write_list_get a k (l.map f) m (by simpa using hlt)]
  rw [List.getElem?_eq_getElem hlt] at h
  have e := Option.some.inj h
  simp [e]

/-- A cell holds an opponent disc before the move and a disc of the mover after
it exactly when it is captured. -/
theorem flipped_iff_mem_captures {b : Board} {who x y : Int} (hw : who ≠ OPPOSITE who)
    (hb : b x y ≠ OPPOSITE who) (i j : Int) :
    (b i j = OPPOSITE who ∧ after_move b who x y i j = who) ↔ (i, j) ∈ captures b who x y := by
  unfold after_move
  rw [paint_apply]
  constructor
  · rintro ⟨h1, h2⟩
    by_contra hn
    rw [if_neg hn] at h2
    by_cases hxy : i = x ∧ j = y
    · obtain ⟨rfl, rfl⟩ := hxy
      exact hb h1
    · rw [store2_other _ _ _ _ _ _ hxy, h1] at h2
      exact hw h2.symm
  · intro hc
    exact ⟨(captures_opp hc).2, by rw [if_pos hc]⟩

/-- C13, as stated, fails: on `late_board` the legal in-bounds move of White at
`(7, 3)` captures the six Black discs `(6, 3)`, ..., `(1, 3)` in the direction
`(-1, 0)` only, and the block that `make_move` pushes lists them after `(7, 3)`
from the farthest cell `(1, 3)` to the nearest cell `(6, 3)`. -/
theorem make_move_block_farthest_first :
    VALID_CELL 7 3 ∧ valid_move late_state.board 7 3 WHITE = 1 ∧
    (make_move 7 3 WHITE late_state).flips_stack_next = late_state.flips_stack_next + 1 ∧
    (make_move 7 3 WHITE late_state).flips_stack_block late_state.flips_stack_next = 7 ∧
    late_state.flips_next = 0 ∧
    ((make_move 7 3 WHITE late_state).flips_x 0, (make_move 7 3 WHITE late_state).flips_y 0)
      = (7, 3) ∧
    ((make_move 7 3 WHITE late_state).flips_x 1, (make_move 7 3 WHITE late_state).flips_y 1)
      = (1, 3) ∧
    ((make_move 7 3 WHITE late_state).flips_x 2, (make_move 7 3 WHITE late_state).flips_y 2)
      = (2, 3) ∧
    ((make_move 7 3 WHITE late_state).flips_x 6, (make_move 7 3 WHITE late_state).flips_y 6)
      = (6, 3) ∧
    (1, 3) ≠ ((7 : Int) + (1 : Nat) * (-1), (3 : Int) + (1 : Nat) * 0) := by
  decide

/-- C13, amended: for a legal in-bounds move, `make_move(x, y, who)` pushes exactly
one flip-log block, recorded with the mover `who`, of length one plus the number
of captured cells; the first entry of the block is `(x, y)` and the entry `k + 1`
is the entry `k` of `captures`; the entries below the block and the other blocks
are untouched. The list `captures` holds exactly the flipped cells (those that
held an opponent disc before the move and hold a disc of `who` after it, which
are the cells of the bracketed runs), direction by direction in the order
`(-1,-1), (-1,0), (-1,1), (0,-1), (0,1), (1,-1), (1,0), (1,1)` (the direction
`(0,0)` adds nothing), and within one direction, where the bracketed run has
`k` discs, the entry `i` is the cell `k - i` steps from `(x, y)`: from the cell
farthest from `(x, y)` to the cell nearest to it. -/
theorem make_move_block (s : State) (who x y : Int) (hwho : who = BLACK ∨ who = WHITE)
    (hxy : VALID_CELL x y) (hvalid : valid_move s.board x y who = 1) :
    (make_move x y who s).flips_stack_next = s.flips_stack_next + 1 ∧
    (make_move x y who s).flips_stack_who s.flips_stack_next = who ∧
    (make_move x y who s).flips_stack_block s.flips_stack_next
      = 1 + ((captures s.board who x y).length : Nat) ∧
    (make_move x y who s).flips_next
      = s.flips_next + (make_move x y who s).flips_stack_block s.flips_stack_next ∧
    ((make_move x y who s).flips_x s.flips_next, (make_move x y who s).flips_y s.flips_next)
      = (x, y) ∧
    (∀ (k : Nat) (c : Int × Int), (captures s.board who x y)[k]? = some c →
      ((make_move x y who s).flips_x (s.flips_next + 1 + k),
        (make_move x y who s).flips_y (s.flips_next + 1 + k)) = c) ∧
    (∀ n : Int, n < s.flips_next →
      (make_move x y who s).flips_x n = s.flips_x n ∧
      (make_move x y who s).flips_y n = s.flips_y n) ∧
    (∀ n : Int, n ≠ s.flips_stack_next →
      (make_move x y who s).flips_stack_block n = s.flips_stack_block n ∧
      (make_move x y who s).flips_stack_who n = s.flips_stack_who n) ∧
    (∀ i j : Int, (i, j) ∈ captures s.board who x y ↔
      (s.board i j = OPPOSITE who ∧ (make_move x y who s).board i j = who)) ∧
    (∀ i j : Int, (i, j) ∈ captures s.board who x y ↔ Bracketed s.board who x y i j) ∧
    captures s.board who x y =
      ([(-1, -1), (-1, 0), (-1, 1), (0, -1), (0, 0), (0, 1), (1, -1), (1, 0), (1, 1)] :
        List (Int × Int)).flatMap
        (fun d => ray_back x y d.1 d.2 (capture_len s.board who x y d)) ∧
    capture_len s.board who x y (0, 0) = 0 ∧
    (∀ dx dy : Int, IsDir dx dy → ∀ k : Nat, 1 ≤ k →
      (capture_len s.board who x y (dx, dy) = k ↔ Bracket s.board who x y dx dy k)) ∧
    (∀ (dx dy : Int) (k i : Nat), i < k →
      (ray_back x y dx dy k)[i]? =
        some (x + ((k - i : Nat) : Int) * dx, y + ((k - i : Nat) : Int) * dy)) := by
  have hw := OPPOSITE_ne hwho
  have hb0 : s.board x y = 0 := valid_move_empty hxy hvalid
  have hbo : s.board x y ≠ OPPOSITE who := by
    rw [hb0]; exact fun h => OPPOSITE_ne_zero hwho h.symm
  rw [make_move_flips_stack_next x y who s hw, make_move_flips_stack_who x y who s hw,
    make_move_flips_stack_block x y who s hw, make_move_flips_next x y who s hw,
    make_move_flips_x x y who s hw, make_move_flips_y x y who s hw,
    make_move_board x y who s hw]
  refine ⟨rfl, store_same _ _ _, store_same _ _ _, ?_, ?_, ?_, ?_, ?_, ?_, ?_, rfl,
    capture_len_zero_dir _ _ _ _, ?_, ?_⟩
  · rw [store_same]; ring
  · rw [write_list, write_list, write_list_below _ _ _ _ (by omega),
      write_list_below _ _ _ _ (by omega), store_same, store_same]
  · intro k c hc
    rw [write_list, write_list, write_list_getElem _ _ _ Prod.fst k c hc,
      write_list_getElem _ _ _ Prod.snd k c hc]
  · intro n hn
    exact ⟨write_list_below _ _ _ _ hn, write_list_below _ _ _ _ hn⟩
  · intro n hn
    exact ⟨store_other _ _ _ _ hn, store_other _ _ _ _ hn⟩
  · intro i j
    exact (flipped_iff_mem_captures hw hbo i j).symm
  · intro i j
    exact mem_captures_iff_Bracketed hw i j
  · intro dx dy hd k hk
    exact capture_len_eq_iff hw hd k hk
  · intro dx dy k i hi
    exact ray_back_getElem x y dx dy k i hi

/-- C13, amended, at the opening move of Black at `(2, 3)`: the block has the two
entries `(2, 3)` and `(3, 3)`. -/
theorem make_move_block_witness :
    (BLACK = BLACK ∨ BLACK = WHITE) ∧ VALID_CELL 2 3 ∧
    valid_move start_state.board 2 3 BLACK = 1 ∧
    (make_move 2 3 BLACK start_state).flips_stack_next = start_state.flips_stack_next + 1 ∧
    (make_move 2 3 BLACK start_state).flips_stack_who start_state.flips_stack_next = BLACK :=
  have h := make_move_block start_state BLACK 2 3 (by decide) (by decide) (by decide)
  ⟨by decide, by decide, by decide, h.1, h.2.1⟩

/-! ## Counting discs -/

/-- Removing the cells of a duplicate-free list `S` from a count that holds on
all of them lowers the count by the length of `S`. -/
theorem countP_diff {α : Type} [DecidableEq α] (l : List α) (hn : l.Nodup) (S : List α)
    (hS : S.Nodup) (hsub : ∀ c ∈ S, c ∈ l) (p : α → Bool) (hp : ∀ c ∈ S, p c = true)
    (q : α → Bool) (hq : ∀ c, q c = (p c && decide (c ∉ S))) :
    l.countP q + S.length = l.countP p := by
  induction S generalizing q with
  | nil =>
    have : q = p := by
      funext c; rw [hq]; simp
    rw [this]; rfl
  | cons a S ih =>
    obtain ⟨ha, hS'⟩ := List.nodup_cons.mp hS
    have h1 := ih hS' (fun c hc => hsub c (List.mem_cons_of_mem _ hc))
      (fun c hc => hp c (List.mem_cons_of_mem _ hc))
      (fun c => p c && decide (c ∉ S)) (fun c => rfl)
    have h2 := countP_remove l hn a (hsub a (List.mem_cons_self _ _))
      (fun c => p c && decide (c ∉ S)) q
      (by simp [hp a (List.mem_cons_self _ _), ha])
      (by
        intro c; rw [hq]
        by_cases h1 : c = a <;> by_cases h2 : c ∈ S <;> simp [h1, h2])
    rw [List.length_cons]
    omega

/-- The empty cells are the cells holding `EMPTY`. -/
theorem empties_eq_count_discs (b : Board) : empties b = count_discs b 0 := rfl

/-- A move captures something exactly when one direction does. -/
theorem captures_length_pos_iff (b : Board) (who x y : Int) :
    1 ≤ (captures b who x y).length ↔ ∃ d ∈ dirs, 1 ≤ capture_len b who x y d := by
  constructor
  · intro h
    obtain ⟨c, hc⟩ := List.exists_mem_of_length_pos (by omega : 0 < (captures b who x y).length)
    obtain ⟨d, hd, m, h1, h2, _⟩ := mem_captures.mp hc
    exact ⟨d, hd, by omega⟩
  · rintro ⟨d, hd, h⟩
    exact List.length_pos_of_mem (mem_captures.mpr ⟨d, hd, 1, le_refl _, h, rfl⟩)

/-- The mover gains the placed disc and the captured discs. -/
theorem count_discs_after_move_who {b : Board} {who x y : Int} (hwho : who = 1 ∨ who = 2)
    (hv : VALID_CELL x y) (hb : b x y = 0) :
    count_discs (after_move b who x y) who
      = count_discs b who + 1 + (captures b who x y).length := by
  have hw := OPPOSITE_ne hwho
  have hw0 : who ≠ 0 := by omega
  have h := countP_diff cells cells_nodup ((x, y) :: captures b who x y)
    (List.nodup_cons.mpr ⟨not_mem_captures_self b who x y, captures_nodup b who x y⟩)
    (by
      intro c hc
      rcases List.mem_cons.mp hc with h | h
      · subst h; exact (mem_cells_iff _).mpr hv
      · exact (mem_cells_iff _).mpr (captures_opp h).1)
    (fun c => decide (after_move b who x y c.1 c.2 = who))
    (by
      intro c hc
      dsimp only
      unfold after_move
      rw [paint_apply]
      rcases List.mem_cons.mp hc with h | h
      · subst h
        simp
      · simp [h])
    (fun c => decide (b c.1 c.2 = who))
    (by
      intro c
      dsimp only
      unfold after_move
      rw [paint_apply]
      by_cases hmem : (c.1, c.2) ∈ captures b who x y
      · have ho := (captures_opp hmem).2
        have hne : b c.1 c.2 ≠ who := by rw [ho]; exact fun h => hw h.symm
        have hmem' : c ∈ captures b who x y := hmem
        simp [hmem', hne]
      · have hmem' : c ∉ captures b who x y := hmem
        by_cases hxy : c = (x, y)
        · subst hxy
          simp [hb, hw0.symm]
        · rw [if_neg hmem, store2_other]
          · simp [hxy, hmem']
          · intro h'; exact hxy (Prod.ext h'.1 h'.2))
  unfold count_discs
  rw [List.length_cons] at h
  omega

/-- The opponent loses the captured discs. -/
theorem count_discs_after_move_opp {b : Board} {who x y : Int} (hwho : who = 1 ∨ who = 2)
    (hb : b x y = 0) :
    count_discs (after_move b who x y) (OPPOSITE who) + (captures b who x y).length
      = count_discs b (OPPOSITE who) := by
  have hw := OPPOSITE_ne hwho
  have ho0 := OPPOSITE_ne_zero hwho
  unfold count_discs
  apply countP_diff cells cells_nodup (captures b who x y) (captures_nodup b who x y)
    (fun c hc => (mem_cells_iff _).mpr (captures_opp hc).1)
    (fun c => decide (b c.1 c.2 = OPPOSITE who))
    (fun c hc => by simpa using (captures_opp hc).2)
  intro c
  dsimp only
  unfold after_move
  rw [paint_apply]
  by_cases hmem : (c.1, c.2) ∈ captures b who x y
  · have hmem' : c ∈ captures b who x y := hmem
    simp [hmem', hw]
  · have hmem' : c ∉ captures b who x y := hmem
    rw [if_neg hmem]
    by_cases hxy : c = (x, y)
    · subst hxy
      simp [hb, hw, ho0.symm]
    · rw [store2_other]
      · simp [hmem']
      · intro h'; exact hxy (Prod.ext h'.1 h'.2)

/-- C20: for a player `who` and an in-bounds empty cell `(x, y)`,
`valid_move(x, y, who)` returns 1 exactly when the flip-log block pushed by
`make_move(x, y, who)` has length at least 2, that is, when at least one disc is
flipped. For a legal move, with `f` the block length minus 1: the number of
empty cells drops by exactly 1, the number of discs of `who` grows by `1 + f`,
the number of discs of the opponent shrinks by `f`, and when every in-bounds
cell held Empty, Black or White before the move, so it does after it. -/
theorem valid_move_iff_flips (s : State) (who x y : Int) (hwho : who = BLACK ∨ who = WHITE)
    (hxy : VALID_CELL x y) (hempty : s.board x y = EMPTY) :
    (valid_move s.board x y who = 1 ↔
      2 ≤ (make_move x y who s).flips_stack_block s.flips_stack_next) ∧
    (valid_move s.board x y who = 1 →
      number_of_empties (make_move x y who s).board = number_of_empties s.board - 1 ∧
      ((count_discs (make_move x y who s).board who : Nat) : Int)
        = (count_discs s.board who : Nat) + 1
          + ((make_move x y who s).flips_stack_block s.flips_stack_next - 1) ∧
      ((count_discs (make_move x y who s).board (OPPOSITE who) : Nat) : Int)
        = (count_discs s.board (OPPOSITE who) : Nat)
          - ((make_move x y who s).flips_stack_block s.flips_stack_next - 1) ∧
      ((∀ i j : Int, VALID_CELL i j →
          s.board i j = EMPTY ∨ s.board i j = BLACK ∨ s.board i j = WHITE) →
        ∀ i j : Int, VALID_CELL i j →
          (make_move x y who s).board i j = EMPTY ∨ (make_move x y who s).board i j = BLACK ∨
            (make_move x y who s).board i j = WHITE)) := by
  have hw := OPPOSITE_ne hwho
  have hb : s.board x y = 0 := hempty
  rw [make_move_flips_stack_block x y who s hw, make_move_board x y who s hw, store_same]
  constructor
  · rw [valid_move_eq, if_neg (fun h => h.2 hb)]
    have := captures_length_pos_iff s.board who x y
    constructor
    · intro h
      split at h
      · rename_i hex
        have := this.mpr hex
        omega
      · omega
    · intro h
      rw [if_pos (this.mp (by omega))]
  · intro _
    refine ⟨?_, ?_, ?_, ?_⟩
    · rw [number_of_empties_eq, number_of_empties_eq, ← empties_after_move hwho hxy hb]
      push_cast; ring
    · rw [count_discs_after_move_who hwho hxy hb]
      push_cast; ring
    · rw [← count_discs_after_move_opp hwho hb]
      push_cast; ring
    · intro hall i j hv
      unfold after_move
      rw [paint_apply]
      split
      · exact Or.inr hwho
      · by_cases hij : i = x ∧ j = y
        · obtain ⟨rfl, rfl⟩ := hij
          rw [store2_same]; exact Or.inr hwho
        · rw [store2_other _ _ _ _ _ _ hij]
          exact hall i j hv

/-- C20 at the opening move of Black at `(2, 3)`: the move is legal and the block
has length 2. -/
theorem valid_move_iff_flips_witness :
    (BLACK = BLACK ∨ BLACK = WHITE) ∧ VALID_CELL 2 3 ∧ start_state.board 2 3 = EMPTY ∧
    (valid_move start_state.board 2 3 BLACK = 1 ↔
      2 ≤ (make_move 2 3 BLACK start_state).flips_stack_block start_state.flips_stack_next) :=
  ⟨by decide, by decide, by decide,
    (valid_move_iff_flips start_state BLACK 2 3 (by decide) (by decide) (by decide)).1⟩

/-! ## The logs and their blocks -/

theorem block_sum_congr {a b : Arr} (n : Nat) (h : ∀ k : Nat, k < n → a k = b k) :
    block_sum a n = block_sum b n := by
  induction n with
  | zero => rfl
  | succ n ih =>
    rw [block_sum, block_sum, ih (fun k hk => h k (by omega)), h n (by omega)]

/-- Pushing a block of length `v` adds `v` to the sum of the block lengths. -/
theorem block_sum_push (a : Arr) (n : Int) (v : Int) (hn : 0 ≤ n) :
    block_sum (store a n v) (n + 1).toNat = block_sum a n.toNat + v := by
  have e : (n + 1).toNat = n.toNat + 1 := by omega
  rw [e, block_sum]
  congr 1
  · apply block_sum_congr
    intro k hk
    rw [store_other]
    omega
  · have : ((n.toNat : Nat) : Int) = n := by omega
    rw [this, store_same]

/-- Popping the last block takes its length off the sum of the block lengths. -/
theorem block_sum_pop (a : Arr) (n : Int) (hn : 0 < n) :
    block_sum a (n - 1).toNat = block_sum a n.toNat - a (n - 1) := by
  have e : n.toNat = (n - 1).toNat + 1 := by omega
  rw [e, block_sum]
  have : (((n - 1).toNat : Nat) : Int) = n - 1 := by omega
  rw [this]
  ring

theorem undo_move_counts (s : State) :
    (undo_move s).flips_stack_next = s.flips_stack_next - 1 ∧
    (undo_move s).flips_next = s.flips_next - s.flips_stack_block (s.flips_stack_next - 1) ∧
    (undo_move s).flips_stack_block = s.flips_stack_block ∧
    (undo_move s).moves_next = s.moves_next ∧
    (undo_move s).moves_stack_next = s.moves_stack_next ∧
    (undo_move s).moves_stack_block = s.moves_stack_block := by
  rw [undo_move_eq]
  exact ⟨rfl, rfl, rfl, rfl, rfl, rfl⟩

theorem get_all_counts (who : Int) (s : State) :
    (get_all who s).moves_stack_next = s.moves_stack_next + 1 ∧
    (get_all who s).moves_next = s.moves_next + ((legal_moves s.board who).length : Nat) ∧
    (get_all who s).moves_stack_block =
      store s.moves_stack_block s.moves_stack_next ((legal_moves s.board who).length : Nat) ∧
    (get_all who s).flips_next = s.flips_next ∧
    (get_all who s).flips_stack_next = s.flips_stack_next ∧
    (get_all who s).flips_stack_block = s.flips_stack_block := by
  rw [get_all_eq]
  exact ⟨rfl, rfl, rfl, rfl, rfl, rfl⟩

/-- C19 (log/block consistency).  In every state reachable from `clear_board()` by
`get_all`, `undo_get_all` (only when a move block exists), legal `make_move` and
`undo_move` (only when a flip block exists), the block counts are not negative,
`moves_next` is the sum of `moves_stack_block[0 .. moves_stack_next-1]`,
`flips_next` is the sum of `flips_stack_block[0 .. flips_stack_next-1]`, and
every flip block has length at least 1. -/
theorem log_block_invariant (s : State) (h : LogReach s) :
    0 ≤ s.moves_stack_next ∧ 0 ≤ s.flips_stack_next ∧
    s.moves_next = block_sum s.moves_stack_block s.moves_stack_next.toNat ∧
    s.flips_next = block_sum s.flips_stack_block s.flips_stack_next.toNat ∧
    (∀ n : Int, 0 ≤ n → n < s.flips_stack_next → 1 ≤ s.flips_stack_block n) := by
  induction h with
  | clear s =>
    refine ⟨le_refl _, le_refl _, rfl, rfl, ?_⟩
    intro n h0 h1
    have : (clear_board s).flips_stack_next = 0 := rfl
    omega
  | get_all who s _ ih =>
    obtain ⟨i1, i2, i3, i4, i5⟩ := ih
    obtain ⟨g1, g2, g3, g4, g5, g6⟩ := get_all_counts who s
    rw [g1, g2, g3, g4, g5, g6]
    refine ⟨by omega, i2, ?_, i4, i5⟩
    rw [block_sum_push _ _ _ i1, i3]
  | undo_get_all s _ hpos ih =>
    obtain ⟨i1, i2, i3, i4, i5⟩ := ih
    refine ⟨?_, i2, ?_, i4, i5⟩
    · show 0 ≤ s.moves_stack_next - 1
      omega
    · show s.moves_next - s.moves_stack_block (s.moves_stack_next - 1)
        = block_sum s.moves_stack_block (s.moves_stack_next - 1).toNat
      rw [block_sum_pop _ _ hpos, i3]
  | make_move x y who s _ hwho hxy hvalid ih =>
    obtain ⟨i1, i2, i3, i4, i5⟩ := ih
    have hw := OPPOSITE_ne hwho
    obtain ⟨m1, m2, m3, _, _⟩ := make_move_moves x y who s hw
    rw [m1, m2, m3, make_move_flips_stack_next x y who s hw, make_move_flips_next x y who s hw,
      make_move_flips_stack_block x y who s hw]
    refine ⟨i1, by omega, i3, ?_, ?_⟩
    · rw [block_sum_push _ _ _ i2, i4]; ring
    · intro n h0 h1
      by_cases hn : n = s.flips_stack_next
      · rw [hn, store_same]; omega
      · rw [store_other _ _ _ _ hn]
        exact i5 n h0 (by omega)
  | undo_move s _ hpos ih =>
    obtain ⟨i1, i2, i3, i4, i5⟩ := ih
    obtain ⟨u1, u2, u3, u4, u5, u6⟩ := undo_move_counts s
    rw [u1, u2, u3, u4, u5, u6]
    refine ⟨i1, by omega, i3, ?_, ?_⟩
    · rw [block_sum_pop _ _ hpos, i4]
    · intro n h0 h1
      exact i5 n h0 (by omega)

/-- C19 after the opening move of Black at `(2, 3)` and the enumeration of the
replies of White: the logs hold one flip block and one move block. -/
theorem log_block_invariant_witness :
    LogReach (get_all WHITE (make_move 2 3 BLACK start_state)) ∧
    (get_all WHITE (make_move 2 3 BLACK start_state)).flips_next =
      block_sum (get_all WHITE (make_move 2 3 BLACK start_state)).flips_stack_block
        (get_all WHITE (make_move 2 3 BLACK start_state)).flips_stack_next.toNat :=
  have h : LogReach (get_all WHITE (make_move 2 3 BLACK start_state)) :=
    LogReach.get_all WHITE _
      (LogReach.make_move 2 3 BLACK _ (LogReach.clear zero_state) (by decide) (by decide)
        (by decide))
  ⟨h, (log_block_invariant _ h).2.2.2.1⟩

/-! ## The nesting of the search -/

/-- Third exit of `suggest_move`, with a budget of nested calls that is at least
the number of empty cells or exceeds a non-negative effective depth. -/
theorem suggest_move_some_gen (fuel : Nat) (rnd : Nat → Int) (who max_depth : Int) (s : State)
    (hwho : who = 1 ∨ who = 2)
    (hfuel : empties s.board ≤ fuel ∨
      (0 ≤ effective_depth s.board max_depth ∧ effective_depth s.board max_depth < fuel))
    (c0 : Int × Int) (l : List (Int × Int)) (hl : legal_moves s.board who = c0 :: l) :
    ∃ t, suggest_move fuel rnd who max_depth s = some (1, t) ∧ Preserved s t ∧
      (t.suggested_move_x, t.suggested_move_y) =
        (pick rnd
          (fun c => score fuel s.board c.1 c.2 who (effective_depth s.board max_depth) 1)
          l (score fuel s.board c0.1 c0.2 who (effective_depth s.board max_depth) 1) c0 0).2.1 := by
  have hc0 : c0 ∈ legal_moves s.board who := by rw [hl]; exact List.mem_cons_self _ _
  obtain ⟨hv0, hm0⟩ := mem_legal_moves.mp hc0
  have hne : number_of_empties s.board ≠ 0 := by
    intro h; rw [legal_moves_of_full who h] at hl; exact List.noConfusion hl
  have hblock := get_all_block who s
  rw [hl] at hblock
  simp only [List.length_cons, log_cells, List.cons.injEq] at hblock
  obtain ⟨hhead, htail⟩ := hblock
  have hnext : (get_all who s).moves_next = s.moves_next + ((l.length + 1 : Nat) : Int) := by
    rw [get_all_eq, hl]; rfl
  have hx : (get_all who s).moves_x s.moves_next = c0.1 := by rw [← hhead]
  have hy : (get_all who s).moves_y s.moves_next = c0.2 := by rw [← hhead]
  have hcount : ((get_all who s).moves_next - (s.moves_next + 1)).toNat = l.length := by
    rw [hnext]; push_cast; omega
  rw [suggest_move_eq, if_neg hne, if_neg (by rw [hnext]; push_cast; omega), hx, hy, hcount]
  have hgb := get_all_board who s
  have hundo : ∀ t, Preserved (get_all who s) t → Preserved s (undo_get_all t) :=
    fun t => undo_get_all_get_all
  generalize get_all who s = g at *
  have hp2 : Preserved g { g with suggested_move_x := c0.1, suggested_move_y := c0.2 } :=
    ⟨rfl, rfl, rfl, rfl, rfl, fun _ _ => ⟨rfl, rfl⟩, fun _ _ => rfl, fun _ _ => ⟨rfl, rfl⟩,
      fun _ _ => ⟨rfl, rfl⟩⟩
  obtain ⟨t3, h3, hp3, hs3⟩ := weigh_move_spec_gen fuel c0.1 c0.2 who
    (effective_depth s.board max_depth) 1
    { g with suggested_move_x := c0.1, suggested_move_y := c0.2 } hwho hv0
    (by show valid_move g.board _ _ _ = 1; rw [hgb]; exact hm0)
    (by
      show empties g.board ≤ fuel ∨ _
      rw [hgb]; exact hfuel)
  rw [h3]
  dsimp only
  rw [hgb]
  obtain ⟨t4, h4, hp4, hs4⟩ := suggest_loop_spec fuel rnd who (effective_depth s.board max_depth)
    (fun c => score fuel s.board c.1 c.2 who (effective_depth s.board max_depth) 1)
    g l (s.moves_next + 1) (by rw [hnext]; push_cast; omega) htail
    (by
      intro c hc t ht
      have hcl : c ∈ legal_moves s.board who := by rw [hl]; exact List.mem_cons_of_mem _ hc
      obtain ⟨hv, hm⟩ := mem_legal_moves.mp hcl
      have htb : t.board = s.board := by rw [ht.1, hgb]
      obtain ⟨t', h1, h2, h3⟩ := weigh_move_spec_gen fuel c.1 c.2 who
        (effective_depth s.board max_depth) 1 t hwho hv (by rw [htb]; exact hm)
        (by rw [htb]; exact hfuel)
      rw [htb] at h1
      exact ⟨t', h1, Preserved_trans ht h2, h3⟩)
    (score fuel s.board c0.1 c0.2 who (effective_depth s.board max_depth) 1) 0 t3
    (Preserved_trans hp2 hp3)
  simp only [Option.some_bind, h4, Option.map_some']
  refine ⟨_, rfl, hundo _ hp4, ?_⟩
  show (t4.suggested_move_x, t4.suggested_move_y) = _
  rw [hs4, hs3.1, hs3.2]

/-- The function `suggest_move` returns within an adequate budget of nested calls, in
a state that preserves the state at entry. -/
theorem suggest_move_returns (fuel : Nat) (rnd : Nat → Int) (who max_depth : Int) (s : State)
    (hwho : who = 1 ∨ who = 2)
    (hfuel : empties s.board ≤ fuel ∨
      (0 ≤ effective_depth s.board max_depth ∧ effective_depth s.board max_depth < fuel)) :
    ∃ r t, suggest_move fuel rnd who max_depth s = some (r, t) ∧ Preserved s t := by
  by_cases he : number_of_empties s.board = 0
  · exact ⟨0, s, suggest_move_full fuel rnd who max_depth s he, Preserved_refl s⟩
  · cases hl : legal_moves s.board who with
    | nil =>
      exact ⟨0, _, suggest_move_none fuel rnd who max_depth s he hl,
        undo_get_all_get_all (Preserved_refl _)⟩
    | cons c0 l =>
      obtain ⟨t, h1, h2, _⟩ := suggest_move_some_gen fuel rnd who max_depth s hwho hfuel c0 l hl
      exact ⟨1, t, h1, h2⟩

set_option maxRecDepth 100000 in
/-- C15, as stated, fails: on `late_board`, with three empty cells, the call
`suggest_move(BLACK, 1)` has `min(1, 10) = 1`, yet a budget of 2 nested calls of
`weigh_move` (the scoring of a top-level candidate and one level beneath it) is
exhausted, while a budget of 3 is enough: the end-game override has replaced the
depth 1 by 10 and the search runs until the board is full, two levels beneath
the scoring of the candidate `(0, 0)`. -/
theorem suggest_move_nesting_exceeds :
    (0 : Int) ≤ 1 ∧ min (1 : Int) 10 = 1 ∧ number_of_empties late_state.board = 3 ∧
    (suggest_move 2 (fun _ => 0) BLACK 1 late_state).isSome = false ∧
    (suggest_move 3 (fun _ => 0) BLACK 1 late_state).isSome = true := by
  decide

/-- C15, amended: for a player `who` and a depth `max_depth ≥ 0`, the scoring
recursion started by `suggest_move(who, max_depth)` is never nested more than
`min(d, e - 1)` levels beneath the scoring of a top-level candidate, where `e` is
the number of empty cells and `d` is the depth after the end-game override: 10
when `e < 11` and `max_depth` is not 0, and `max_depth` otherwise. That is,
`suggest_move` returns as soon as the budget of nested calls of `weigh_move`,
the call for the candidate included, exceeds `min(d, e - 1)`. The depth `d` is at
most 10 when `max_depth ≤ 10`, and is `max_depth`, however large, when more than
10 cells are empty. -/
theorem suggest_move_nesting (s : State) (who : Int) (fuel : Nat) (rnd : Nat → Int)
    (max_depth : Int) (hwho : who = BLACK ∨ who = WHITE) (hd : 0 ≤ max_depth)
    (hfuel : min (effective_depth s.board max_depth) (number_of_empties s.board - 1) < fuel) :
    (∃ r t, suggest_move fuel rnd who max_depth s = some (r, t)) ∧
    (number_of_empties s.board < 11 → max_depth ≠ 0 → effective_depth s.board max_depth = 10) ∧
    (11 ≤ number_of_empties s.board ∨ max_depth = 0 →
      effective_depth s.board max_depth = max_depth) ∧
    (max_depth ≤ 10 → effective_depth s.board max_depth ≤ 10) := by
  have h1 : number_of_empties s.board < 11 → max_depth ≠ 0 →
      effective_depth s.board max_depth = 10 := by
    intro h h'
    unfold effective_depth
    rw [if_pos ⟨h, h'⟩]
  have h2 : 11 ≤ number_of_empties s.board ∨ max_depth = 0 →
      effective_depth s.board max_depth = max_depth := by
    intro h
    unfold effective_depth
    rw [if_neg]
    rintro ⟨h3, h4⟩
    rcases h with h | h
    · omega
    · exact h4 h
  have h0 : 0 ≤ effective_depth s.board max_depth := by
    by_cases h : number_of_empties s.board < 11 ∧ max_depth ≠ 0
    · rw [h1 h.1 h.2]; decide
    · rw [h2 (by by_cases h' : max_depth = 0 <;> [exact Or.inr h'; (left; by_contra h3; exact h ⟨by omega, h'⟩)])]
      exact hd
  refine ⟨?_, h1, h2, ?_⟩
  · have hadq : empties s.board ≤ fuel ∨
        (0 ≤ effective_depth s.board max_depth ∧ effective_depth s.board max_depth < fuel) := by
      rw [number_of_empties_eq] at hfuel
      rcases min_lt_iff.mp hfuel with h | h
      · exact Or.inr ⟨h0, h⟩
      · left; omega
    obtain ⟨r, t, h, _⟩ := suggest_move_returns fuel rnd who max_depth s hwho hadq
    exact ⟨r, t, h⟩
  · intro h10
    by_cases h : number_of_empties s.board < 11 ∧ max_depth ≠ 0
    · rw [h1 h.1 h.2]
    · rw [h2 (by by_cases h' : max_depth = 0 <;> [exact Or.inr h'; (left; by_contra h3; exact h ⟨by omega, h'⟩)])]
      exact h10

set_option maxRecDepth 100000 in
/-- C15, amended, on `late_board` for Black at depth 1: the depth becomes 10, three
cells are empty, and a budget of `min(10, 3 - 1) + 1 = 3` nested calls is enough. -/
theorem suggest_move_nesting_witness :
    (BLACK = BLACK ∨ BLACK = WHITE) ∧ (0 : Int) ≤ 1 ∧
    min (effective_depth late_state.board 1) (number_of_empties late_state.board - 1)
      < ((3 : Nat) : Int) ∧
    ∃ r t, suggest_move 3 (fun _ => 0) BLACK 1 late_state = some (r, t) :=
  ⟨by decide, by decide, by decide,
    (suggest_move_nesting late_state BLACK 3 (fun _ => 0) 1 (by decide) (by decide)
      (by decide)).1⟩

/-! ## The capacity of the logs -/

theorem tri_sixty : tri 60 = 1830 := by decide

theorem tri_succ (n : Nat) : tri (n + 1) = tri n + (n + 1) := rfl

theorem tri_mono {m n : Nat} (h : m ≤ n) : tri m ≤ tri n := by
  induction n with
  | zero =>
    have : m = 0 := by omega
    rw [this]
  | succ n ih =>
    by_cases hm : m = n + 1
    · rw [hm]
    · have := ih (by omega)
      rw [tri_succ]; omega

/-- A move block enumerated on a board with `e` empty cells has at most `e`
entries. -/
theorem legal_moves_length_le (b : Board) (who : Int) :
    (legal_moves b who).length ≤ empties b := by
  unfold legal_moves empties
  rw [← List.countP_eq_length_filter]
  apply List.countP_mono_left
  intro c hc h
  have hv := (mem_cells_iff c).mp hc
  have h0 : valid_move b c.1 c.2 who ≠ 0 := by simpa using h
  have h1 : valid_move b c.1 c.2 who = 1 := by
    rcases valid_move_zero_or_one b c.1 c.2 who with h | h
    · exact absurd h h0
    · exact h
  simpa using valid_move_empty hv h1

/-- A capturing run is ended by an in-bounds cell. -/
theorem capture_len_end {b : Board} {who x y : Int} {d : Int × Int}
    (h : 1 ≤ capture_len b who x y d) :
    VALID_CELL (x + ((capture_len b who x y d + 1 : Nat) : Int) * d.1)
      (y + ((capture_len b who x y d + 1 : Nat) : Int) * d.2) := by
  unfold capture_len at h ⊢
  simp only at h ⊢
  by_cases hc : (d.1 ≠ 0 ∨ d.2 ≠ 0) ∧
      1 ≤ run_len b (OPPOSITE who) d.1 d.2 8 (x + d.1) (y + d.2) ∧
      VALID_CELL (x + ((run_len b (OPPOSITE who) d.1 d.2 8 (x + d.1) (y + d.2) + 1 : Nat) : Int)
          * d.1)
        (y + ((run_len b (OPPOSITE who) d.1 d.2 8 (x + d.1) (y + d.2) + 1 : Nat) : Int) * d.2) ∧
      b (x + ((run_len b (OPPOSITE who) d.1 d.2 8 (x + d.1) (y + d.2) + 1 : Nat) : Int) * d.1)
        (y + ((run_len b (OPPOSITE who) d.1 d.2 8 (x + d.1) (y + d.2) + 1 : Nat) : Int) * d.2)
        = who
  · rw [if_pos hc]
    exact hc.2.2.1
  · rw [if_neg hc] at h
    omega

/-- The two directions of one line capture at most 6 discs together. -/
theorem capture_len_pair (b : Board) (who : Int) {x y dx dy : Int} (hv : VALID_CELL x y)
    (hd : IsDir dx dy) :
    capture_len b who x y (dx, dy) + capture_len b who x y (-dx, -dy) ≤ 6 := by
  have h1 := @capture_len_end b who x y (dx, dy)
  have h2 := @capture_len_end b who x y (-dx, -dy)
  generalize capture_len b who x y (dx, dy) = k1 at h1 ⊢
  generalize capture_len b who x y (-dx, -dy) = k2 at h2 ⊢
  unfold VALID_CELL at hv h1 h2
  simp only at h1 h2
  obtain ⟨e1, e2, e3⟩ := hd
  by_cases hk1 : 1 ≤ k1 <;> by_cases hk2 : 1 ≤ k2
  · have a1 := h1 hk1
    have a2 := h2 hk2
    push_cast at a1 a2
    rcases e1 with e | e | e <;> rcases e2 with e' | e' | e' <;> subst e <;> subst e' <;>
      simp at e3 <;> omega
  · have a1 := h1 hk1
    push_cast at a1
    rcases e1 with e | e | e <;> rcases e2 with e' | e' | e' <;> subst e <;> subst e' <;>
      simp at e3 <;> omega
  · have a2 := h2 hk2
    push_cast at a2
    rcases e1 with e | e | e <;> rcases e2 with e' | e' | e' <;> subst e <;> subst e' <;>
      simp at e3 <;> omega
  · omega

/-- A move captures at most 24 discs. -/
theorem captures_length_le (b : Board) (who : Int) {x y : Int} (hv : VALID_CELL x y) :
    (captures b who x y).length ≤ 24 := by
  have p1 := capture_len_pair b who hv (show IsDir (-1) (-1) by decide)
  have p2 := capture_len_pair b who hv (show IsDir (-1) 0 by decide)
  have p3 := capture_len_pair b who hv (show IsDir (-1) 1 by decide)
  have p4 := capture_len_pair b who hv (show IsDir 0 (-1) by decide)
  have p0 := capture_len_zero_dir b who x y
  simp only [neg_neg, neg_zero] at p1 p2 p3 p4
  unfold captures dirs
  simp only [List.flatMap_cons, List.flatMap_nil, List.length_append, length_ray_back,
    List.length_nil]
  omega

/-! ### The game states -/

theorem write_list_congr {a b : Arr} (k : Int) (vs : List Int) (n : Int)
    (hab : ∀ m, m < k → a m = b m) (hn : n < k + (vs.length : Nat)) :
    write_list a k vs n = write_list b k vs n := by
  by_cases h : n < k
  · rw [write_list_below _ _ _ _ h, write_list_below _ _ _ _ h, hab n h]
  · obtain ⟨m, rfl⟩ : ∃ m : Nat, n = k + m := ⟨(n - k).toNat, by omega⟩
    have hm : m < vs.length := by omega
    rw [write_list_get _ _ _ _ hm, write_list_get _ _ _ _ hm]

/-- The function `make_move` acts alike on states with the same board, log sizes and
live log entries. -/
theorem Preserved_make_move {p t : State} (x y who : Int) (hw : who ≠ OPPOSITE who)
    (h : Preserved p t) : Preserved (make_move x y who p) (make_move x y who t) := by
  obtain ⟨h1, h2, h3, h4, h5, h6, h7, h8, h9⟩ := h
  obtain ⟨a1, a2, a3, a4, a5⟩ := make_move_moves x y who p hw
  obtain ⟨b1, b2, b3, b4, b5⟩ := make_move_moves x y who t hw
  unfold Preserved
  rw [a1, a2, a3, a4, a5, b1, b2, b3, b4, b5,
    make_move_board x y who p hw, make_move_board x y who t hw,
    make_move_flips_next x y who p hw, make_move_flips_next x y who t hw,
    make_move_flips_stack_next x y who p hw, make_move_flips_stack_next x y who t hw,
    make_move_flips_x x y who p hw, make_move_flips_x x y who t hw,
    make_move_flips_y x y who p hw, make_move_flips_y x y who t hw,
    make_move_flips_stack_block x y who p hw, make_move_flips_stack_block x y who t hw,
    make_move_flips_stack_who x y who p hw, make_move_flips_stack_who x y who t hw,
    h1, h4, h5]
  refine ⟨rfl, h2, h3, rfl, rfl, h6, h7, ?_, ?_⟩
  · intro n hn
    constructor
    · apply write_list_congr _ _ _ (fun m hm => (h8 m hm).1)
      simp only [List.length_cons, List.length_map]
      push_cast; omega
    · apply write_list_congr _ _ _ (fun m hm => (h8 m hm).2)
      simp only [List.length_cons, List.length_map]
      push_cast; omega
  · intro n hn
    by_cases e : n = p.flips_stack_next
    · rw [e, store_same, store_same, store_same, store_same]
      exact ⟨rfl, rfl⟩
    · rw [store_other _ _ _ _ e, store_other _ _ _ _ e, store_other _ _ _ _ e,
        store_other _ _ _ _ e]
      exact h9 n (by omega)

/-- Every state of the game has the board, the log sizes and the live log
entries of a state reached by moves alone. -/
theorem GameReach_Played {t : State} (h : GameReach t) : ∃ p, Played p ∧ Preserved p t := by
  induction h with
  | clear s => exact ⟨_, Played.clear s, Preserved_refl _⟩
  | make_move x y who s _ hwho hxy hvalid ih =>
    obtain ⟨p, hp, hpt⟩ := ih
    refine ⟨make_move x y who p, Played.make_move x y who p hp hwho hxy ?_,
      Preserved_make_move x y who (OPPOSITE_ne hwho) hpt⟩
    rw [← hpt.1]; exact hvalid
  | undo_move s _ hpos ih =>
    obtain ⟨p, hp, hpt⟩ := ih
    cases hp with
    | clear s0 =>
      have h0 : (clear_board s0).flips_stack_next = 0 := rfl
      have := hpt.2.2.2.2.1
      omega
    | make_move x y who p0 hp0 hwho hxy hvalid =>
      exact ⟨p0, hp0, undo_move_make_move hwho (valid_move_empty hxy hvalid) hpt⟩

theorem empties_clear_board (s : State) : empties (clear_board s).board = 60 := by
  have h : number_of_empties (clear_board s).board = 60 := by
    rw [number_of_empties_congr (clear_board_board s), number_of_empties_init]
  rw [number_of_empties_eq] at h
  exact_mod_cast h

/-- The invariant of the game holds after `clear_board()` and legal moves. -/
theorem Played_GameInv {p : State} (h : Played p) : GameInv p := by
  induction h with
  | clear s =>
    refine ⟨rfl, rfl, le_refl _, ?_, le_refl _, le_refl _⟩
    rw [empties_clear_board]
    rfl
  | make_move x y who s _ hwho hxy hvalid ih =>
    obtain ⟨i1, i2, i3, i4, i5, i6⟩ := ih
    have hw := OPPOSITE_ne hwho
    obtain ⟨m1, m2, _, _, _⟩ := make_move_moves x y who s hw
    have he := empties_after_move hwho hxy (valid_move_empty hxy hvalid)
    have hl := captures_length_le s.board who hxy
    unfold GameInv
    rw [m1, m2, make_move_flips_stack_next x y who s hw, make_move_flips_next x y who s hw,
      make_move_board x y who s hw]
    refine ⟨i1, i2, by omega, by omega, by omega, by omega⟩

theorem GameInv_of_Preserved {p t : State} (h : Preserved p t) (hp : GameInv p) : GameInv t := by
  obtain ⟨h1, h2, h3, h4, h5, _⟩ := h
  unfold GameInv
  rw [h1, h2, h3, h4, h5]
  exact hp

theorem SearchInv_of_Preserved {p t : State} (h : Preserved p t) (hp : SearchInv p) :
    SearchInv t := by
  obtain ⟨h1, h2, h3, h4, h5, _⟩ := h
  unfold SearchInv
  rw [h1, h2, h3, h4, h5]
  exact hp

theorem InCap_of_Preserved {p t : State} (h : Preserved p t) (hp : InCap p) : InCap t := by
  obtain ⟨h1, h2, h3, h4, h5, _⟩ := h
  unfold InCap
  rw [h2, h3, h4, h5]
  exact hp

/-- The invariant of the game holds in every state of the game. -/
theorem GameReach_GameInv {t : State} (h : GameReach t) : GameInv t := by
  obtain ⟨p, hp, hpt⟩ := GameReach_Played h
  exact GameInv_of_Preserved hpt (Played_GameInv hp)

/-- A game state with an empty cell is fit for a search. -/
theorem GameInv_SearchInv {s : State} (h : GameInv s) : SearchInv s := by
  obtain ⟨i1, i2, i3, i4, i5, i6⟩ := h
  have := tri_mono (show empties s.board - 1 ≤ 60 by omega)
  rw [tri_sixty] at this
  unfold SearchInv
  rw [i1, i2]
  refine ⟨i3, i4, i5, i6, le_refl _, by omega, le_refl _, by omega⟩

theorem SearchInv_suggestion (s : State) (x y : Int) (h : SearchInv s) :
    SearchInv { s with suggested_move_x := x, suggested_move_y := y } := h

/-- The counters of a search state are inside the arrays, with room for one more
flip block. -/
theorem SearchInv_InCap {s : State} (h : SearchInv s) (he : 1 ≤ empties s.board) :
    s.flips_stack_next < BLOCKS_CAP ∧ InCap s := by
  obtain ⟨i1, i2, i3, i4, i5, i6, i7, i8⟩ := h
  unfold InCap BLOCKS_CAP FLIPS_CAP MOVES_CAP
  refine ⟨by omega, by omega, by omega, by omega, by omega, by omega, by omega, by omega,
    by omega⟩

/-- The state after a legal move of a search state. -/
theorem SearchInv_make_move {s : State} {x y who : Int} (h : SearchInv s)
    (hwho : who = 1 ∨ who = 2) (hxy : VALID_CELL x y) (hvalid : valid_move s.board x y who = 1) :
    InCap (make_move x y who s) ∧ 0 < (make_move x y who s).flips_stack_next ∧
    (1 ≤ empties (make_move x y who s).board →
      (make_move x y who s).moves_stack_next < BLOCKS_CAP ∧
      ∀ who1, SearchInv (get_all who1 (make_move x y who s)) ∧
        InCap (get_all who1 (make_move x y who s)) ∧
        0 < (get_all who1 (make_move x y who s)).moves_stack_next) := by
  obtain ⟨i1, i2, i3, i4, i5, i6, i7, i8⟩ := h
  have hw := OPPOSITE_ne hwho
  obtain ⟨m1, m2, _, _, _⟩ := make_move_moves x y who s hw
  have he := empties_after_move hwho hxy (valid_move_empty hxy hvalid)
  have hl := captures_length_le s.board who hxy
  have hfs := make_move_flips_stack_next x y who s hw
  have hfn := make_move_flips_next x y who s hw
  have hb := make_move_board x y who s hw
  have htri : tri (empties s.board - 1) = tri (empties (after_move s.board who x y)) := by
    congr 1; omega
  refine ⟨?_, by omega, ?_⟩
  · unfold InCap BLOCKS_CAP FLIPS_CAP MOVES_CAP
    rw [m1, m2, hfs, hfn]
    refine ⟨by omega, by omega, by omega, by omega, by omega, by omega, by omega, by omega⟩
  · intro hpos
    rw [hb] at hpos
    refine ⟨by unfold BLOCKS_CAP; rw [m2]; omega, ?_⟩
    intro who1
    obtain ⟨g1, g2, _, g4, g5, _⟩ := get_all_counts who1 (make_move x y who s)
    have hgb := get_all_board who1 (make_move x y who s)
    have hll := legal_moves_length_le (make_move x y who s).board who1
    rw [hb] at hll
    rw [hb] at g2
    have htri2 : tri (empties (after_move s.board who x y)) =
        tri (empties (after_move s.board who x y) - 1) + empties (after_move s.board who x y) := by
      obtain ⟨n, hn⟩ : ∃ n, empties (after_move s.board who x y) = n + 1 :=
        ⟨empties (after_move s.board who x y) - 1, by omega⟩
      rw [hn, tri_succ]; rfl
    refine ⟨?_, ?_, by omega⟩
    · unfold SearchInv
      rw [g1, g2, g4, g5, hgb, hb, m1, m2, hfs, hfn]
      refine ⟨by omega, by omega, by omega, by omega, by omega, by omega, by omega, by omega⟩
    · unfold InCap BLOCKS_CAP FLIPS_CAP MOVES_CAP
      rw [g1, g2, g4, g5, m1, m2, hfs, hfn]
      refine ⟨by omega, by omega, by omega, by omega, by omega, by omega, by omega, by omega⟩

/-! ### The checked search -/

/-- The reply loop gives the same result with two calls that agree on the states
it runs through. -/
theorem weigh_loop_agree (call1 call2 : Int → Int → State → Option (Int × State))
    (s0 : State) (l : List (Int × Int)) (i : Int)
    (hi : i + (l.length : Nat) ≤ s0.moves_next)
    (hl : log_cells s0.moves_x s0.moves_y l.length i = l)
    (hcall : ∀ c ∈ l, ∀ t, Preserved s0 t → call1 c.1 c.2 t = call2 c.1 c.2 t)
    (hspec : ∀ c ∈ l, ∀ t, Preserved s0 t →
      ∃ v t', call2 c.1 c.2 t = some (v, t') ∧ Preserved s0 t')
    (dw : Int) (t : State) (ht : Preserved s0 t) :
    weigh_loop call1 l.length i dw t = weigh_loop call2 l.length i dw t := by
  induction l generalizing i dw t with
  | nil => rfl
  | cons c l ih =>
    simp only [List.length_cons, log_cells, List.cons.injEq] at hl hi
    obtain ⟨hc, hl'⟩ := hl
    have hm := ht.2.2.2.2.2.1 i (by push_cast at hi; omega)
    have hcx : t.moves_x i = c.1 := by rw [hm.1, ← hc]
    have hcy : t.moves_y i = c.2 := by rw [hm.2, ← hc]
    have h1 := hcall c (List.mem_cons_self _ _) t ht
    obtain ⟨v, t1, h2, hp1⟩ := hspec c (List.mem_cons_self _ _) t ht
    have := ih (i + 1) (by push_cast at hi ⊢; omega) hl'
      (fun e he => hcall e (List.mem_cons_of_mem _ he))
      (fun e he => hspec e (List.mem_cons_of_mem _ he))
      (if v < dw then v else dw) t1 hp1
    simp only [List.length_cons, weigh_loop, hcx, hcy, h1, h2]
    exact this

theorem weigh_move_chk_succ (fuel : Nat) (x y who max_depth add : Int) (s : State) :
    weigh_move_chk (fuel + 1) x y who max_depth add s =
      (make_move_chk x y who s).bind fun s1 =>
        if max_depth ≠ 0 ∧ number_of_empties s1.board ≠ 0 then
          (get_all_chk (OPPOSITE who) s1).bind fun s2 =>
            (weigh_loop
                (fun mx my t => weigh_move_chk fuel mx my (OPPOSITE who) (max_depth - 1)
                  (if add = 0 then 1 else 0) t)
                (s2.moves_next - s1.moves_next).toNat s1.moves_next 0 s2).bind
              fun r =>
                (undo_get_all_chk r.2).bind fun s3 =>
                  (undo_move_chk s3).map fun s4 =>
                    ((if add ≠ 0 then
                        sum_weights s1 (s1.flips_next - s.flips_next).toNat s.flips_next
                      else 0 - sum_weights s1 (s1.flips_next - s.flips_next).toNat
                        s.flips_next) + r.1, s4)
        else
          (undo_move_chk s1).map fun s4 =>
            ((if add ≠ 0 then
                sum_weights s1 (s1.flips_next - s.flips_next).toNat s.flips_next
              else 0 - sum_weights s1 (s1.flips_next - s.flips_next).toNat
                s.flips_next) + 0, s4) := rfl

theorem make_move_chk_eq {x y who : Int} {s : State} (h1 : s.flips_stack_next < BLOCKS_CAP)
    (h2 : InCap s) (h3 : InCap (make_move x y who s)) :
    make_move_chk x y who s = some (make_move x y who s) := by
  unfold make_move_chk
  rw [if_pos ⟨h1, h2, h3⟩]

theorem undo_move_chk_eq {s : State} (h1 : 0 < s.flips_stack_next)
    (h2 : InCap s) (h3 : InCap (undo_move s)) : undo_move_chk s = some (undo_move s) := by
  unfold undo_move_chk
  rw [if_pos ⟨h1, h2, h3⟩]

theorem get_all_chk_eq {who : Int} {s : State} (h1 : s.moves_stack_next < BLOCKS_CAP)
    (h2 : InCap s) (h3 : InCap (get_all who s)) : get_all_chk who s = some (get_all who s) := by
  unfold get_all_chk
  rw [if_pos ⟨h1, h2, h3⟩]

theorem undo_get_all_chk_eq {s : State} (h1 : 0 < s.moves_stack_next)
    (h2 : InCap s) (h3 : InCap (undo_get_all s)) :
    undo_get_all_chk s = some (undo_get_all s) := by
  unfold undo_get_all_chk
  rw [if_pos ⟨h1, h2, h3⟩]

/-- During a search from a state that satisfies `SearchInv`, no check of the
checked `weigh_move` fails: it returns what `weigh_move` returns. -/
theorem weigh_move_chk_eq (fuel : Nat) : ∀ (x y who max_depth add : Int) (s : State),
    (who = 1 ∨ who = 2) → VALID_CELL x y → valid_move s.board x y who = 1 →
    (empties s.board ≤ fuel ∨ (0 ≤ max_depth ∧ max_depth < fuel)) → SearchInv s →
    weigh_move_chk fuel x y who max_depth add s = weigh_move fuel x y who max_depth add s := by
  induction fuel with
  | zero => intro x y who max_depth add s _ _ _ _ _; rfl
  | succ fuel ih =>
    intro x y who max_depth add s hwho hv hm he hinv
    have hw := OPPOSITE_ne hwho
    have hb := valid_move_empty hv hm
    have hboard := make_move_board x y who s hw
    have hemp := empties_after_move hwho hv hb
    have hpos := empties_pos hv hb
    obtain ⟨c1, c2⟩ := SearchInv_InCap hinv hpos
    obtain ⟨c3, c4, c5⟩ := SearchInv_make_move hinv hwho hv hm
    have hundo : Preserved s (undo_move (make_move x y who s)) :=
      undo_move_make_move hwho hb (Preserved_refl _)
    rw [weigh_move_chk_succ, weigh_move_succ, make_move_chk_eq c1 c2 c3, Option.some_bind]
    by_cases hc : max_depth ≠ 0 ∧ number_of_empties (make_move x y who s).board ≠ 0
    · rw [if_pos hc, if_pos hc]
      have hpos1 : 1 ≤ empties (make_move x y who s).board := by
        have := hc.2
        rw [number_of_empties_eq] at this
        omega
      obtain ⟨c6, c7⟩ := c5 hpos1
      obtain ⟨c8, c9, c10⟩ := c7 (OPPOSITE who)
      rw [get_all_chk_eq c6 c3 c9, Option.some_bind]
      have hcount := get_all_count (OPPOSITE who) (make_move x y who s)
      have hblock := get_all_block (OPPOSITE who) (make_move x y who s)
      have hgnext : (make_move x y who s).moves_next +
          ((legal_moves (make_move x y who s).board (OPPOSITE who)).length : Nat) ≤
          (get_all (OPPOSITE who) (make_move x y who s)).moves_next := by
        rw [(get_all_counts _ _).2.1]
      have hgb := get_all_board (OPPOSITE who) (make_move x y who s)
      have hfuel' : ∀ t : State, t.board = after_move s.board who x y →
          (empties t.board ≤ fuel ∨ (0 ≤ max_depth - 1 ∧ max_depth - 1 < fuel)) := by
        intro t htb
        rw [htb]
        rcases he with he | he
        · left; omega
        · right
          have := hc.1
          omega
      have hspec : ∀ c ∈ legal_moves (make_move x y who s).board (OPPOSITE who), ∀ t,
          Preserved (get_all (OPPOSITE who) (make_move x y who s)) t →
          ∃ v t', weigh_move fuel c.1 c.2 (OPPOSITE who) (max_depth - 1)
              (if add = 0 then 1 else 0) t = some (v, t') ∧
            Preserved (get_all (OPPOSITE who) (make_move x y who s)) t' := by
        intro c hcmem t ht
        obtain ⟨hcv, hcm⟩ := mem_legal_moves.mp hcmem
        have htb : t.board = after_move s.board who x y := by rw [ht.1, hgb, hboard]
        obtain ⟨t', h1, h2, _⟩ := weigh_move_spec_gen fuel c.1 c.2 (OPPOSITE who)
          (max_depth - 1) (if add = 0 then 1 else 0) t (OPPOSITE_player hwho) hcv
          (by rw [ht.1, hgb]; exact hcm) (hfuel' t htb)
        exact ⟨_, t', h1, Preserved_trans ht h2⟩
      have hagree := weigh_loop_agree
        (fun mx my t => weigh_move_chk fuel mx my (OPPOSITE who) (max_depth - 1)
          (if add = 0 then 1 else 0) t)
        (fun mx my t => weigh_move fuel mx my (OPPOSITE who) (max_depth - 1)
          (if add = 0 then 1 else 0) t)
        (get_all (OPPOSITE who) (make_move x y who s))
        (legal_moves (make_move x y who s).board (OPPOSITE who))
        (make_move x y who s).moves_next hgnext hblock
        (by
          intro c hcmem t ht
          obtain ⟨hcv, hcm⟩ := mem_legal_moves.mp hcmem
          have htb : t.board = after_move s.board who x y := by rw [ht.1, hgb, hboard]
          exact ih c.1 c.2 (OPPOSITE who) (max_depth - 1) (if add = 0 then 1 else 0) t
            (OPPOSITE_player hwho) hcv (by rw [ht.1, hgb]; exact hcm) (hfuel' t htb)
            (SearchInv_of_Preserved ht c8))
        hspec 0 (get_all (OPPOSITE who) (make_move x y who s)) (Preserved_refl _)
      obtain ⟨t3, h3, hp3, _⟩ := weigh_loop_spec
        (fun mx my t => weigh_move fuel mx my (OPPOSITE who) (max_depth - 1)
          (if add = 0 then 1 else 0) t)
        (fun c => score fuel (make_move x y who s).board c.1 c.2 (OPPOSITE who)
          (max_depth - 1) (if add = 0 then 1 else 0))
        (get_all (OPPOSITE who) (make_move x y who s))
        (legal_moves (make_move x y who s).board (OPPOSITE who))
        (make_move x y who s).moves_next hgnext hblock
        (by
          intro c hcmem t ht
          obtain ⟨hcv, hcm⟩ := mem_legal_moves.mp hcmem
          have htb : t.board = after_move s.board who x y := by rw [ht.1, hgb, hboard]
          obtain ⟨t', h1, h2, h3⟩ := weigh_move_spec_gen fuel c.1 c.2 (OPPOSITE who)
            (max_depth - 1) (if add = 0 then 1 else 0) t (OPPOSITE_player hwho) hcv
            (by rw [ht.1, hgb]; exact hcm) (hfuel' t htb)
          rw [ht.1, hgb] at h1
          exact ⟨t', h1, Preserved_trans ht h2, h3⟩)
        0 (get_all (OPPOSITE who) (make_move x y who s)) (Preserved_refl _)
      rw [hcount] at *
      rw [hagree, h3, Option.some_bind, Option.map_some']
      have hp4 : Preserved (make_move x y who s) (undo_get_all t3) := undo_get_all_get_all hp3
      have hp5 : Preserved s (undo_move (undo_get_all t3)) := undo_move_make_move hwho hb hp4
      have e1 : undo_get_all_chk t3 = some (undo_get_all t3) :=
        undo_get_all_chk_eq (by rw [hp3.2.2.1]; exact c10) (InCap_of_Preserved hp3 c9)
          (InCap_of_Preserved hp4 c3)
      have e2 : undo_move_chk (undo_get_all t3) = some (undo_move (undo_get_all t3)) :=
        undo_move_chk_eq (by rw [hp4.2.2.2.2.1]; exact c4) (InCap_of_Preserved hp4 c3)
          (InCap_of_Preserved hp5 c2)
      show (undo_get_all_chk t3).bind _ = _
      rw [e1, Option.some_bind, e2, Option.map_some']
    · rw [if_neg hc, if_neg hc,
        undo_move_chk_eq c4 c3 (InCap_of_Preserved hundo c2), Option.map_some']

/-- The candidate loop gives the same result over the checked `weigh_move` when
the two agree on the states it runs through. -/
theorem suggest_loop_chk_eq (fuel : Nat) (rnd : Nat → Int) (who max_depth : Int)
    (s0 : State) (l : List (Int × Int)) (i : Int)
    (hi : i + (l.length : Nat) ≤ s0.moves_next)
    (hl : log_cells s0.moves_x s0.moves_y l.length i = l)
    (hcall : ∀ c ∈ l, ∀ t, Preserved s0 t →
      weigh_move_chk fuel c.1 c.2 who max_depth 1 t = weigh_move fuel c.1 c.2 who max_depth 1 t)
    (hspec : ∀ c ∈ l, ∀ t, Preserved s0 t →
      ∃ v t', weigh_move fuel c.1 c.2 who max_depth 1 t = some (v, t') ∧ Preserved s0 t')
    (best : Int) (k : Nat) (t : State) (ht : Preserved s0 t) :
    suggest_loop_chk fuel rnd who max_depth l.length i best k t
      = suggest_loop fuel rnd who max_depth l.length i best k t := by
  induction l generalizing i best k t with
  | nil => rfl
  | cons c l ih =>
    simp only [List.length_cons, log_cells, List.cons.injEq] at hl hi
    obtain ⟨hc, hl'⟩ := hl
    have hm := ht.2.2.2.2.2.1 i (by push_cast at hi; omega)
    have hcx : t.moves_x i = c.1 := by rw [hm.1, ← hc]
    have hcy : t.moves_y i = c.2 := by rw [hm.2, ← hc]
    have h1 := hcall c (List.mem_cons_self _ _) t ht
    obtain ⟨v, t1, h2, hp1⟩ := hspec c (List.mem_cons_self _ _) t ht
    have hi' : i + 1 + (l.length : Nat) ≤ s0.moves_next := by push_cast at hi ⊢; omega
    have hcall' := fun e he => hcall e (List.mem_cons_of_mem _ he)
    have hspec' := fun e he => hspec e (List.mem_cons_of_mem _ he)
    have hp1' : Preserved s0
        { t1 with suggested_move_x := t1.moves_x i, suggested_move_y := t1.moves_y i } := hp1
    simp only [List.length_cons, suggest_loop_chk, suggest_loop, hcx, hcy, h1, h2]
    by_cases hgt : v > best
    · rw [if_pos hgt, if_pos hgt]
      exact ih (i + 1) hi' hl' hcall' hspec' v k _ hp1'
    · rw [if_neg hgt, if_neg hgt]
      by_cases heq : v = best
      · rw [if_pos heq, if_pos heq]
        by_cases hr : rnd k % 2 ≠ 0
        · rw [if_pos hr, if_pos hr]
          exact ih (i + 1) hi' hl' hcall' hspec' v (k + 1) _ hp1'
        · rw [if_neg hr, if_neg hr]
          exact ih (i + 1) hi' hl' hcall' hspec' best (k + 1) t1 hp1
      · rw [if_neg heq, if_neg heq]
        exact ih (i + 1) hi' hl' hcall' hspec' best k t1 hp1

theorem suggest_move_chk_unfold (fuel : Nat) (rnd : Nat → Int) (who max_depth : Int)
    (s : State) :
    suggest_move_chk fuel rnd who max_depth s =
      if number_of_empties s.board = 0 then some (0, s)
      else
        (get_all_chk who s).bind fun s1 =>
          if s1.moves_next = s.moves_next then (undo_get_all_chk s1).map fun s3 => (0, s3)
          else
            (weigh_move_chk fuel (s1.moves_x s.moves_next) (s1.moves_y s.moves_next) who
                (effective_depth s.board max_depth) 1
                { s1 with
                  suggested_move_x := s1.moves_x s.moves_next
                  suggested_move_y := s1.moves_y s.moves_next }).bind
              fun r =>
                (suggest_loop_chk fuel rnd who (effective_depth s.board max_depth)
                    (s1.moves_next - (s.moves_next + 1)).toNat (s.moves_next + 1)
                    r.1 0 r.2).bind
                  fun q => (undo_get_all_chk q.2.2).map fun s3 => (1, s3) := by
  unfold suggest_move_chk effective_depth
  with_reducible rfl

/-- During `suggest_move` from a state of the game no check fails: the checked
`suggest_move` returns what `suggest_move` returns. -/
theorem suggest_move_chk_eq (fuel : Nat) (rnd : Nat → Int) (who max_depth : Int) (s : State)
    (hwho : who = 1 ∨ who = 2)
    (hfuel : empties s.board ≤ fuel ∨
      (0 ≤ effective_depth s.board max_depth ∧ effective_depth s.board max_depth < fuel))
    (hinv : GameInv s) :
    suggest_move_chk fuel rnd who max_depth s = suggest_move fuel rnd who max_depth s := by
  rw [suggest_move_chk_unfold, suggest_move_eq]
  by_cases hne : number_of_empties s.board = 0
  · rw [if_pos hne, if_pos hne]
  rw [if_neg hne, if_neg hne]
  have hpos : 1 ≤ empties s.board := by
    rw [number_of_empties_eq] at hne
    omega
  obtain ⟨i1, i2, i3, i4, i5, i6⟩ := hinv
  obtain ⟨g1, g2, _, g4, g5, _⟩ := get_all_counts who s
  have hgb := get_all_board who s
  have hll := legal_moves_length_le s.board who
  have htri : tri (empties s.board) = tri (empties s.board - 1) + empties s.board := by
    obtain ⟨n, hn⟩ : ∃ n, empties s.board = n + 1 := ⟨empties s.board - 1, by omega⟩
    rw [hn, tri_succ]; rfl
  have htm := tri_mono (show empties s.board ≤ 60 by omega)
  rw [tri_sixty] at htm
  have hcs : InCap s := by
    unfold InCap BLOCKS_CAP FLIPS_CAP MOVES_CAP
    refine ⟨by omega, by omega, by omega, by omega, by omega, by omega, by omega, by omega⟩
  have hcg : InCap (get_all who s) := by
    unfold InCap BLOCKS_CAP FLIPS_CAP MOVES_CAP
    rw [g1, g2, g4, g5]
    refine ⟨by omega, by omega, by omega, by omega, by omega, by omega, by omega, by omega⟩
  have hsg : SearchInv (get_all who s) := by
    unfold SearchInv
    rw [g1, g2, g4, g5, hgb]
    refine ⟨by omega, by omega, by omega, by omega, by omega, by omega, by omega, by omega⟩
  have hgpos : 0 < (get_all who s).moves_stack_next := by rw [g1]; omega
  have hundo : ∀ t, Preserved (get_all who s) t → undo_get_all_chk t = some (undo_get_all t) := by
    intro t ht
    exact undo_get_all_chk_eq (by rw [ht.2.2.1]; exact hgpos) (InCap_of_Preserved ht hcg)
      (InCap_of_Preserved (undo_get_all_get_all ht) hcs)
  rw [get_all_chk_eq (by unfold BLOCKS_CAP; omega) hcs hcg, Option.some_bind]
  by_cases hnm : (get_all who s).moves_next = s.moves_next
  · rw [if_pos hnm, if_pos hnm, hundo _ (Preserved_refl _), Option.map_some']
  rw [if_neg hnm, if_neg hnm]
  cases hl : legal_moves s.board who with
  | nil =>
    rw [hl] at g2
    exact absurd (by simpa using g2) hnm
  | cons c0 l =>
    have hc0 : c0 ∈ legal_moves s.board who := by rw [hl]; exact List.mem_cons_self _ _
    obtain ⟨hv0, hm0⟩ := mem_legal_moves.mp hc0
    have hblock := get_all_block who s
    rw [hl] at hblock
    simp only [List.length_cons, log_cells, List.cons.injEq] at hblock
    obtain ⟨hhead, htail⟩ := hblock
    have hnext : (get_all who s).moves_next = s.moves_next + ((l.length + 1 : Nat) : Int) := by
      rw [g2, hl]; rfl
    have hx : (get_all who s).moves_x s.moves_next = c0.1 := by rw [← hhead]
    have hy : (get_all who s).moves_y s.moves_next = c0.2 := by rw [← hhead]
    have hcount : ((get_all who s).moves_next - (s.moves_next + 1)).toNat = l.length := by
      rw [hnext]; push_cast; omega
    rw [hx, hy, hcount]
    clear g1 g2 g4 g5 hcg hgpos hnm hx hy hcount hhead
    generalize get_all who s = g at *
    have hp2 : Preserved g { g with suggested_move_x := c0.1, suggested_move_y := c0.2 } :=
      ⟨rfl, rfl, rfl, rfl, rfl, fun _ _ => ⟨rfl, rfl⟩, fun _ _ => rfl, fun _ _ => ⟨rfl, rfl⟩,
        fun _ _ => ⟨rfl, rfl⟩⟩
    have hspec : ∀ c ∈ legal_moves s.board who, ∀ t, Preserved g t →
        weigh_move_chk fuel c.1 c.2 who (effective_depth s.board max_depth) 1 t
          = weigh_move fuel c.1 c.2 who (effective_depth s.board max_depth) 1 t ∧
        ∃ v t', weigh_move fuel c.1 c.2 who (effective_depth s.board max_depth) 1 t
            = some (v, t') ∧ Preserved g t' := by
      intro c hc t ht
      obtain ⟨hv, hm⟩ := mem_legal_moves.mp hc
      have htb : t.board = s.board := by rw [ht.1, hgb]
      have hf : empties t.board ≤ fuel ∨
          (0 ≤ effective_depth s.board max_depth ∧ effective_depth s.board max_depth < fuel) := by
        rw [htb]; exact hfuel
      refine ⟨weigh_move_chk_eq fuel c.1 c.2 who _ 1 t hwho hv (by rw [htb]; exact hm) hf
        (SearchInv_of_Preserved ht hsg), ?_⟩
      obtain ⟨t', h1, h2, _⟩ := weigh_move_spec_gen fuel c.1 c.2 who
        (effective_depth s.board max_depth) 1 t hwho hv (by rw [htb]; exact hm) hf
      exact ⟨_, t', h1, Preserved_trans ht h2⟩
    obtain ⟨e3, v3, t3, h3, hp3⟩ := hspec c0 hc0 _ hp2
    rw [e3, h3, Option.some_bind, Option.some_bind]
    have hloop := suggest_loop_chk_eq fuel rnd who (effective_depth s.board max_depth)
      g l (s.moves_next + 1) (by rw [hnext]; push_cast; omega) htail
      (fun c hc t ht => (hspec c (by rw [hl]; exact List.mem_cons_of_mem _ hc) t ht).1)
      (fun c hc t ht => (hspec c (by rw [hl]; exact List.mem_cons_of_mem _ hc) t ht).2)
      v3 0 t3 hp3
    obtain ⟨t4, h4, hp4, _⟩ := suggest_loop_spec fuel rnd who (effective_depth s.board max_depth)
      (fun c => score fuel s.board c.1 c.2 who (effective_depth s.board max_depth) 1)
      g l (s.moves_next + 1) (by rw [hnext]; push_cast; omega) htail
      (by
        intro c hc t ht
        have hcl : c ∈ legal_moves s.board who := by rw [hl]; exact List.mem_cons_of_mem _ hc
        obtain ⟨hv, hm⟩ := mem_legal_moves.mp hcl
        have htb : t.board = s.board := by rw [ht.1, hgb]
        obtain ⟨t', h1, h2, h3⟩ := weigh_move_spec_gen fuel c.1 c.2 who
          (effective_depth s.board max_depth) 1 t hwho hv (by rw [htb]; exact hm)
          (by rw [htb]; exact hfuel)
        rw [htb] at h1
        exact ⟨t', h1, Preserved_trans ht h2, h3⟩)
      v3 0 t3 hp3
    show (suggest_loop_chk fuel rnd who (effective_depth s.board max_depth) l.length
        (s.moves_next + 1) v3 0 t3).bind _ = _
    rw [hloop]
    show _ = (suggest_loop fuel rnd who (effective_depth s.board max_depth) l.length
        (s.moves_next + 1) v3 0 t3).map _
    rw [h4, Option.some_bind, Option.map_some']
    show (undo_get_all_chk t4).map _ = _
    rw [hundo t4 hp4, Option.map_some']

theorem GameInv_InCap {s : State} (h : GameInv s) : InCap s := by
  obtain ⟨i1, i2, i3, i4, i5, i6⟩ := h
  unfold InCap BLOCKS_CAP FLIPS_CAP MOVES_CAP
  refine ⟨by omega, by omega, by omega, by omega, by omega, by omega, by omega, by omega⟩

/-- The checks can fail: with 60 flip blocks logged, the checked `make_move` has
no room for another block. -/
theorem make_move_chk_full :
    (make_move_chk 2 3 BLACK { start_state with flips_stack_next := 60 }).isSome = false := by
  decide

/-- C18 (log capacity).  In every state reachable from `clear_board()` by legal
`make_move` calls and `undo_move` calls on a non-empty flip log: the counters are
inside the reserved arrays (`flips_stack_next ≤ 60`, `flips_next ≤ 1520`,
`moves_stack_next ≤ 60`, `moves_next ≤ 1830`, none negative); the flip-block
count equals 60 minus the number of Empty cells and the move log is empty; a
legal move writes its block at an index below 60 and its entries below 1520, and
`undo_move` on a non-empty flip log pops inside the arrays (the checked forms
return the result of the unchecked ones); and throughout a `weigh_move` or
`suggest_move` search started from such a state, with any depth, every
`make_move`, `get_all`, `undo_get_all` and `undo_move` passes its checks, blocks
being written at indices below 60: the checked search returns the result of
the search, and the search returns. A move block enumerated by `get_all` on a
board with `e` Empty cells has at most `e` entries, in any state. -/
theorem log_capacity (s : State) (h : GameReach s) :
    InCap s ∧
    s.flips_stack_next = 60 - number_of_empties s.board ∧
    s.moves_stack_next = 0 ∧ s.moves_next = 0 ∧
    (∀ (t : State) (who : Int),
      (get_all who t).moves_stack_block t.moves_stack_next ≤ number_of_empties t.board) ∧
    (∀ x y who : Int, (who = BLACK ∨ who = WHITE) → VALID_CELL x y →
      valid_move s.board x y who = 1 →
      s.flips_stack_next < 60 ∧ make_move_chk x y who s = some (make_move x y who s)) ∧
    (0 < s.flips_stack_next → undo_move_chk s = some (undo_move s)) ∧
    (∀ (fuel : Nat) (x y who max_depth add : Int), (who = BLACK ∨ who = WHITE) →
      VALID_CELL x y → valid_move s.board x y who = 1 → number_of_empties s.board ≤ fuel →
      weigh_move_chk fuel x y who max_depth add s = weigh_move fuel x y who max_depth add s ∧
      ∃ w t, weigh_move fuel x y who max_depth add s = some (w, t)) ∧
    (∀ (fuel : Nat) (rnd : Nat → Int) (who max_depth : Int), (who = BLACK ∨ who = WHITE) →
      number_of_empties s.board ≤ fuel →
      suggest_move_chk fuel rnd who max_depth s = suggest_move fuel rnd who max_depth s ∧
      ∃ r t, suggest_move fuel rnd who max_depth s = some (r, t)) := by
  have hinv := GameReach_GameInv h
  have hcap := GameInv_InCap hinv
  have hadq : ∀ (fuel : Nat) (d : Int), number_of_empties s.board ≤ fuel →
      (empties s.board ≤ fuel ∨ (0 ≤ d ∧ d < fuel)) := by
    intro fuel d hf
    rw [number_of_empties_eq] at hf
    left; exact_mod_cast hf
  refine ⟨hcap, ?_, hinv.2.1, hinv.1, ?_, ?_, ?_, ?_, ?_⟩
  · rw [number_of_empties_eq]
    exact hinv.2.2.2.1
  · intro t who
    rw [(get_all_counts who t).2.2.1, store_same, number_of_empties_eq]
    exact_mod_cast legal_moves_length_le t.board who
  · intro x y who hwho hxy hvalid
    have hpos := empties_pos hxy (valid_move_empty hxy hvalid)
    have h1 : s.flips_stack_next < 60 := by
      have := hinv.2.2.2.1
      omega
    exact ⟨h1, make_move_chk_eq h1 hcap
      (GameInv_InCap (GameReach_GameInv (GameReach.make_move x y who s h hwho hxy hvalid)))⟩
  · intro hpos
    exact undo_move_chk_eq hpos hcap
      (GameInv_InCap (GameReach_GameInv (GameReach.undo_move s h hpos)))
  · intro fuel x y who max_depth add hwho hxy hvalid hf
    refine ⟨weigh_move_chk_eq fuel x y who max_depth add s hwho hxy hvalid
      (hadq fuel max_depth hf) (GameInv_SearchInv hinv), ?_⟩
    obtain ⟨t, ht, _⟩ := weigh_move_spec_gen fuel x y who max_depth add s hwho hxy hvalid
      (hadq fuel max_depth hf)
    exact ⟨_, t, ht⟩
  · intro fuel rnd who max_depth hwho hf
    refine ⟨suggest_move_chk_eq fuel rnd who max_depth s hwho (hadq fuel _ hf) hinv, ?_⟩
    obtain ⟨r, t, ht, _⟩ := suggest_move_returns fuel rnd who max_depth s hwho (hadq fuel _ hf)
    exact ⟨r, t, ht⟩

/-- C18 after the opening move of Black at `(2, 3)`: the counters are inside the
arrays and one flip block is logged. -/
theorem log_capacity_witness :
    GameReach (make_move 2 3 BLACK start_state) ∧ InCap (make_move 2 3 BLACK start_state) ∧
    (make_move 2 3 BLACK start_state).flips_stack_next
      = 60 - number_of_empties (make_move 2 3 BLACK start_state).board :=
  have h : GameReach (make_move 2 3 BLACK start_state) :=
    GameReach.make_move 2 3 BLACK _ (GameReach.clear zero_state) (by decide) (by decide)
      (by decide)
  ⟨h, (log_capacity _ h).1, (log_capacity _ h).2.1⟩

end Othello
